import Mathlib

/-!
# warodai-yomichan: entry parser and expander

A shallow embedding of `warodai.go` (header parser, meaning splitter, sense
cleaner, entry expander) together with theorems about it.

Go strings are modelled as lists of Unicode code points (`Str`); the embedding
covers strings that are valid UTF-8, for which ranging over a string yields
exactly its code points and splitting on a one-rune separator splits between
code points.  Output written with `fmt.Println` / `fmt.Printf` is not part of
the model.  A run-time panic is modelled by `none`.
-/

namespace Warodai

/-- A Go string, as the list of its code points. -/
abbrev Str := List Char

/-! ## Library functions used by the source -/

/-- Go `unicode.IsSpace`: the Latin-1 spaces `\t \n \v \f \r`, space, U+0085,
U+00A0, and the other code points with the White_Space property. -/
def isSpace (c : Char) : Bool :=
  let n := c.toNat
  (9 ≤ n && n ≤ 13) || n = 0x20 || n = 0x85 || n = 0xA0 || n = 0x1680 ||
    (0x2000 ≤ n && n ≤ 0x200A) || n = 0x2028 || n = 0x2029 || n = 0x202F ||
    n = 0x205F || n = 0x3000

/-- Go `strings.TrimFunc`: drop the leading and the trailing run of characters
that satisfy `p`. -/
def TrimFunc (p : Char → Bool) (s : Str) : Str :=
  ((s.dropWhile p).reverse.dropWhile p).reverse

/-- Go `strings.TrimSpace`. -/
def TrimSpace (s : Str) : Str := TrimFunc isSpace s

/-- Go `strings.Trim(s, cutset)`. -/
def Trim (s : Str) (cutset : Str) : Str := TrimFunc (fun c => cutset.elem c) s

/-- Go `strings.Split(s, sep)` for a separator `sep` of one rune (the source
only uses `","` and the halfwidth middle dot): the pieces between the
occurrences of `sep`; one more piece than there are occurrences. -/
def Split (s : Str) (sep : Char) : List Str := s.splitOn sep

/-- Go `strings.SplitN(s, sep, 2)` for a separator of one rune: `s` is cut at
the first occurrence of `sep` only; without an occurrence the result is `[s]`. -/
def SplitN2 (s : Str) (sep : Char) : List Str :=
  match s.dropWhile (fun c => c != sep) with
  | [] => [s]
  | _ :: rest => [s.takeWhile (fun c => c != sep), rest]

/-- Go `(*Regexp).Split(s, -1)` for an expression that never matches the empty
string.  `m atStart t` is the length of the leftmost-first match that begins at
the head of `t` (`none` when no match begins there); `atStart` says that the
head of `t` is offset 0 of the text.  The text is scanned from the left; at the
first offset where a match begins the piece collected so far is emitted and the
scan resumes at the end of the match (`skip` counts the characters of the
current match still to be passed over).  The piece after the last match is
always emitted, also when it is empty. -/
def regexSplit (m : Bool → Str → Option Nat) : Bool → Nat → Str → Str → List Str
  | _, _, cur, [] => [cur]
  | _, skip + 1, cur, _ :: cs => regexSplit m false skip cur cs
  | atStart, 0, cur, c :: cs =>
    match m atStart (c :: cs) with
    | some (k + 1) => cur :: regexSplit m false k [] cs
    | _ => regexSplit m false 0 (cur ++ [c]) cs

/-- Go `(*Regexp).ReplaceAllString(s, repl)` for an expression that never
matches the empty string and a replacement without `$`: every match of the
left-to-right scan (as in `regexSplit`) is replaced by `repl`. -/
def regexReplaceAll (m : Bool → Str → Option Nat) (repl : Str) : Bool → Nat → Str → Str
  | _, _, [] => []
  | _, skip + 1, _ :: cs => regexReplaceAll m repl false skip cs
  | atStart, 0, c :: cs =>
    match m atStart (c :: cs) with
    | some (k + 1) => repl ++ regexReplaceAll m repl false k cs
    | _ => c :: regexReplaceAll m repl false 0 cs

/-- The class `[\r\n]` (also written `[\n\r]`) of the source's expressions. -/
def isLineBreak (c : Char) : Bool := c = '\r' || c = '\n'

/-- The class `\d` of Go regular expressions: the ASCII digits. -/
def isDigit (c : Char) : Bool := 48 ≤ c.toNat && c.toNat ≤ 57

/-- The class `\s` of Go regular expressions: `[\t\n\f\r ]`. -/
def isRxSpace (c : Char) : Bool :=
  c = '\t' || c = '\n' || c.toNat = 12 || c = '\r' || c = ' '

/-- Length of the match of `\d+\)` at the head of `s`: the greedy digit run
must be non-empty and followed by `)` (giving digits back cannot help, as a
digit is not `)`). -/
def digitsParenMatch (s : Str) : Option Nat :=
  let ds := s.takeWhile isDigit
  if ds = [] then none
  else
    match s.dropWhile isDigit with
    | c :: _ => if c = ')' then some (ds.length + 1) else none
    | [] => none

/-- Length of the leftmost-first match of `entrySplitRx`, the expression
`(^|[\r\n]+)\d+\)`, at the head of `s`.  The alternative `^` is tried first
and holds at offset 0 only; otherwise the greedy run `[\r\n]+` is taken whole
(a shorter run is followed by a line break, not by a digit). -/
def entrySplitRxMatch (atStart : Bool) (s : Str) : Option Nat :=
  match (if atStart then digitsParenMatch s else none) with
  | some n => some n
  | none =>
    let lbs := s.takeWhile isLineBreak
    if lbs = [] then none
    else (digitsParenMatch (s.dropWhile isLineBreak)).map (fun n => lbs.length + n)

/-- Length of the match of `\shref.+?>` at the head of `s` (the optional group
of `bbCodeRx` together with the closing `>`): one `\s`, the letters `href`, one
character other than `\n`, then lazily the shortest run of characters other
than `\n` that ends right before a `>`. -/
def hrefGroupMatch (s : Str) : Option Nat :=
  match s with
  | w :: h :: r :: e :: f :: c :: rest =>
    if isRxSpace w && h = 'h' && r = 'r' && e = 'e' && f = 'f' && c != '\n' then
      let run := rest.takeWhile (fun x => x != '>' && x != '\n')
      match rest.dropWhile (fun x => x != '>' && x != '\n') with
      | x :: _ => if x = '>' then some (6 + run.length + 1) else none
      | [] => none
    else none
  | _ => none

/-- Length of the leftmost-first match of `bbCodeRx`, the expression
`</?(i|a(\shref.+?)?)>`, at the head of `s`. -/
def bbCodeRxMatch (_atStart : Bool) (s : Str) : Option Nat :=
  match s with
  | lt :: r =>
    if lt = '<' then
      let slash : Nat := match r with
        | c :: _ => if c = '/' then 1 else 0
        | [] => 0
      match r.drop slash with
      | t :: r2 =>
        if t = 'i' then
          match r2 with
          | g :: _ => if g = '>' then some (1 + slash + 2) else none
          | [] => none
        else if t = 'a' then
          match hrefGroupMatch r2 with
          | some k => some (1 + slash + 1 + k)
          | none =>
            match r2 with
            | g :: _ => if g = '>' then some (1 + slash + 2) else none
            | [] => none
        else none
      | [] => none
    else none
  | [] => none

/-- Length of the leftmost-first match of `newLineTrimRx`, the expression
`[\.;]($|[\n\r]+)`, at the head of `s`: `$` holds at the end of the text only
and is tried first; otherwise the greedy run of line breaks is taken. -/
def newLineTrimRxMatch (_atStart : Bool) (s : Str) : Option Nat :=
  match s with
  | c :: r =>
    if c = '.' || c = ';' then
      if r = [] then some 1
      else
        let lbs := r.takeWhile isLineBreak
        if lbs = [] then none else some (1 + lbs.length)
    else none
  | [] => none

/-! ## Data model -/

/-- The struct `WarodaiHeader`. -/
structure WarodaiHeader where
  Kana : Str
  Kanji : Str
  Transcription : Str
  Tag : Str
  Id : Str
deriving DecidableEq, Repr

/-- The struct `WarodaiEntry`. -/
structure WarodaiEntry where
  Header : WarodaiHeader
  Meanings : List Str
deriving DecidableEq, Repr

/-- Modelled from the spec: the record type `yomi.YomiTerm` of the imported
package `bkrs2yomi` is not part of the sources; the expander sets its fields
`Expression`, `Reading` and `Glossary`, the three fields of the spec's
OutputRecord. -/
structure YomiTerm where
  Expression : Str
  Reading : Str
  Glossary : List Str
deriving DecidableEq, Repr

/-- The constants of type `HeaderFragmentType`. -/
inductive HeaderFragmentType where
  | Kana
  | Kanji
  | Transcription
  | Tag
  | Id
deriving DecidableEq, Repr

/-! ## Sense cleaner -/

/-- The body of the loop of `CleanEntryMeanings` for one line, with the two
expressions of `CreateLineCLeaner`. -/
def cleanLine (curLine : Str) : Str :=
  let curLine := Trim curLine [';', '.']
  let curLine := TrimSpace curLine
  let curLine := regexReplaceAll bbCodeRxMatch [] true 0 curLine
  let curLine := regexReplaceAll newLineTrimRxMatch ['\n'] true 0 curLine
  curLine

/-- `CleanEntryMeanings`, with the cleaner that `CreateLineCLeaner` returns
(the value `StartConverting` stores in `LineCLeaner` before any entry is
processed). -/
def CleanEntryMeanings (lines : List Str) : List Str :=
  lines.foldl (fun result curLine => result ++ [cleanLine curLine]) []

/-! ## Entry expander -/

/-- The loop `for i := range readings` of `WarodaiToYomiEntries`, over the
indices still to visit; `none` is an index out of range. -/
def expandLoop (Kanji : Str) (readings kanjis : List Str) (meanings : List Str) :
    List Nat → List YomiTerm → Option (List YomiTerm)
  | [], result => some result
  | i :: rest, result =>
    match readings[i]? with
    | none => none
    | some reading =>
      let curKana := TrimSpace reading
      if Kanji ≠ [] ∧ readings.length = kanjis.length then
        match kanjis[i]? with
        | none => none
        | some group =>
          let curKanjis := Split group '･'
          expandLoop Kanji readings kanjis meanings rest
            (curKanjis.foldl
              (fun result j => result ++ [⟨TrimSpace j, curKana, meanings⟩]) result)
      else if Kanji ≠ [] ∧ kanjis.length = 1 then
        expandLoop Kanji readings kanjis meanings rest
          (result ++ [⟨Kanji, curKana, meanings⟩])
      else
        expandLoop Kanji readings kanjis meanings rest
          (result ++ [⟨curKana, curKana, meanings⟩])

/-- `WarodaiToYomiEntries`; `none` is a run-time panic. -/
def WarodaiToYomiEntries (entry : WarodaiEntry) : Option (List YomiTerm) :=
  let readings := Split entry.Header.Kana ','
  let kanjis := Split entry.Header.Kanji ','
  if entry.Header.Kanji ≠ [] ∧ readings.length ≠ kanjis.length ∧ kanjis.length ≠ 1 then
    some []
  else
    let meanings := CleanEntryMeanings entry.Meanings
    expandLoop entry.Header.Kanji readings kanjis meanings (List.range readings.length) []

/-! ## Meaning splitter -/

/-- `ParseWarodaiMeanings`. -/
def ParseWarodaiMeanings (body : Str) : List Str :=
  let meanings := regexSplit entrySplitRxMatch true 0 [] body
  meanings.foldl
    (fun result m =>
      let line := TrimSpace m
      if line.length = 0 then result else result ++ [line]) []

/-! ## Header parser -/

/-- One iteration of the loop of `ParseWarodaiHeader` over the rune `ch`. -/
def headerStep (st : WarodaiHeader × HeaderFragmentType) (ch : Char) :
    WarodaiHeader × HeaderFragmentType :=
  if ch = '【' then (st.1, HeaderFragmentType.Kanji)
  else if ch = '(' then (st.1, HeaderFragmentType.Transcription)
  else if ch = '[' then (st.1, HeaderFragmentType.Tag)
  else if ch = '〔' then (st.1, HeaderFragmentType.Id)
  else if ['】', ')', '〕', ']'].elem ch then st
  else
    match st.2 with
    | HeaderFragmentType.Kana => ({ st.1 with Kana := st.1.Kana ++ [ch] }, st.2)
    | HeaderFragmentType.Kanji => ({ st.1 with Kanji := st.1.Kanji ++ [ch] }, st.2)
    | HeaderFragmentType.Transcription =>
      ({ st.1 with Transcription := st.1.Transcription ++ [ch] }, st.2)
    | HeaderFragmentType.Tag => ({ st.1 with Tag := st.1.Tag ++ [ch] }, st.2)
    | HeaderFragmentType.Id => ({ st.1 with Id := st.1.Id ++ [ch] }, st.2)

/-- `ParseWarodaiHeader`. -/
def ParseWarodaiHeader (header : Str) : WarodaiHeader :=
  let result := (header.foldl headerStep (⟨[], [], [], [], []⟩, HeaderFragmentType.Kana)).1
  { Kana := TrimSpace result.Kana
    Kanji := TrimSpace result.Kanji
    Transcription := TrimSpace result.Transcription
    Tag := TrimSpace result.Tag
    Id := TrimSpace result.Id }

/-! ## Entry parser -/

/-- `ParseEntry`; `none` is the run-time panic of reading `split[1]` when
`strings.SplitN` returned one element. -/
def ParseEntry (entry : Str) : Option WarodaiEntry :=
  let split := SplitN2 entry '\n'
  match split[0]?, split[1]? with
  | some header, some body =>
    some { Header := ParseWarodaiHeader header, Meanings := ParseWarodaiMeanings body }
  | _, _ => none

/-! ## Auxiliary definitions for the statements -/

/-- The records that one iteration of the loop of `WarodaiToYomiEntries`
appends for the reading at index `i`, by the three rules of the expander. -/
def recordsAt (Kanji : Str) (readings kanjis : List Str) (meanings : List Str)
    (i : Nat) : List YomiTerm :=
  if Kanji ≠ [] ∧ readings.length = kanjis.length then
    (Split (kanjis.getD i []) '･').map
      (fun j => ⟨TrimSpace j, TrimSpace (readings.getD i []), meanings⟩)
  else if Kanji ≠ [] ∧ kanjis.length = 1 then
    [⟨Kanji, TrimSpace (readings.getD i []), meanings⟩]
  else
    [⟨TrimSpace (readings.getD i []), TrimSpace (readings.getD i []), meanings⟩]

/-- The eight bracket characters of the header format. -/
def brackets : List Char := ['【', '】', '(', ')', '[', ']', '〔', '〕']

/-- The four opening brackets. -/
def openers : List Char := ['【', '(', '[', '〔']

/-- The four closing brackets, the set tested by `strings.ContainsRune`. -/
def closers : List Char := ['】', ')', '〕', ']']

/-- The header `hdr` with the text `x` appended to the field named by `f`. -/
def appendField (f : HeaderFragmentType) (hdr : WarodaiHeader) (x : Str) : WarodaiHeader :=
  match f with
  | HeaderFragmentType.Kana => { hdr with Kana := hdr.Kana ++ x }
  | HeaderFragmentType.Kanji => { hdr with Kanji := hdr.Kanji ++ x }
  | HeaderFragmentType.Transcription => { hdr with Transcription := hdr.Transcription ++ x }
  | HeaderFragmentType.Tag => { hdr with Tag := hdr.Tag ++ x }
  | HeaderFragmentType.Id => { hdr with Id := hdr.Id ++ x }

/-- The field that the opening bracket `o` makes active (`f` when `o` is not
an opening bracket). -/
def fragOfOpener (o : Char) (f : HeaderFragmentType) : HeaderFragmentType :=
  if o = '【' then HeaderFragmentType.Kanji
  else if o = '(' then HeaderFragmentType.Transcription
  else if o = '[' then HeaderFragmentType.Tag
  else if o = '〔' then HeaderFragmentType.Id
  else f

/-- An optional header segment written between the brackets `o` and `c`;
no text at all when the segment is left out. -/
def bracketed (o c : Char) : Option Str → Str
  | none => []
  | some x => o :: (x ++ [c])

/-- Header line and body of the entry of `TestParseEntry`. -/
def tengenHeader : Str := "てんげん【天元】(тэнгэн)〔006-56-61〕".toList

/-- Body of the entry of `TestParseEntry`. -/
def tengenBody : Str :=
  "1) центр вселенной;\n2) центр доски <i>(для игры в го)</i>.".toList

/-- The text `s` begins with one or more digits followed by ")". -/
def digitsThenParen : Str → Bool
  | c :: c2 :: cs => isDigit c && (c2 = ')' || digitsThenParen (c2 :: cs))
  | _ => false

/-- The text `s` contains a line break (`\n` or `\r`) immediately followed by
one or more digits and ")". -/
def hasMarker : Str → Bool
  | [] => false
  | c :: cs => (isLineBreak c && digitsThenParen cs) || hasMarker cs

/-- The numbered body d1 ++ ")" ++ s1 ++ "\n" ++ d2 ++ ")" ++ s2 ++ ... for the
list of pairs (di, si). -/
def numberedBody (segs : List (Str × Str)) : Str :=
  ['\n'].intercalate (segs.map (fun p => p.1 ++ ')' :: p.2))

/-- What follows the first segment text in a numbered body: for every further
pair (d, s) the line break, the marker d ++ ")" and the text s. -/
def numberedTail : List (Str × Str) → Str
  | [] => []
  | p :: rest => '\n' :: (p.1 ++ ')' :: (p.2 ++ numberedTail rest))

/-- Length of the match of `[\r\n]*\d+\)` at the head of `s`: what is left of
`entrySplitRx` once a first line break has been taken. -/
def lineBreaksThenMarker (s : Str) : Option Nat :=
  (digitsParenMatch (s.dropWhile isLineBreak)).map
    (fun n => (s.takeWhile isLineBreak).length + n)

/-- Three senses with markers 7, 12 and 3; the second one is blank. -/
def sensesUnordered : List (Str × Str) :=
  [("7".toList, " в городе; на территории города\n市中は火の消えたようです;\r".toList),
   ("12".toList, " \n".toList),
   ("3".toList, " открытый (вольный) рынок.".toList)]

/-- The field of `hdr` named by the fragment type `f`. -/
def fieldOf (f : HeaderFragmentType) (hdr : WarodaiHeader) : Str :=
  match f with
  | HeaderFragmentType.Kana => hdr.Kana
  | HeaderFragmentType.Kanji => hdr.Kanji
  | HeaderFragmentType.Transcription => hdr.Transcription
  | HeaderFragmentType.Tag => hdr.Tag
  | HeaderFragmentType.Id => hdr.Id

/-- A body without sense markers at a line start: "2)" stands in the middle of
the first line and the line break is followed by plain text (third case of
`TestParseWarodaiMeanings`, with a marker put inside the line). -/
def bodyUnnumbered : Str := "залог 2) заклад;\n～がない закладывать нечего.".toList

/-- The inline markup tags of the sense texts: `<i>`, `</i>`, `</a>` and
`<a href="u">` with the attribute value `u`. -/
inductive InlineTag where
  | iOpen
  | iClose
  | aClose
  | aOpen (u : Str)
deriving DecidableEq, Repr

/-- The text of an inline tag. -/
def InlineTag.text : InlineTag → Str
  | InlineTag.iOpen => ['<', 'i', '>']
  | InlineTag.iClose => ['<', '/', 'i', '>']
  | InlineTag.aClose => ['<', '/', 'a', '>']
  | InlineTag.aOpen u => ['<', 'a', ' ', 'h', 'r', 'e', 'f', '=', '"'] ++ u ++ ['"', '>']

/-- The attribute value of `<a href="u">` is free of ">" and of line breaks. -/
def InlineTag.wellFormed : InlineTag → Bool
  | InlineTag.aOpen u => u.all (fun c => c != '>' && !isLineBreak c)
  | _ => true

/-- The line p0 ++ t1 ++ p1 ++ ... ++ tn ++ pn for the first piece `p0` and the
list of pairs (ti, pi). -/
def taggedText (p0 : Str) (rest : List (InlineTag × Str)) : Str :=
  p0 ++ rest.flatMap (fun tp => tp.1.text ++ tp.2)

/-- The concatenation p0 ++ p1 ++ ... ++ pn of the text pieces alone. -/
def plainText (p0 : Str) (rest : List (InlineTag × Str)) : Str :=
  p0 ++ rest.flatMap (fun tp => tp.2)

/-- The text `s` contains a match of `bbCodeRx`, that is a tag as the cleaner
sees it. -/
def hasTag : Str → Bool
  | [] => false
  | c :: cs => (bbCodeRxMatch false (c :: cs)).isSome || hasTag cs

/-- The text `s` contains a ";" or "." that is directly followed by a line
break. -/
def punctBeforeBreak : Str → Bool
  | c :: c2 :: cs => ((c = '.' || c = ';') && isLineBreak c2) || punctBeforeBreak (c2 :: cs)
  | _ => false

/-- The characters that the two trimming steps of the cleaner remove at the
ends of a line: whitespace, ";" and ".". -/
def isTrimmed (c : Char) : Bool := isSpace c || c = ';' || c = '.'

/-- The pieces and tags of the second line of `TestCleanEntryMeanings`,
"рыбий клей; " before the first tag. -/
def glueRest : List (InlineTag × Str) :=
  [(InlineTag.iOpen, "ср.".toList), (InlineTag.iClose, " ".toList),
   (InlineTag.aOpen "#005-13-65".toList, "にべもない".toList), (InlineTag.aClose, [])]

/-- The length, 0 or 1, of the match of the optional "/" of `bbCodeRx` at the
head of `r`. -/
def slashLen (r : Str) : Nat :=
  match r with
  | c :: _ => if c = '/' then 1 else 0
  | [] => 0

/-- The part of `bbCodeRxMatch` after "<" and the optional "/" (of length
`slash`): the match of `(i|a(\shref.+?)?)>` at the head of `s`. -/
def bbCodeAfterSlash (slash : Nat) (s : Str) : Option Nat :=
  match s with
  | t :: r2 =>
    if t = 'i' then
      match r2 with
      | g :: _ => if g = '>' then some (1 + slash + 2) else none
      | [] => none
    else if t = 'a' then
      match hrefGroupMatch r2 with
      | some k => some (1 + slash + 1 + k)
      | none =>
        match r2 with
        | g :: _ => if g = '>' then some (1 + slash + 2) else none
        | [] => none
    else none
  | [] => none

/-- The line after the first three steps of `cleanLine`: the two trimming
steps and the removal of the tags. -/
def afterTagRemoval (curLine : Str) : Str :=
  regexReplaceAll bbCodeRxMatch [] true 0 (TrimSpace (Trim curLine [';', '.']))

/-- The three raw lines of `TestCleanEntryMeanings`. -/
def cleanerTestLines : List Str :=
  ["половина;.".toList,
   "рыбий клей; <i>ср.</i> <a href=\"#005-13-65\">にべもない</a>.".toList,
   "сосуд с маслом <i>(для волос и т. п.)</i>;\r\n<i>тех.</i> масляный резервуар.".toList]

/-- A line without any markup in which ";" before a line break follows ".". -/
def lineTwoPunctuations : Str := "и т. п.;\nслово".toList

/-- A line that is one italic abbreviation ending with ".". -/
def lineItalicAbbreviation : Str := "<i>см.</i>".toList

/-- The two punctuation characters that the cleaner trims and collapses. -/
def isPunct (c : Char) : Bool := c = ';' || c = '.'

/-- The strings that `bbCodeRx` matches: `<i>` and `<a>`, `<a` followed by one
`\s`, `href`, one character `c` and a run `u`, then `>`; each also in the
closing form with `/` after `<`. -/
inductive MarkupTag where
  | italic (closing : Bool)
  | anchor (closing : Bool)
  | anchorHref (closing : Bool) (w c : Char) (u : Str)
deriving DecidableEq, Repr

/-- The opening `<` or `</` of a tag. -/
def MarkupTag.opening (closing : Bool) : Str := if closing then ['<', '/'] else ['<']

/-- The text of a tag. -/
def MarkupTag.text : MarkupTag → Str
  | MarkupTag.italic cl => MarkupTag.opening cl ++ ['i', '>']
  | MarkupTag.anchor cl => MarkupTag.opening cl ++ ['a', '>']
  | MarkupTag.anchorHref cl w c u =>
    MarkupTag.opening cl ++ ['a', w, 'h', 'r', 'e', 'f', c] ++ u ++ ['>']

/-- In `<a` w `href` c u `>` the character w is a `\s`, c is not `\n`, and u
is free of `>` and of `\n`. -/
def MarkupTag.wellFormed : MarkupTag → Bool
  | MarkupTag.anchorHref _ w c u =>
    isRxSpace w && c != '\n' && u.all (fun x => x != '>' && x != '\n')
  | _ => true

/-- No tag begins at a character of the piece `p` when `p` is followed by the
text `after`. -/
def noTagBegins : Str → Str → Bool
  | [], _ => true
  | c :: cs, after => (bbCodeRxMatch false (c :: (cs ++ after))).isNone && noTagBegins cs after

/-- The text p0 ++ t1 ++ p1 ++ ... ++ tn ++ pn of a first piece and a list of
pairs (tag, piece). -/
def markedBody (p0 : Str) (rest : List (MarkupTag × Str)) : Str :=
  p0 ++ rest.flatMap (fun tp => tp.1.text ++ tp.2)

/-- No tag begins inside any of the pieces p0, ..., pn of a marked body: the
tags t1, ..., tn are all the tags there are. -/
def piecesTagFree : Str → List (MarkupTag × Str) → Bool
  | p0, [] => noTagBegins p0 []
  | p0, tp :: rest =>
    noTagBegins p0 (tp.1.text ++ markedBody tp.2 rest) && piecesTagFree tp.2 rest

/-- A raw meaning line read as: a run of ";" and ".", a run of whitespace, the
pieces and tags p0 t1 p1 ... tn pn, a run of whitespace, a run of ";" and ".". -/
structure MarkedLine where
  leadPunct : Str
  leadSpace : Str
  first : Str
  rest : List (MarkupTag × Str)
  trailSpace : Str
  trailPunct : Str
deriving DecidableEq, Repr

/-- The pieces and tags of the line, without the runs around them. -/
def MarkedLine.body (L : MarkedLine) : Str := markedBody L.first L.rest

/-- The raw line. -/
def MarkedLine.text (L : MarkedLine) : Str :=
  L.leadPunct ++ (L.leadSpace ++ L.body ++ L.trailSpace) ++ L.trailPunct

/-- The text pieces p0 ++ p1 ++ ... ++ pn of the line alone. -/
def MarkedLine.plain (L : MarkedLine) : Str := L.first ++ L.rest.flatMap (fun tp => tp.2)

/-- The reading of the line is the right one: the four runs consist of
punctuation and of whitespace, the tags are tags, no tag begins inside a
piece, and a first piece that begins with ";" or "." has whitespace before it
(else the character belongs to the leading run). -/
def MarkedLine.wellFormed (L : MarkedLine) : Bool :=
  L.leadPunct.all isPunct && L.leadSpace.all isSpace && L.trailSpace.all isSpace &&
    L.trailPunct.all isPunct && L.rest.all (fun tp => tp.1.wellFormed) &&
    piecesTagFree L.first L.rest &&
    L.first.head?.all (fun c => !isPunct c || !L.leadSpace.isEmpty)

/-- The text `s` contains two consecutive characters ";" or "." directly
before a line break. -/
def doublePunctBeforeBreak : Str → Bool
  | c1 :: c2 :: c3 :: cs =>
    (isPunct c1 && isPunct c2 && isLineBreak c3) || doublePunctBeforeBreak (c2 :: c3 :: cs)
  | _ => false

/-- The text `s` runs up to a ">" without a newline and without a ";" or "."
directly before a carriage return. -/
def hrefTailScan : Str → Bool
  | [] => false
  | x :: xs =>
    x = '>' || (x != '\n' && !(isPunct x && xs.head? = some '\r') && hrefTailScan xs)

/-- The text `s` can end a link tag after "href": one character, then a run
up to a ">", all of them other than a newline and none of them a ";" or "."
directly before a carriage return. -/
def hrefTail : Str → Bool
  | [] => false
  | c :: t => c != '\n' && !(isPunct c && t.head? = some '\r') && hrefTailScan t

/-- The text `r` begins with "a", then ";" or ".", then one or more line
breaks, then "href" and the end of a link tag. -/
def anchorSplitAt (r : Str) : Bool :=
  match r with
  | a :: p :: r2 =>
    a = 'a' && isPunct p && !(r2.takeWhile isLineBreak).isEmpty &&
      (r2.dropWhile isLineBreak).take 4 = ['h', 'r', 'e', 'f'] &&
      hrefTail ((r2.dropWhile isLineBreak).drop 4)
  | _ => false

/-- The text `s` contains `<a` or `</a` directly followed by ";" or ".", one
or more line breaks, "href" and the end of a link tag: collapsing the
punctuation and the line breaks into one newline would complete a tag. -/
def anchorSplitByBreak : Str → Bool
  | [] => false
  | c :: cs =>
    (c = '<' && (anchorSplitAt cs || anchorSplitAt (cs.drop (slashLen cs)))) ||
      anchorSplitByBreak cs

/-- The three raw lines of `TestCleanEntryMeanings` read as marked lines, and
the line " ;a" whose ";" has whitespace before it. -/
def markedTestLines : List MarkedLine :=
  [⟨[], [], "половина".toList, [], [], ";.".toList⟩,
   ⟨[], [], "рыбий клей; ".toList,
     [(MarkupTag.italic false, "ср.".toList), (MarkupTag.italic true, " ".toList),
      (MarkupTag.anchorHref false ' ' '=' "\"#005-13-65\"".toList, "にべもない".toList),
      (MarkupTag.anchor true, [])], [], ".".toList⟩,
   ⟨[], [], "сосуд с маслом ".toList,
     [(MarkupTag.italic false, "(для волос и т. п.)".toList),
      (MarkupTag.italic true, ";\r\n".toList),
      (MarkupTag.italic false, "тех.".toList),
      (MarkupTag.italic true, " масляный резервуар".toList)], [], ".".toList⟩,
   ⟨[], " ".toList, ";a".toList, [], [], []⟩]

/-- The fourth step of `cleanLine` on its own: every ";" or "." that stands
at the end of the text or before line breaks is replaced, together with the
line breaks, by one newline. -/
def punctCollapse (s : Str) : Str := regexReplaceAll newLineTrimRxMatch ['\n'] false 0 s

/-! ## Example entries -/

/-- Two readings paired with two spelling groups (fourth case of
`TestWarodaiToYomiEntries`). -/
def entryPaired : WarodaiEntry :=
  ⟨⟨"あおつづら, あおつづらふじ".toList, "青葛･防己･防已･木防已, 青葛藤･木防已".toList, [], [], []⟩, []⟩

/-- One reading, one spelling group with two alternates (first case of
`TestWarodaiToYomiEntries`). -/
def entryAlternates : WarodaiEntry :=
  ⟨⟨"うちあげる".toList, "打ち揚げる･打ち上げる".toList, [], [], []⟩, []⟩

/-- Two readings, one spelling group (third case of
`TestWarodaiToYomiEntries`). -/
def entryShared : WarodaiEntry :=
  ⟨⟨"ろくろくび, ろくろっくび".toList, "轆轤首".toList, [], [], []⟩, ["шея;".toList]⟩

/-- Two readings, no spelling (second case of `TestWarodaiToYomiEntries`). -/
def entryKanaOnly : WarodaiEntry :=
  ⟨⟨"ばちゃん, ばちゃんと".toList, [], [], [], []⟩, []⟩

/-- Two readings against three spelling groups. -/
def entryMismatch : WarodaiEntry :=
  ⟨⟨"あ, い".toList, "亜, 伊, 宇".toList, [], [], []⟩, ["x".toList]⟩

/-! ## Lemmas on the library functions -/

theorem foldl_snoc_eq_append_map {α β : Type} (f : α → β) (l : List α) (init : List β) :
    l.foldl (fun result j => result ++ [f j]) init = init ++ l.map f := by
  induction l generalizing init with
  | nil => simp
  | cons a l ih => simp [ih]

theorem Split_ne_nil (s : Str) (sep : Char) : Split s sep ≠ [] := by
  unfold Split List.splitOn
  exact List.splitOnP_ne_nil _ _

theorem Split_length_pos (s : Str) (sep : Char) : 0 < (Split s sep).length :=
  List.length_pos.mpr (Split_ne_nil s sep)

theorem Split_eq_single (s : Str) (sep : Char) (h : sep ∉ s) : Split s sep = [s] := by
  unfold Split List.splitOn
  apply List.splitOnP_eq_single
  intro x hx hp
  have : x = sep := by simpa using hp
  exact h (this ▸ hx)

theorem map_getD_range {α : Type} (l : List α) (d : α) :
    (List.range l.length).map (fun i => l.getD i d) = l := by
  apply List.ext_getElem
  · simp
  · intro n h₁ h₂
    simp [List.getD_eq_getElem?_getD, List.getElem?_eq_getElem h₂]

theorem CleanEntryMeanings_eq_map (lines : List Str) :
    CleanEntryMeanings lines = lines.map cleanLine := by
  unfold CleanEntryMeanings
  rw [foldl_snoc_eq_append_map]
  simp

/-! ## Lemmas on the expander -/

theorem expandLoop_eq (Kanji : Str) (readings kanjis meanings : List Str)
    (idx : List Nat) (hidx : ∀ i ∈ idx, i < readings.length) (result : List YomiTerm) :
    expandLoop Kanji readings kanjis meanings idx result =
      some (result ++ idx.flatMap (recordsAt Kanji readings kanjis meanings)) := by
  induction idx generalizing result with
  | nil => simp [expandLoop]
  | cons i rest ih =>
    have hi : i < readings.length := hidx i (List.mem_cons_self _ _)
    have hrest : ∀ j ∈ rest, j < readings.length :=
      fun j hj => hidx j (List.mem_cons_of_mem _ hj)
    unfold expandLoop
    rw [List.getElem?_eq_getElem hi]
    simp only []
    by_cases ha : Kanji ≠ [] ∧ readings.length = kanjis.length
    · have hk : i < kanjis.length := ha.2 ▸ hi
      rw [if_pos ha, List.getElem?_eq_getElem hk]
      simp only []
      rw [ih hrest, foldl_snoc_eq_append_map, List.flatMap_cons]
      conv_rhs => rw [recordsAt, if_pos ha]
      simp [List.getD_eq_getElem?_getD, List.getElem?_eq_getElem hi,
        List.getElem?_eq_getElem hk]
    · rw [if_neg ha]
      by_cases hb : Kanji ≠ [] ∧ kanjis.length = 1
      · rw [if_pos hb, ih hrest, List.flatMap_cons]
        conv_rhs => rw [recordsAt, if_neg ha, if_pos hb]
        simp [List.getD_eq_getElem?_getD, List.getElem?_eq_getElem hi]
      · rw [if_neg hb, ih hrest, List.flatMap_cons]
        conv_rhs => rw [recordsAt, if_neg ha, if_neg hb]
        simp [List.getD_eq_getElem?_getD, List.getElem?_eq_getElem hi]

theorem expand_range_eq (Kanji : Str) (readings kanjis meanings : List Str) :
    expandLoop Kanji readings kanjis meanings (List.range readings.length) [] =
      some ((List.range readings.length).flatMap
        (recordsAt Kanji readings kanjis meanings)) := by
  rw [expandLoop_eq _ _ _ _ _ (fun i hi => List.mem_range.mp hi)]
  simp

theorem recordsAt_length_pos (Kanji : Str) (readings kanjis meanings : List Str) (i : Nat) :
    1 ≤ (recordsAt Kanji readings kanjis meanings i).length := by
  unfold recordsAt
  split_ifs
  · simpa using Split_length_pos _ _
  · simp
  · simp

theorem WarodaiToYomiEntries_eq (entry : WarodaiEntry)
    (hvalid : ¬(entry.Header.Kanji ≠ [] ∧
      (Split entry.Header.Kana ',').length ≠ (Split entry.Header.Kanji ',').length ∧
      (Split entry.Header.Kanji ',').length ≠ 1)) :
    WarodaiToYomiEntries entry =
      some ((List.range (Split entry.Header.Kana ',').length).flatMap
        (recordsAt entry.Header.Kanji (Split entry.Header.Kana ',')
          (Split entry.Header.Kanji ',') (CleanEntryMeanings entry.Meanings))) := by
  unfold WarodaiToYomiEntries
  simp only []
  rw [if_neg hvalid, expand_range_eq]

theorem WarodaiToYomiEntries_invalid (entry : WarodaiEntry)
    (hv : entry.Header.Kanji ≠ [] ∧
      (Split entry.Header.Kana ',').length ≠ (Split entry.Header.Kanji ',').length ∧
      (Split entry.Header.Kanji ',').length ≠ 1) :
    WarodaiToYomiEntries entry = some [] := by
  unfold WarodaiToYomiEntries
  simp only []
  rw [if_pos hv]

theorem flatMap_single_eq_map {α β : Type} (f : α → β) (l : List α) :
    l.flatMap (fun a => [f a]) = l.map f := by
  induction l with
  | nil => rfl
  | cons a l ih => simp [List.flatMap_cons, ih]

theorem flatMap_range_single {α β : Type} (l : List α) (d : α) (g : α → β) :
    (List.range l.length).flatMap (fun i => [g (l.getD i d)]) = l.map g := by
  rw [flatMap_single_eq_map (fun i => g (l.getD i d))]
  conv_rhs => rw [← map_getD_range l d]
  rw [List.map_map]
  rfl

theorem length_le_length_flatMap {α β : Type} (f : α → List β)
    (hf : ∀ a, 1 ≤ (f a).length) (l : List α) : l.length ≤ (l.flatMap f).length := by
  induction l with
  | nil => simp
  | cons a l ih =>
    rw [List.flatMap_cons, List.length_append, List.length_cons]
    have := hf a
    omega

/-! ## The expander: rules (a), (b), (c) and the validity check -/

/-- C1: when the Kanji field is non-empty and Kana and Kanji split on "," into
the same number m of parts, the output is, for i = 0..m-1 in order and for each
alternate of the i-th kanji part (split on the middle dot) in order, one record
with Expression the trimmed alternate and Reading the trimmed i-th kana part;
its length is the sum of the alternate counts. -/
theorem C1_paired_groups_expand_alternates (entry : WarodaiEntry)
    (hK : entry.Header.Kanji ≠ [])
    (hlen : (Split entry.Header.Kana ',').length = (Split entry.Header.Kanji ',').length) :
    WarodaiToYomiEntries entry =
        some ((List.range (Split entry.Header.Kana ',').length).flatMap (fun i =>
          (Split ((Split entry.Header.Kanji ',').getD i []) '･').map (fun j =>
            ({ Expression := TrimSpace j
               Reading := TrimSpace ((Split entry.Header.Kana ',').getD i [])
               Glossary := CleanEntryMeanings entry.Meanings } : YomiTerm)))) ∧
      (WarodaiToYomiEntries entry).map List.length =
        some (((Split entry.Header.Kanji ',').map (fun g => (Split g '･').length)).sum) := by
  have hv : ¬(entry.Header.Kanji ≠ [] ∧
      (Split entry.Header.Kana ',').length ≠ (Split entry.Header.Kanji ',').length ∧
      (Split entry.Header.Kanji ',').length ≠ 1) := fun h => h.2.1 hlen
  have hrec : recordsAt entry.Header.Kanji (Split entry.Header.Kana ',')
      (Split entry.Header.Kanji ',') (CleanEntryMeanings entry.Meanings) =
      fun i => (Split ((Split entry.Header.Kanji ',').getD i []) '･').map (fun j =>
            ({ Expression := TrimSpace j
               Reading := TrimSpace ((Split entry.Header.Kana ',').getD i [])
               Glossary := CleanEntryMeanings entry.Meanings } : YomiTerm)) := by
    funext i
    rw [recordsAt, if_pos ⟨hK, hlen⟩]
  rw [WarodaiToYomiEntries_eq entry hv, hrec]
  refine ⟨rfl, ?_⟩
  simp only [Option.map_some', List.length_flatMap, List.map_map]
  congr 1
  have hfun : (List.length ∘ fun i =>
      (Split ((Split entry.Header.Kanji ',').getD i []) '･').map (fun j =>
            ({ Expression := TrimSpace j
               Reading := TrimSpace ((Split entry.Header.Kana ',').getD i [])
               Glossary := CleanEntryMeanings entry.Meanings } : YomiTerm))) =
      (fun g => (Split g '･').length) ∘ (fun i => (Split entry.Header.Kanji ',').getD i []) := by
    funext i
    simp
  rw [hfun, ← List.map_map, hlen, map_getD_range]

/-- Witness of C1 at the entry with two readings and two spelling groups of
four and two alternates: six records. -/
theorem C1_paired_groups_witness :
    WarodaiToYomiEntries entryPaired =
        some ((List.range (Split entryPaired.Header.Kana ',').length).flatMap (fun i =>
          (Split ((Split entryPaired.Header.Kanji ',').getD i []) '･').map (fun j =>
            ({ Expression := TrimSpace j
               Reading := TrimSpace ((Split entryPaired.Header.Kana ',').getD i [])
               Glossary := CleanEntryMeanings entryPaired.Meanings } : YomiTerm)))) ∧
      (WarodaiToYomiEntries entryPaired).map List.length =
        some (((Split entryPaired.Header.Kanji ',').map (fun g => (Split g '･').length)).sum) :=
  C1_paired_groups_expand_alternates entryPaired (by decide) (by decide)

/-- C2 as stated fails for k = 1: one reading and one spelling group take the
pairing rule, so the Kanji field is split on the middle dot; the entry with
Kana "うちあげる" and Kanji "打ち揚げる･打ち上げる" gives two records, none of
them with the whole Kanji field as Expression. -/
theorem C2_single_reading_counterexample :
    entryAlternates.Header.Kanji ≠ [] ∧ ',' ∉ entryAlternates.Header.Kanji ∧
      (Split entryAlternates.Header.Kana ',').length = 1 ∧
      WarodaiToYomiEntries entryAlternates =
        some [⟨"打ち揚げる".toList, "うちあげる".toList, []⟩,
              ⟨"打ち上げる".toList, "うちあげる".toList, []⟩] ∧
      WarodaiToYomiEntries entryAlternates ≠
        some ((Split entryAlternates.Header.Kana ',').map (fun r =>
          ({ Expression := entryAlternates.Header.Kanji
             Reading := TrimSpace r
             Glossary := CleanEntryMeanings entryAlternates.Meanings } : YomiTerm))) := by
  decide

/-- C2 (amended): when the Kanji field is non-empty and contains no ",", and
the Kana field splits into k readings with k ≠ 1 (or k = 1 and the Kanji field
has no middle dot and is already trimmed), the output is one record per
reading, in order, with Expression the whole Kanji field and Reading the
trimmed reading. -/
theorem C2_shared_spelling_one_record_per_reading (entry : WarodaiEntry)
    (hK : entry.Header.Kanji ≠ []) (hone : ',' ∉ entry.Header.Kanji)
    (hk : (Split entry.Header.Kana ',').length ≠ 1 ∨
      ('･' ∉ entry.Header.Kanji ∧ TrimSpace entry.Header.Kanji = entry.Header.Kanji)) :
    WarodaiToYomiEntries entry =
      some ((Split entry.Header.Kana ',').map (fun r =>
        ({ Expression := entry.Header.Kanji
           Reading := TrimSpace r
           Glossary := CleanEntryMeanings entry.Meanings } : YomiTerm))) := by
  have hks : Split entry.Header.Kanji ',' = [entry.Header.Kanji] := Split_eq_single _ _ hone
  have hv : ¬(entry.Header.Kanji ≠ [] ∧
      (Split entry.Header.Kana ',').length ≠ (Split entry.Header.Kanji ',').length ∧
      (Split entry.Header.Kanji ',').length ≠ 1) := by
    rw [hks]
    simp
  rw [WarodaiToYomiEntries_eq entry hv, hks]
  by_cases h1 : (Split entry.Header.Kana ',').length = 1
  · obtain ⟨hdot, htrim⟩ := hk.resolve_left (fun h => h h1)
    obtain ⟨r, hr⟩ := List.length_eq_one.mp h1
    rw [hr]
    have hrec : recordsAt entry.Header.Kanji [r] [entry.Header.Kanji]
        (CleanEntryMeanings entry.Meanings) 0 =
        [⟨entry.Header.Kanji, TrimSpace r, CleanEntryMeanings entry.Meanings⟩] := by
      rw [recordsAt, if_pos ⟨hK, rfl⟩]
      simp [Split_eq_single _ _ hdot, htrim]
    have hrange : List.range 1 = [0] := rfl
    simp [hrange, hrec]
  · have hrec : recordsAt entry.Header.Kanji (Split entry.Header.Kana ',')
        [entry.Header.Kanji] (CleanEntryMeanings entry.Meanings) =
        fun i => [({ Expression := entry.Header.Kanji
                     Reading := TrimSpace ((Split entry.Header.Kana ',').getD i [])
                     Glossary := CleanEntryMeanings entry.Meanings } : YomiTerm)] := by
      funext i
      rw [recordsAt, if_neg (fun h => h1 (by simpa using h.2)), if_pos ⟨hK, rfl⟩]
    rw [hrec]
    exact congrArg some (flatMap_range_single (Split entry.Header.Kana ',') []
      (fun r => ({ Expression := entry.Header.Kanji
                   Reading := TrimSpace r
                   Glossary := CleanEntryMeanings entry.Meanings } : YomiTerm)))

/-- Witness of C2 (amended) at the entry with readings "ろくろくび",
"ろくろっくび" and the one spelling "轆轤首". -/
theorem C2_shared_spelling_witness :
    WarodaiToYomiEntries entryShared =
      some ((Split entryShared.Header.Kana ',').map (fun r =>
        ({ Expression := entryShared.Header.Kanji
           Reading := TrimSpace r
           Glossary := CleanEntryMeanings entryShared.Meanings } : YomiTerm))) :=
  C2_shared_spelling_one_record_per_reading entryShared (by decide) (by decide)
    (Or.inl (by decide))

/-- C3: when the Kanji field is empty the output is one record per
comma-separated reading, in order, with Expression = Reading = the trimmed
reading. -/
theorem C3_kana_only_reading_is_expression (entry : WarodaiEntry)
    (hK : entry.Header.Kanji = []) :
    WarodaiToYomiEntries entry =
      some ((Split entry.Header.Kana ',').map (fun r =>
        ({ Expression := TrimSpace r
           Reading := TrimSpace r
           Glossary := CleanEntryMeanings entry.Meanings } : YomiTerm))) := by
  have hv : ¬(entry.Header.Kanji ≠ [] ∧
      (Split entry.Header.Kana ',').length ≠ (Split entry.Header.Kanji ',').length ∧
      (Split entry.Header.Kanji ',').length ≠ 1) := fun h => h.1 hK
  have hrec : recordsAt entry.Header.Kanji (Split entry.Header.Kana ',')
      (Split entry.Header.Kanji ',') (CleanEntryMeanings entry.Meanings) =
      fun i => [({ Expression := TrimSpace ((Split entry.Header.Kana ',').getD i [])
                   Reading := TrimSpace ((Split entry.Header.Kana ',').getD i [])
                   Glossary := CleanEntryMeanings entry.Meanings } : YomiTerm)] := by
    funext i
    rw [recordsAt, if_neg (fun h => h.1 hK), if_neg (fun h => h.1 hK)]
  rw [WarodaiToYomiEntries_eq entry hv, hrec]
  exact congrArg some (flatMap_range_single (Split entry.Header.Kana ',') []
    (fun r => ({ Expression := TrimSpace r
                 Reading := TrimSpace r
                 Glossary := CleanEntryMeanings entry.Meanings } : YomiTerm)))

/-- Witness of C3 at the entry with Kana "ばちゃん, ばちゃんと" and no Kanji. -/
theorem C3_kana_only_witness :
    WarodaiToYomiEntries entryKanaOnly =
      some ((Split entryKanaOnly.Header.Kana ',').map (fun r =>
        ({ Expression := TrimSpace r
           Reading := TrimSpace r
           Glossary := CleanEntryMeanings entryKanaOnly.Meanings } : YomiTerm))) :=
  C3_kana_only_reading_is_expression entryKanaOnly (by decide)

/-- C4: when the Kanji field is non-empty, the number of readings differs from
the number of spelling groups and the number of spelling groups is not 1, the
output is the empty sequence. -/
theorem C4_mismatch_returns_empty (entry : WarodaiEntry)
    (hK : entry.Header.Kanji ≠ [])
    (hne : (Split entry.Header.Kana ',').length ≠ (Split entry.Header.Kanji ',').length)
    (hgroups : (Split entry.Header.Kanji ',').length ≠ 1) :
    WarodaiToYomiEntries entry = some [] := by
  unfold WarodaiToYomiEntries
  simp only []
  rw [if_pos ⟨hK, hne, hgroups⟩]

/-- Witness of C4 at an entry with two readings and three spelling groups. -/
theorem C4_mismatch_witness : WarodaiToYomiEntries entryMismatch = some [] :=
  C4_mismatch_returns_empty entryMismatch (by decide) (by decide) (by decide)

/-- C5: for a valid entry (Kanji empty, or as many readings as spelling
groups, or exactly one spelling group) the output is non-empty and has at
least as many records as the Kana field has comma-separated readings. -/
theorem C5_valid_entry_nonempty_output (entry : WarodaiEntry)
    (hvalid : entry.Header.Kanji = [] ∨
      (Split entry.Header.Kana ',').length = (Split entry.Header.Kanji ',').length ∨
      (Split entry.Header.Kanji ',').length = 1) :
    ∃ out, WarodaiToYomiEntries entry = some out ∧ out ≠ [] ∧
      (Split entry.Header.Kana ',').length ≤ out.length := by
  have hv : ¬(entry.Header.Kanji ≠ [] ∧
      (Split entry.Header.Kana ',').length ≠ (Split entry.Header.Kanji ',').length ∧
      (Split entry.Header.Kanji ',').length ≠ 1) := by
    rintro ⟨h1, h2, h3⟩
    rcases hvalid with h | h | h
    · exact h1 h
    · exact h2 h
    · exact h3 h
  refine ⟨_, WarodaiToYomiEntries_eq entry hv, ?_, ?_⟩
  · intro hnil
    have hle := length_le_length_flatMap
      (recordsAt entry.Header.Kanji (Split entry.Header.Kana ',')
        (Split entry.Header.Kanji ',') (CleanEntryMeanings entry.Meanings))
      (recordsAt_length_pos _ _ _ _) (List.range (Split entry.Header.Kana ',').length)
    rw [hnil, List.length_range, List.length_nil] at hle
    have := Split_length_pos entry.Header.Kana ','
    omega
  · have hle := length_le_length_flatMap
      (recordsAt entry.Header.Kanji (Split entry.Header.Kana ',')
        (Split entry.Header.Kanji ',') (CleanEntryMeanings entry.Meanings))
      (recordsAt_length_pos _ _ _ _) (List.range (Split entry.Header.Kana ',').length)
    rwa [List.length_range] at hle

/-- Witness of C5 at the entry with one reading and two alternates. -/
theorem C5_valid_entry_witness :
    ∃ out, WarodaiToYomiEntries entryAlternates = some out ∧ out ≠ [] ∧
      (Split entryAlternates.Header.Kana ',').length ≤ out.length :=
  C5_valid_entry_nonempty_output entryAlternates (Or.inr (Or.inl (by decide)))

/-! ## Lemmas on the entry parser and the header parser -/

theorem SplitN2_no_sep (s : Str) (sep : Char) (h : sep ∉ s) : SplitN2 s sep = [s] := by
  have hd : s.dropWhile (fun c => c != sep) = [] := by
    rw [List.dropWhile_eq_nil_iff]
    intro x hx
    have : x ≠ sep := fun e => h (e ▸ hx)
    simpa using this
  unfold SplitN2
  rw [hd]

theorem SplitN2_first_sep (h b : Str) (sep : Char) (hh : sep ∉ h) :
    SplitN2 (h ++ sep :: b) sep = [h, b] := by
  have hall : ∀ x ∈ h, (fun c => c != sep) x = true := by
    intro x hx
    have : x ≠ sep := fun e => hh (e ▸ hx)
    simpa using this
  unfold SplitN2
  rw [List.dropWhile_append_of_pos hall, List.takeWhile_append_of_pos hall]
  simp

theorem ParseEntry_no_line_break (entry : Str) (h : '\n' ∉ entry) : ParseEntry entry = none := by
  unfold ParseEntry
  rw [SplitN2_no_sep entry '\n' h]
  rfl

theorem headerStep_plain (hdr : WarodaiHeader) (f : HeaderFragmentType) (ch : Char)
    (hch : ch ∉ brackets) : headerStep (hdr, f) ch = (appendField f hdr [ch], f) := by
  simp only [brackets, List.mem_cons, List.mem_singleton, not_or, List.not_mem_nil,
    or_false] at hch
  obtain ⟨h1, h2, h3, h4, h5, h6, h7, h8⟩ := hch
  unfold headerStep
  rw [if_neg h1, if_neg h3, if_neg h5, if_neg h7]
  have hc : (['】', ')', '〕', ']'].elem ch) = false := by
    simp [h2, h4, h6, h8]
  rw [hc]
  cases f <;> rfl

theorem headerStep_closer (st : WarodaiHeader × HeaderFragmentType) (ch : Char)
    (hch : ch ∈ closers) : headerStep st ch = st := by
  simp only [closers, List.mem_cons, List.mem_singleton, List.not_mem_nil, or_false] at hch
  rcases hch with h | h | h | h <;> subst h <;> rfl

theorem headerStep_opener (hdr : WarodaiHeader) (f : HeaderFragmentType) (ch : Char)
    (hch : ch ∈ openers) : headerStep (hdr, f) ch = (hdr, fragOfOpener ch f) := by
  simp only [openers, List.mem_cons, List.mem_singleton, List.not_mem_nil, or_false] at hch
  rcases hch with h | h | h | h <;> subst h <;> rfl

theorem appendField_nil (f : HeaderFragmentType) (hdr : WarodaiHeader) :
    appendField f hdr [] = hdr := by
  cases f <;> simp [appendField]

theorem appendField_append (f : HeaderFragmentType) (hdr : WarodaiHeader) (x y : Str) :
    appendField f (appendField f hdr x) y = appendField f hdr (x ++ y) := by
  cases f <;> simp [appendField]

theorem foldl_headerStep_plain (x : Str) (hx : ∀ ch ∈ x, ch ∉ brackets)
    (hdr : WarodaiHeader) (f : HeaderFragmentType) :
    x.foldl headerStep (hdr, f) = (appendField f hdr x, f) := by
  induction x generalizing hdr with
  | nil => rw [List.foldl_nil, appendField_nil]
  | cons ch x ih =>
    rw [List.foldl_cons, headerStep_plain hdr f ch (hx ch (List.mem_cons_self _ _)),
      ih (fun c hc => hx c (List.mem_cons_of_mem _ hc)), appendField_append]
    rfl

theorem foldl_headerStep_bracketed (o c : Char) (ho : o ∈ openers) (hc : c ∈ closers)
    (seg : Option Str) (hseg : ∀ x ∈ seg, ∀ ch ∈ x, ch ∉ brackets)
    (hdr : WarodaiHeader) (f : HeaderFragmentType) :
    (bracketed o c seg).foldl headerStep (hdr, f) =
      (appendField (fragOfOpener o f) hdr (seg.getD []),
        if seg.isSome then fragOfOpener o f else f) := by
  cases seg with
  | none => simp [bracketed, appendField_nil]
  | some x =>
    simp only [bracketed, List.foldl_cons, List.foldl_append, List.foldl_nil]
    rw [headerStep_opener hdr f o ho, foldl_headerStep_plain x (hseg x rfl),
      headerStep_closer _ c hc]
    simp

theorem foldl_headerStep_filter_closers (line : Str)
    (st : WarodaiHeader × HeaderFragmentType) :
    line.foldl headerStep st =
      (line.filter (fun c => !closers.elem c)).foldl headerStep st := by
  induction line generalizing st with
  | nil => rfl
  | cons ch line ih =>
    by_cases hch : ch ∈ closers
    · have hf : (!closers.elem ch) = false := by simpa using hch
      rw [List.foldl_cons, headerStep_closer st ch hch, List.filter_cons, hf]
      exact ih st
    · have hf : (!closers.elem ch) = true := by simpa using hch
      rw [List.foldl_cons, List.filter_cons, hf, if_pos rfl, List.foldl_cons]
      exact ih _

theorem not_mem_brackets_of (ch : Char) (ho : ch ∉ openers) (hc : ch ∉ closers) :
    ch ∉ brackets := by
  simp only [openers, closers, brackets, List.mem_cons, List.mem_singleton,
    List.not_mem_nil, or_false, not_or] at ho hc ⊢
  tauto

theorem TrimSpace_nil : TrimSpace [] = [] := rfl

/-! ## The entry parser -/

/-- C6 (the code departs from it): on an entry text without a line break
`ParseEntry` reads `split[1]` of a one-element slice, a run-time panic, where
the claim has it return an entry; evaluated at the header line of the test
entry alone and at the empty text. -/
theorem C6_parse_entry_panics_without_line_break :
    '\n' ∉ tengenHeader ∧ ParseEntry tengenHeader = none ∧ ParseEntry [] = none := by
  decide

/-- C7: for a header text h without "\n" and any body b, `ParseEntry` on
h ++ "\n" ++ b returns Header = ParseWarodaiHeader(h) and Meanings =
ParseWarodaiMeanings(b), the text being cut at the first line break only; for
the entry of `TestParseEntry` the first meaning is "центр вселенной;" (not
cleaned) and the Kanji is "天元". -/
theorem C7_parse_entry_splits_at_first_line_break (h b : Str) (hh : '\n' ∉ h) :
    ParseEntry (h ++ '\n' :: b) =
        some { Header := ParseWarodaiHeader h, Meanings := ParseWarodaiMeanings b } ∧
      (ParseEntry (tengenHeader ++ '\n' :: tengenBody)).map
          (fun e => (e.Meanings.head?, e.Header.Kanji)) =
        some (some "центр вселенной;".toList, "天元".toList) := by
  constructor
  · unfold ParseEntry
    rw [SplitN2_first_sep h b '\n' hh]
    rfl
  · decide

/-- Witness of C7 at the entry of `TestParseEntry`. -/
theorem C7_parse_entry_witness :
    ParseEntry (tengenHeader ++ '\n' :: tengenBody) =
        some { Header := ParseWarodaiHeader tengenHeader
               Meanings := ParseWarodaiMeanings tengenBody } ∧
      (ParseEntry (tengenHeader ++ '\n' :: tengenBody)).map
          (fun e => (e.Meanings.head?, e.Header.Kanji)) =
        some (some "центр вселенной;".toList, "天元".toList) :=
  C7_parse_entry_splits_at_first_line_break tengenHeader tengenBody (by decide)

/-! ## The header parser -/

/-- C8: for texts K, J, T, G, I free of the eight bracket characters, the
header K【J】(T)[G]〔I〕 parses to the five trimmed texts; each of the four
bracketed segments may be left out, and then its field is the empty string
while the other fields are unchanged. -/
theorem C8_header_fields_by_bracket (K : Str) (J T G I : Option Str)
    (hK : ∀ ch ∈ K, ch ∉ brackets)
    (hJ : ∀ x ∈ J, ∀ ch ∈ x, ch ∉ brackets)
    (hT : ∀ x ∈ T, ∀ ch ∈ x, ch ∉ brackets)
    (hG : ∀ x ∈ G, ∀ ch ∈ x, ch ∉ brackets)
    (hI : ∀ x ∈ I, ∀ ch ∈ x, ch ∉ brackets) :
    ParseWarodaiHeader
        (K ++ bracketed '【' '】' J ++ bracketed '(' ')' T ++ bracketed '[' ']' G ++
          bracketed '〔' '〕' I) =
      { Kana := TrimSpace K
        Kanji := (J.map TrimSpace).getD []
        Transcription := (T.map TrimSpace).getD []
        Tag := (G.map TrimSpace).getD []
        Id := (I.map TrimSpace).getD [] } := by
  have hopt : ∀ o : Option Str, (o.map TrimSpace).getD [] = TrimSpace (o.getD []) := by
    intro o
    cases o <;> rfl
  unfold ParseWarodaiHeader
  simp only [List.foldl_append]
  rw [foldl_headerStep_plain K hK,
    foldl_headerStep_bracketed '【' '】' (by decide) (by decide) J hJ,
    foldl_headerStep_bracketed '(' ')' (by decide) (by decide) T hT,
    foldl_headerStep_bracketed '[' ']' (by decide) (by decide) G hG,
    foldl_headerStep_bracketed '〔' '〕' (by decide) (by decide) I hI]
  simp only [hopt]
  have f1 : ∀ f, fragOfOpener '【' f = HeaderFragmentType.Kanji := fun _ => rfl
  have f2 : ∀ f, fragOfOpener '(' f = HeaderFragmentType.Transcription := fun _ => rfl
  have f3 : ∀ f, fragOfOpener '[' f = HeaderFragmentType.Tag := fun _ => rfl
  have f4 : ∀ f, fragOfOpener '〔' f = HeaderFragmentType.Id := fun _ => rfl
  simp only [f1, f2, f3, f4, appendField, List.nil_append]

/-- Witness of C8 at the third header of `TestParseWarodaiHeader`, which has
neither a kanji nor a tag segment. -/
theorem C8_header_fields_witness :
    ParseWarodaiHeader
        ("ヴォーカル・フォア".toList ++ bracketed '【' '】' none ++
          bracketed '(' ')' (some "во:кару-фоа".toList) ++ bracketed '[' ']' none ++
          bracketed '〔' '〕' (some "004-53-33".toList)) =
      { Kana := TrimSpace "ヴォーカル・フォア".toList
        Kanji := ((none : Option Str).map TrimSpace).getD []
        Transcription := ((some "во:кару-фоа".toList).map TrimSpace).getD []
        Tag := ((none : Option Str).map TrimSpace).getD []
        Id := ((some "004-53-33".toList).map TrimSpace).getD [] } :=
  C8_header_fields_by_bracket "ヴォーカル・フォア".toList none (some "во:кару-фоа".toList) none
    (some "004-53-33".toList) (by decide) (by decide) (by decide) (by decide) (by decide)

/-- C9: a header line without any of the four opening brackets is assigned to
kana as a whole: Kana is the line with the closing brackets deleted and then
trimmed, and the four other fields are empty. -/
theorem C9_no_opener_all_text_is_kana (line : Str) (hline : ∀ ch ∈ line, ch ∉ openers) :
    ParseWarodaiHeader line =
      { Kana := TrimSpace (line.filter (fun c => !closers.elem c))
        Kanji := []
        Transcription := []
        Tag := []
        Id := [] } := by
  have hplain : ∀ ch ∈ line.filter (fun c => !closers.elem c), ch ∉ brackets := by
    intro ch hch
    rw [List.mem_filter] at hch
    exact not_mem_brackets_of ch (hline ch hch.1) (by simpa using hch.2)
  unfold ParseWarodaiHeader
  rw [foldl_headerStep_filter_closers, foldl_headerStep_plain _ hplain]
  simp only [appendField, List.nil_append, TrimSpace_nil]

/-- Witness of C9 at a line with closing brackets only. -/
theorem C9_no_opener_witness :
    ParseWarodaiHeader " ばちゃん】, ばちゃんと) ".toList =
      { Kana := TrimSpace (" ばちゃん】, ばちゃんと) ".toList.filter (fun c => !closers.elem c))
        Kanji := []
        Transcription := []
        Tag := []
        Id := [] } :=
  C9_no_opener_all_text_is_kana " ばちゃん】, ばちゃんと) ".toList (by decide)

/-! ## Lemmas on the meaning splitter -/

theorem ParseWarodaiMeanings_eq (body : Str) :
    ParseWarodaiMeanings body =
      ((regexSplit entrySplitRxMatch true 0 [] body).map TrimSpace).filter
        (fun t => decide (t ≠ [])) := by
  have key : ∀ (l : List Str) (init : List Str),
      l.foldl (fun result m =>
        let line := TrimSpace m
        if line.length = 0 then result else result ++ [line]) init =
      init ++ (l.map TrimSpace).filter (fun t => decide (t ≠ [])) := by
    intro l
    induction l with
    | nil => intro init; simp
    | cons a l ih =>
      intro init
      rw [List.foldl_cons, ih]
      by_cases ha : TrimSpace a = []
      · simp [ha]
      · have : (TrimSpace a).length ≠ 0 := fun h => ha (List.length_eq_zero.mp h)
        simp [ha, this]
  unfold ParseWarodaiMeanings
  rw [key]
  simp

theorem isDigit_not_lineBreak (c : Char) (h : isDigit c = true) : isLineBreak c = false := by
  unfold isLineBreak
  unfold isDigit at h
  by_contra hc
  simp only [Bool.not_eq_false, Bool.or_eq_true, decide_eq_true_eq] at hc
  rcases hc with hc | hc <;> subst hc <;> revert h <;> decide

theorem isLineBreak_isSpace (c : Char) (h : isLineBreak c = true) : isSpace c = true := by
  unfold isLineBreak at h
  simp only [Bool.or_eq_true, decide_eq_true_eq] at h
  rcases h with h | h <;> subst h <;> decide

theorem digitsParenMatch_nil : digitsParenMatch [] = none := rfl

theorem digitsParenMatch_of_not_digit (c : Char) (r : Str) (h : isDigit c = false) :
    digitsParenMatch (c :: r) = none := by
  simp [digitsParenMatch, List.takeWhile_cons, h]

theorem digitsParenMatch_digits (d : Str) (hd : d ≠ []) (hdig : ∀ c ∈ d, isDigit c = true)
    (Y : Str) : digitsParenMatch (d ++ ')' :: Y) = some (d.length + 1) := by
  have hp : isDigit ')' = false := by decide
  have ht : (d ++ ')' :: Y).takeWhile isDigit = d := by
    rw [List.takeWhile_append_of_pos hdig, List.takeWhile_cons, hp]
    simp
  have hdr : (d ++ ')' :: Y).dropWhile isDigit = ')' :: Y := by
    rw [List.dropWhile_append_of_pos hdig, List.dropWhile_cons, hp]
    simp
  unfold digitsParenMatch
  simp only [ht, hdr, if_neg hd]
  simp

theorem digitsParenMatch_isSome_iff (s : Str) :
    (digitsParenMatch s).isSome = true ↔
      s.takeWhile isDigit ≠ [] ∧ (s.dropWhile isDigit).head? = some ')' := by
  unfold digitsParenMatch
  by_cases h : s.takeWhile isDigit = []
  · simp [h]
  · cases hd : s.dropWhile isDigit with
    | nil => simp [h]
    | cons y r =>
      by_cases hy : y = ')'
      · simp [h, hy]
      · simp [h, hy]

theorem digitsThenParen_iff (s : Str) :
    digitsThenParen s = true ↔
      s.takeWhile isDigit ≠ [] ∧ (s.dropWhile isDigit).head? = some ')' := by
  have hp : isDigit ')' = false := by decide
  induction s with
  | nil => simp [digitsThenParen]
  | cons c r ih =>
    cases r with
    | nil =>
      by_cases hc : isDigit c = true
      · simp [digitsThenParen, List.takeWhile_cons, List.dropWhile_cons, hc]
      · simp [digitsThenParen, List.takeWhile_cons, List.dropWhile_cons, hc]
    | cons c2 cs =>
      by_cases hc : isDigit c = true
      · rw [digitsThenParen, List.takeWhile_cons_of_pos hc, List.dropWhile_cons_of_pos hc]
        simp only [hc, Bool.true_and, Bool.or_eq_true, decide_eq_true_eq, ih, ne_eq,
          reduceCtorEq, not_false_eq_true, true_and]
        by_cases h2 : c2 = ')'
        · subst h2
          simp [List.dropWhile_cons, hp]
        · by_cases hd2 : isDigit c2 = true
          · simp [h2, List.takeWhile_cons, hd2]
          · simp [h2, List.takeWhile_cons, List.dropWhile_cons, hd2]
      · simp [digitsThenParen, List.takeWhile_cons, hc]

theorem digitsParenMatch_isSome_eq (s : Str) :
    (digitsParenMatch s).isSome = digitsThenParen s := by
  rw [Bool.eq_iff_iff, digitsParenMatch_isSome_iff, digitsThenParen_iff]

/-- A text that is empty or begins with a character that is neither a digit
nor ")" cannot complete a marker begun before it. -/
theorem digitsThenParen_of_append (u tail : Str)
    (htail : ∀ y ∈ tail.head?, isDigit y = false ∧ y ≠ ')')
    (h : digitsThenParen (u ++ tail) = true) : digitsThenParen u = true := by
  have htl : digitsThenParen tail = false := by
    cases tail with
    | nil => rfl
    | cons y r =>
      have hy := (htail y rfl).1
      cases r with
      | nil => rfl
      | cons y2 r2 => simp [digitsThenParen, hy]
  induction u with
  | nil => rw [List.nil_append, htl] at h; exact absurd h (by simp)
  | cons c u ih =>
    cases u with
    | nil =>
      cases tail with
      | nil => simp [digitsThenParen] at h
      | cons y r =>
        have hy := (htail y rfl).2
        rw [List.singleton_append, digitsThenParen, htl] at h
        simp [hy] at h
    | cons c2 u2 =>
      rw [List.cons_append, List.cons_append, digitsThenParen] at h
      rw [digitsThenParen]
      simp only [Bool.and_eq_true, Bool.or_eq_true, decide_eq_true_eq] at h ⊢
      refine ⟨h.1, ?_⟩
      rcases h.2 with h2 | h2
      · exact Or.inl h2
      · exact Or.inr (ih h2)

theorem lineBreaksThenMarker_nil : lineBreaksThenMarker [] = none := rfl

theorem lineBreaksThenMarker_cons (c : Char) (r : Str) :
    lineBreaksThenMarker (c :: r) =
      if isLineBreak c = true then (lineBreaksThenMarker r).map (fun n => n + 1)
      else digitsParenMatch (c :: r) := by
  unfold lineBreaksThenMarker
  by_cases hc : isLineBreak c = true
  · rw [if_pos hc, List.dropWhile_cons_of_pos hc, List.takeWhile_cons_of_pos hc]
    cases digitsParenMatch (List.dropWhile isLineBreak r) with
    | none => rfl
    | some n => simp only [Option.map_some', List.length_cons]; congr 1; omega
  · rw [if_neg hc, List.dropWhile_cons_of_neg hc, List.takeWhile_cons_of_neg hc]
    cases digitsParenMatch (c :: r) <;> simp

theorem entrySplitRxMatch_false_cons (c : Char) (r : Str) :
    entrySplitRxMatch false (c :: r) =
      if isLineBreak c = true then (lineBreaksThenMarker r).map (fun n => n + 1)
      else none := by
  unfold entrySplitRxMatch lineBreaksThenMarker
  by_cases hc : isLineBreak c = true
  · simp only [Bool.false_eq_true, if_false, if_pos hc, List.dropWhile_cons_of_pos hc,
      List.takeWhile_cons_of_pos hc]
    cases digitsParenMatch (List.dropWhile isLineBreak r) with
    | none => simp
    | some n => simp; omega
  · simp [List.takeWhile_cons_of_neg hc, hc]

theorem hasMarker_cons_false (c : Char) (s : Str) (h : hasMarker (c :: s) = false) :
    hasMarker s = false ∧ (isLineBreak c = true → digitsThenParen s = false) := by
  rw [hasMarker] at h
  simp only [Bool.or_eq_false_iff, Bool.and_eq_false_iff] at h
  refine ⟨h.2, fun hc => ?_⟩
  rcases h.1 with h1 | h1
  · rw [hc] at h1; exact absurd h1 (by simp)
  · exact h1

/-- After a line break, a match of the rest of `entrySplitRx` that begins in a
marker-free text `s` runs through all of `s`, which is then line breaks only. -/
theorem lineBreaks_of_match (tail : Str)
    (htail : ∀ y ∈ tail.head?, isDigit y = false ∧ y ≠ ')') (s : Str) (c : Char)
    (hc : isLineBreak c = true) (hs : hasMarker (c :: s) = false) (j : Nat)
    (hj : lineBreaksThenMarker (s ++ tail) = some j) : ∀ x ∈ s, isLineBreak x = true := by
  induction s generalizing c j with
  | nil => simp
  | cons e s ih =>
    obtain ⟨hs1, hs2⟩ := hasMarker_cons_false c (e :: s) hs
    rw [List.cons_append, lineBreaksThenMarker_cons] at hj
    by_cases he : isLineBreak e = true
    · rw [if_pos he] at hj
      cases hl : lineBreaksThenMarker (s ++ tail) with
      | none => rw [hl] at hj; simp at hj
      | some j2 =>
        intro x hx
        rcases List.mem_cons.mp hx with hx | hx
        · exact hx ▸ he
        · exact ih e he hs1 j2 hl x hx
    · rw [if_neg he] at hj
      have h1 : (digitsParenMatch (e :: s ++ tail)).isSome = true := by
        rw [List.cons_append, hj]; rfl
      rw [digitsParenMatch_isSome_eq] at h1
      have h2 := digitsThenParen_of_append (e :: s) tail htail h1
      rw [hs2 hc] at h2
      exact absurd h2 (by simp)

theorem regexSplit_skip (m : Bool → Str → Option Nat) (xs Y cur : Str) :
    regexSplit m false xs.length cur (xs ++ Y) = regexSplit m false 0 cur Y := by
  induction xs with
  | nil => rfl
  | cons x xs ih => rw [List.length_cons, List.cons_append, regexSplit, ih]

theorem regexSplit_no_match (m : Bool → Str → Option Nat) (b : Bool) (cur : Str) (c : Char)
    (cs : Str) (h : m b (c :: cs) = none) :
    regexSplit m b 0 cur (c :: cs) = regexSplit m false 0 (cur ++ [c]) cs := by
  rw [regexSplit, h]

theorem regexSplit_match (m : Bool → Str → Option Nat) (b : Bool) (cur : Str) (c : Char)
    (xs Y : Str) (h : m b (c :: (xs ++ Y)) = some (xs.length + 1)) :
    regexSplit m b 0 cur (c :: (xs ++ Y)) = cur :: regexSplit m false 0 [] Y := by
  rw [regexSplit, h]
  simp only []
  rw [regexSplit_skip]

/-- A marker at offset 0 is cut off, leaving an empty first piece. -/
theorem regexSplit_leading_marker (d : Str) (hd : d ≠ []) (hdig : ∀ c ∈ d, isDigit c = true)
    (X : Str) :
    regexSplit entrySplitRxMatch true 0 [] (d ++ ')' :: X) =
      [] :: regexSplit entrySplitRxMatch false 0 [] X := by
  have hm : entrySplitRxMatch true (d ++ ')' :: X) = some (d.length + 1) := by
    unfold entrySplitRxMatch
    rw [if_pos rfl, digitsParenMatch_digits d hd hdig X]
  cases d with
  | nil => exact absurd rfl hd
  | cons d0 d1 =>
    have hshape : d0 :: d1 ++ ')' :: X = d0 :: ((d1 ++ [')']) ++ X) := by simp
    rw [hshape] at hm ⊢
    apply regexSplit_match
    rw [hm]
    simp

/-- Scanning a run of line breaks alone finds no match. -/
theorem regexSplit_lineBreaks (t : Str) (ht : ∀ x ∈ t, isLineBreak x = true) (cur : Str) :
    regexSplit entrySplitRxMatch false 0 cur t = [cur ++ t] := by
  induction t generalizing cur with
  | nil => simp [regexSplit]
  | cons c t ih =>
    have ht2 : ∀ x ∈ t, isLineBreak x = true := fun x hx => ht x (List.mem_cons_of_mem _ hx)
    have hl : lineBreaksThenMarker t = none := by
      unfold lineBreaksThenMarker
      rw [List.dropWhile_eq_nil_iff.mpr ht2]
      rfl
    have hm : entrySplitRxMatch false (c :: t) = none := by
      rw [entrySplitRxMatch_false_cons, hl]
      simp
    rw [regexSplit_no_match _ _ _ _ _ hm, ih ht2]
    simp

/-- A run of line breaks followed by "\n", a marker and more text: the match
begins at the first line break of the run and ends after the ")". -/
theorem regexSplit_lineBreaks_marker (t : Str) (ht : ∀ x ∈ t, isLineBreak x = true)
    (d : Str) (hd : d ≠ []) (hdig : ∀ c ∈ d, isDigit c = true) (Y cur : Str) :
    regexSplit entrySplitRxMatch false 0 cur (t ++ '\n' :: (d ++ ')' :: Y)) =
      cur :: regexSplit entrySplitRxMatch false 0 [] Y := by
  have hrun : ∀ x ∈ t ++ ['\n'], isLineBreak x = true := by
    intro x hx
    rcases List.mem_append.mp hx with hx | hx
    · exact ht x hx
    · rw [List.mem_singleton.mp hx]; decide
  have hhead : ∀ Z : Str, (d ++ Z).takeWhile isLineBreak = [] ∧
      (d ++ Z).dropWhile isLineBreak = d ++ Z := by
    intro Z
    cases d with
    | nil => exact absurd rfl hd
    | cons d0 d1 =>
      have h0 : isLineBreak d0 = false :=
        isDigit_not_lineBreak d0 (hdig d0 (List.mem_cons_self _ _))
      simp [List.takeWhile_cons, List.dropWhile_cons, h0]
  have hshape : t ++ '\n' :: (d ++ ')' :: Y) = (t ++ ['\n']) ++ (d ++ ')' :: Y) := by simp
  have hm : entrySplitRxMatch false (t ++ '\n' :: (d ++ ')' :: Y)) =
      some (t.length + 1 + (d.length + 1)) := by
    unfold entrySplitRxMatch
    rw [hshape, List.takeWhile_append_of_pos hrun, List.dropWhile_append_of_pos hrun,
      (hhead _).1, (hhead _).2, digitsParenMatch_digits d hd hdig Y]
    simp
  cases t with
  | nil =>
    have hs2 : '\n' :: (d ++ ')' :: Y) = '\n' :: ((d ++ [')']) ++ Y) := by simp
    rw [List.nil_append] at hm ⊢
    rw [hs2] at hm ⊢
    apply regexSplit_match
    rw [hm]
    simp
    omega
  | cons c t =>
    have hs2 : c :: t ++ '\n' :: (d ++ ')' :: Y) = c :: ((t ++ '\n' :: d ++ [')']) ++ Y) := by
      simp
    rw [hs2] at hm ⊢
    apply regexSplit_match
    rw [hm]
    simp
    omega

/-- Scanning a marker-free text `s` that is followed by `tail`: no match begins
in `s` before its final run `t` of line breaks. -/
theorem regexSplit_marker_free (tail : Str)
    (htail : ∀ y ∈ tail.head?, isDigit y = false ∧ y ≠ ')') (s : Str)
    (hs : hasMarker s = false) (cur : Str) :
    ∃ s0 t, s = s0 ++ t ∧ (∀ x ∈ t, isLineBreak x = true) ∧
      regexSplit entrySplitRxMatch false 0 cur (s ++ tail) =
        regexSplit entrySplitRxMatch false 0 (cur ++ s0) (t ++ tail) := by
  induction s generalizing cur with
  | nil => exact ⟨[], [], rfl, by simp, by simp⟩
  | cons c s ih =>
    obtain ⟨hs1, _⟩ := hasMarker_cons_false c s hs
    cases hm : entrySplitRxMatch false (c :: (s ++ tail)) with
    | none =>
      obtain ⟨s0, t, hst, ht, hsplit⟩ := ih hs1 (cur ++ [c])
      refine ⟨c :: s0, t, by rw [hst]; rfl, ht, ?_⟩
      rw [List.cons_append, regexSplit_no_match _ _ _ _ _ hm, hsplit]
      simp
    | some k =>
      rw [entrySplitRxMatch_false_cons] at hm
      by_cases hc : isLineBreak c = true
      · rw [if_pos hc] at hm
        cases hl : lineBreaksThenMarker (s ++ tail) with
        | none => rw [hl] at hm; simp at hm
        | some j =>
          have hall := lineBreaks_of_match tail htail s c hc hs j hl
          refine ⟨[], c :: s, rfl, ?_, by simp⟩
          intro x hx
          rcases List.mem_cons.mp hx with hx | hx
          · exact hx ▸ hc
          · exact hall x hx
      · rw [if_neg hc] at hm
        exact absurd hm (by simp)

theorem TrimFunc_append_of_all (p : Char → Bool) (x t : Str) (ht : ∀ c ∈ t, p c = true) :
    TrimFunc p (x ++ t) = TrimFunc p x := by
  have htr : ∀ c ∈ t.reverse, p c = true := fun c hc => ht c (List.mem_reverse.mp hc)
  unfold TrimFunc
  rw [List.dropWhile_append]
  by_cases hx : (x.dropWhile p).isEmpty = true
  · rw [if_pos hx, List.dropWhile_eq_nil_iff.mpr ht, List.isEmpty_iff.mp hx]
  · rw [if_neg hx, List.reverse_append, List.dropWhile_append_of_pos htr]

theorem TrimSpace_append_lineBreaks (x t : Str) (ht : ∀ c ∈ t, isLineBreak c = true) :
    TrimSpace (x ++ t) = TrimSpace x :=
  TrimFunc_append_of_all isSpace x t (fun c hc => isLineBreak_isSpace c (ht c hc))

theorem numberedTail_head (segs : List (Str × Str)) :
    ∀ y ∈ (numberedTail segs).head?, isDigit y = false ∧ y ≠ ')' := by
  cases segs with
  | nil => simp [numberedTail]
  | cons p rest =>
    intro y hy
    simp only [numberedTail, List.head?_cons, Option.mem_def, Option.some.injEq] at hy
    subst hy
    decide

theorem numberedBody_cons (p : Str × Str) (rest : List (Str × Str)) :
    numberedBody (p :: rest) = p.1 ++ ')' :: (p.2 ++ numberedTail rest) := by
  unfold numberedBody
  induction rest generalizing p with
  | nil => simp [numberedTail, List.intercalate]
  | cons q rest ih =>
    have h := ih q
    simp only [List.intercalate, List.map_cons, List.intersperse_cons_cons,
      List.flatten_cons] at h ⊢
    rw [h]
    simp [numberedTail]

/-- The pieces cut from a marker-free text followed by further numbered
senses are, after trimming, the trimmed text and the trimmed further texts. -/
theorem regexSplit_numberedTail (segs : List (Str × Str))
    (hsegs : ∀ p ∈ segs, p.1 ≠ [] ∧ (∀ c ∈ p.1, isDigit c = true) ∧ hasMarker p.2 = false)
    (s : Str) (hs : hasMarker s = false) (cur : Str) :
    (regexSplit entrySplitRxMatch false 0 cur (s ++ numberedTail segs)).map TrimSpace =
      TrimSpace (cur ++ s) :: segs.map (fun p => TrimSpace p.2) := by
  induction segs generalizing s cur with
  | nil =>
    obtain ⟨s0, t, hst, ht, hsplit⟩ :=
      regexSplit_marker_free (numberedTail []) (numberedTail_head []) s hs cur
    rw [hsplit, numberedTail, List.append_nil, regexSplit_lineBreaks t ht, hst]
    simp
  | cons p rest ih =>
    obtain ⟨hp1, hp2, hp3⟩ := hsegs p (List.mem_cons_self _ _)
    have hrest : ∀ q ∈ rest, q.1 ≠ [] ∧ (∀ c ∈ q.1, isDigit c = true) ∧
        hasMarker q.2 = false := fun q hq => hsegs q (List.mem_cons_of_mem _ hq)
    obtain ⟨s0, t, hst, ht, hsplit⟩ :=
      regexSplit_marker_free (numberedTail (p :: rest)) (numberedTail_head _) s hs cur
    rw [hsplit, numberedTail, regexSplit_lineBreaks_marker t ht p.1 hp1 hp2, List.map_cons,
      ih hrest p.2 hp3 [], hst, ← List.append_assoc, TrimSpace_append_lineBreaks _ t ht]
    simp

/-! ## The meaning splitter -/

/-- C10: for n ≥ 1 pairs (di, si) of a non-empty digit string and a text that
contains no line break immediately followed by digits and ")", the body
d1 ++ ")" ++ s1 ++ "\n" ++ ... ++ "\n" ++ dn ++ ")" ++ sn is split into the
trimmed si that are non-empty, in order; the markers are dropped and the
result does not depend on the digits. -/
theorem C10_numbered_body_splits_into_trimmed_senses (segs : List (Str × Str))
    (hn : segs ≠ [])
    (hsegs : ∀ p ∈ segs, p.1 ≠ [] ∧ (∀ c ∈ p.1, isDigit c = true) ∧ hasMarker p.2 = false) :
    ParseWarodaiMeanings (numberedBody segs) =
      (segs.map (fun p => TrimSpace p.2)).filter (fun t => decide (t ≠ [])) := by
  cases segs with
  | nil => exact absurd rfl hn
  | cons p rest =>
    obtain ⟨hp1, hp2, hp3⟩ := hsegs p (List.mem_cons_self _ _)
    have hrest : ∀ q ∈ rest, q.1 ≠ [] ∧ (∀ c ∈ q.1, isDigit c = true) ∧
        hasMarker q.2 = false := fun q hq => hsegs q (List.mem_cons_of_mem _ hq)
    rw [ParseWarodaiMeanings_eq, numberedBody_cons, regexSplit_leading_marker p.1 hp1 hp2,
      List.map_cons, regexSplit_numberedTail rest hrest p.2 hp3 [], TrimSpace_nil,
      List.nil_append, List.map_cons]
    rfl

/-- Witness of C10 at three senses numbered 7, 12, 3, the second one blank and
the first one with an inner line break and a trailing "\r". -/
theorem C10_numbered_body_witness :
    ParseWarodaiMeanings (numberedBody sensesUnordered) =
      (sensesUnordered.map (fun p => TrimSpace p.2)).filter (fun t => decide (t ≠ [])) :=
  C10_numbered_body_splits_into_trimmed_senses sensesUnordered (by decide) (by decide)

/-- A text without a marker after a line break is one piece when it is scanned
from an offset other than 0. -/
theorem regexSplit_whole (s : Str) (hs : hasMarker s = false) (cur : Str) :
    regexSplit entrySplitRxMatch false 0 cur s = [cur ++ s] := by
  obtain ⟨s0, t, hst, ht, hsplit⟩ := regexSplit_marker_free [] (by simp) s hs cur
  rw [List.append_nil, List.append_nil] at hsplit
  rw [hsplit, regexSplit_lineBreaks t ht, hst, List.append_assoc]

theorem entrySplitRxMatch_true_eq_false (s : Str) (h : digitsThenParen s = false) :
    entrySplitRxMatch true s = entrySplitRxMatch false s := by
  have hnone : digitsParenMatch s = none := by
    have := digitsParenMatch_isSome_eq s
    rw [h] at this
    exact Option.not_isSome_iff_eq_none.mp (by simp [this])
  unfold entrySplitRxMatch
  simp [hnone]

theorem regexSplit_flag (m : Bool → Str → Option Nat) (cur s : Str)
    (h : m true s = m false s) :
    regexSplit m true 0 cur s = regexSplit m false 0 cur s := by
  cases s with
  | nil => rfl
  | cons c cs => rw [regexSplit, regexSplit, h]

/-- C11: a body that does not begin with digits and ")" and has no line break
immediately followed by digits and ")" is not split: the result is the trimmed
body alone, or nothing when the trimmed body is empty. -/
theorem C11_unnumbered_body_is_one_sense (body : Str)
    (hstart : digitsThenParen body = false) (hmarker : hasMarker body = false) :
    ParseWarodaiMeanings body = if TrimSpace body = [] then [] else [TrimSpace body] := by
  rw [ParseWarodaiMeanings_eq,
    regexSplit_flag _ _ _ (entrySplitRxMatch_true_eq_false body hstart),
    regexSplit_whole body hmarker, List.nil_append]
  by_cases h : TrimSpace body = []
  · simp [h]
  · simp [h]

/-- Witness of C11 at a body with "2)" in the middle of a line and a line
break followed by plain text. -/
theorem C11_unnumbered_body_witness :
    ParseWarodaiMeanings bodyUnnumbered =
      if TrimSpace bodyUnnumbered = [] then [] else [TrimSpace bodyUnnumbered] :=
  C11_unnumbered_body_is_one_sense bodyUnnumbered (by decide) (by decide)

/-! ## Lemmas on trimming -/

theorem dropWhile_head_not (p : Char → Bool) (s : Str) :
    ∀ c ∈ (s.dropWhile p).head?, p c = false := by
  intro c hc
  have h := List.head?_dropWhile_not p s
  rw [Option.mem_def.mp hc] at h
  exact h

theorem dropWhile_eq_self_of_head (p : Char → Bool) (s : Str)
    (h : ∀ c ∈ s.head?, p c = false) : s.dropWhile p = s := by
  cases s with
  | nil => rfl
  | cons a s =>
    have ha : p a = false := h a rfl
    rw [List.dropWhile_cons, ha]
    simp

theorem TrimFunc_eq_self (p : Char → Bool) (s : Str)
    (hhead : ∀ c ∈ s.head?, p c = false) (hlast : ∀ c ∈ s.getLast?, p c = false) :
    TrimFunc p s = s := by
  unfold TrimFunc
  rw [dropWhile_eq_self_of_head p s hhead,
    dropWhile_eq_self_of_head p s.reverse (by rw [List.head?_reverse]; exact hlast),
    List.reverse_reverse]

theorem TrimFunc_last_not (p : Char → Bool) (s : Str) :
    ∀ c ∈ (TrimFunc p s).getLast?, p c = false := by
  unfold TrimFunc
  rw [List.getLast?_reverse]
  exact dropWhile_head_not p _

theorem TrimFunc_head_not (p : Char → Bool) (s : Str) :
    ∀ c ∈ (TrimFunc p s).head?, p c = false := by
  intro c hc
  have hpre : TrimFunc p s <+: s.dropWhile p := List.rdropWhile_prefix p (s.dropWhile p)
  obtain ⟨t, ht⟩ := hpre
  cases hx : TrimFunc p s with
  | nil => rw [hx] at hc; simp at hc
  | cons a x =>
    rw [hx] at hc ht
    have hca : c = a := by simpa using hc.symm
    apply dropWhile_head_not p s c
    rw [← ht, hca]
    rfl

theorem TrimFunc_idem (p : Char → Bool) (s : Str) :
    TrimFunc p (TrimFunc p s) = TrimFunc p s :=
  TrimFunc_eq_self p _ (TrimFunc_head_not p s) (TrimFunc_last_not p s)

/-! ## Lemmas on the fields of the header -/

theorem headerStep_other_field (st : WarodaiHeader × HeaderFragmentType) (ch : Char)
    (F : HeaderFragmentType) (hst : st.2 ≠ F) (hch : fragOfOpener ch st.2 ≠ F) :
    (headerStep st ch).2 ≠ F ∧ fieldOf F (headerStep st ch).1 = fieldOf F st.1 := by
  obtain ⟨hdr, f⟩ := st
  unfold fragOfOpener at hch
  unfold headerStep
  simp only [] at hst hch ⊢
  split_ifs at hch ⊢
  · exact ⟨hch, rfl⟩
  · exact ⟨hch, rfl⟩
  · exact ⟨hch, rfl⟩
  · exact ⟨hch, rfl⟩
  · exact ⟨hst, rfl⟩
  · cases f <;> cases F <;> first | exact absurd rfl hst | exact ⟨hst, rfl⟩

theorem foldl_headerStep_other_field (line : Str) (F : HeaderFragmentType)
    (hline : ∀ ch ∈ line, ∀ f, f ≠ F → fragOfOpener ch f ≠ F)
    (st : WarodaiHeader × HeaderFragmentType) (hst : st.2 ≠ F) :
    fieldOf F (line.foldl headerStep st).1 = fieldOf F st.1 := by
  induction line generalizing st with
  | nil => rfl
  | cons ch line ih =>
    obtain ⟨h1, h2⟩ := headerStep_other_field st ch F hst
      (hline ch (List.mem_cons_self _ _) st.2 hst)
    rw [List.foldl_cons, ih (fun c hc => hline c (List.mem_cons_of_mem _ hc)) _ h1, h2]

theorem fragOfOpener_ne_Kana (ch : Char) (f : HeaderFragmentType)
    (hf : f ≠ HeaderFragmentType.Kana) : fragOfOpener ch f ≠ HeaderFragmentType.Kana := by
  unfold fragOfOpener
  split_ifs <;> simp_all

theorem fragOfOpener_ne_Kanji (ch : Char) (hch : ch ≠ '【') (f : HeaderFragmentType)
    (hf : f ≠ HeaderFragmentType.Kanji) : fragOfOpener ch f ≠ HeaderFragmentType.Kanji := by
  unfold fragOfOpener
  split_ifs <;> simp_all

theorem fragOfOpener_ne_Transcription (ch : Char) (hch : ch ≠ '(') (f : HeaderFragmentType)
    (hf : f ≠ HeaderFragmentType.Transcription) :
    fragOfOpener ch f ≠ HeaderFragmentType.Transcription := by
  unfold fragOfOpener
  split_ifs <;> simp_all

theorem fragOfOpener_ne_Tag (ch : Char) (hch : ch ≠ '[') (f : HeaderFragmentType)
    (hf : f ≠ HeaderFragmentType.Tag) : fragOfOpener ch f ≠ HeaderFragmentType.Tag := by
  unfold fragOfOpener
  split_ifs <;> simp_all

theorem fragOfOpener_ne_Id (ch : Char) (hch : ch ≠ '〔') (f : HeaderFragmentType)
    (hf : f ≠ HeaderFragmentType.Id) : fragOfOpener ch f ≠ HeaderFragmentType.Id := by
  unfold fragOfOpener
  split_ifs <;> simp_all

theorem ParseWarodaiHeader_fieldOf (line : Str) (F : HeaderFragmentType) :
    fieldOf F (ParseWarodaiHeader line) =
      TrimSpace (fieldOf F (line.foldl headerStep
        (⟨[], [], [], [], []⟩, HeaderFragmentType.Kana)).1) := by
  cases F <;> rfl

/-- A field whose opening bracket does not occur in the line stays empty. -/
theorem field_empty_of_no_opener (line : Str) (F : HeaderFragmentType)
    (hF : F ≠ HeaderFragmentType.Kana)
    (hline : ∀ ch ∈ line, ∀ f, f ≠ F → fragOfOpener ch f ≠ F) :
    fieldOf F (ParseWarodaiHeader line) = [] := by
  rw [ParseWarodaiHeader_fieldOf, foldl_headerStep_other_field line F hline _ (Ne.symm hF)]
  cases F <;> rfl

/-! ## The header parser: invariants -/

/-- C16: each of the five fields of the parsed header is whitespace-trimmed
(trimming it again changes nothing, and it neither begins nor ends with a
whitespace character), and an absent field is the empty string: Kana when the
line is empty or begins with an opening bracket, each other field when its
opening bracket does not occur in the line. -/
theorem C16_header_fields_trimmed_absent_empty (line : Str) :
    (∀ F : HeaderFragmentType,
      TrimSpace (fieldOf F (ParseWarodaiHeader line)) = fieldOf F (ParseWarodaiHeader line) ∧
      (∀ c ∈ (fieldOf F (ParseWarodaiHeader line)).head?, isSpace c = false) ∧
      (∀ c ∈ (fieldOf F (ParseWarodaiHeader line)).getLast?, isSpace c = false)) ∧
    ((∀ c ∈ line.head?, c ∈ openers) → (ParseWarodaiHeader line).Kana = []) ∧
    ('【' ∉ line → (ParseWarodaiHeader line).Kanji = []) ∧
    ('(' ∉ line → (ParseWarodaiHeader line).Transcription = []) ∧
    ('[' ∉ line → (ParseWarodaiHeader line).Tag = []) ∧
    ('〔' ∉ line → (ParseWarodaiHeader line).Id = []) := by
  refine ⟨fun F => ?_, ?_, ?_, ?_, ?_, ?_⟩
  · rw [ParseWarodaiHeader_fieldOf]
    exact ⟨TrimFunc_idem isSpace _, TrimFunc_head_not isSpace _, TrimFunc_last_not isSpace _⟩
  · intro h
    cases line with
    | nil => rfl
    | cons o rest =>
      have ho : o ∈ openers := h o rfl
      have hk : (ParseWarodaiHeader (o :: rest)).Kana =
          fieldOf HeaderFragmentType.Kana (ParseWarodaiHeader (o :: rest)) := rfl
      rw [hk, ParseWarodaiHeader_fieldOf, List.foldl_cons, headerStep_opener _ _ o ho,
        foldl_headerStep_other_field rest HeaderFragmentType.Kana
          (fun ch _ f hf => fragOfOpener_ne_Kana ch f hf)]
      · rfl
      · simp only [openers, List.mem_cons, List.mem_singleton, List.not_mem_nil,
          or_false] at ho
        rcases ho with h1 | h1 | h1 | h1 <;> subst h1 <;> decide
  · intro h
    exact field_empty_of_no_opener line HeaderFragmentType.Kanji (by decide)
      (fun ch hch f hf => fragOfOpener_ne_Kanji ch (fun e => h (e ▸ hch)) f hf)
  · intro h
    exact field_empty_of_no_opener line HeaderFragmentType.Transcription (by decide)
      (fun ch hch f hf => fragOfOpener_ne_Transcription ch (fun e => h (e ▸ hch)) f hf)
  · intro h
    exact field_empty_of_no_opener line HeaderFragmentType.Tag (by decide)
      (fun ch hch f hf => fragOfOpener_ne_Tag ch (fun e => h (e ▸ hch)) f hf)
  · intro h
    exact field_empty_of_no_opener line HeaderFragmentType.Id (by decide)
      (fun ch hch f hf => fragOfOpener_ne_Id ch (fun e => h (e ▸ hch)) f hf)

/-- C18: deleting every closing bracket from a header line does not change the
parsed header; a closing bracket leaves the whole scan state, the active field
included, as it is, so "a【b】c" gives Kana "a" and Kanji "bc". -/
theorem C18_closing_brackets_are_dropped (h : Str) :
    ParseWarodaiHeader h = ParseWarodaiHeader (h.filter (fun c => !closers.elem c)) ∧
    (∀ (st : WarodaiHeader × HeaderFragmentType) (ch : Char),
      ch ∈ closers → headerStep st ch = st) ∧
    ParseWarodaiHeader "a【b】c".toList = ⟨"a".toList, "bc".toList, [], [], []⟩ := by
  refine ⟨?_, fun st ch hch => headerStep_closer st ch hch, by decide⟩
  unfold ParseWarodaiHeader
  rw [foldl_headerStep_filter_closers]

/-! ## The expander: glossary, safety of the indexing, fields that are read -/

theorem recordsAt_Glossary (Kanji : Str) (readings kanjis meanings : List Str) (i : Nat) :
    ∀ r ∈ recordsAt Kanji readings kanjis meanings i, r.Glossary = meanings := by
  intro r hr
  unfold recordsAt at hr
  split_ifs at hr
  · obtain ⟨j, _, hj⟩ := List.mem_map.mp hr
    rw [← hj]
  · rw [List.mem_singleton.mp hr]
  · rw [List.mem_singleton.mp hr]

theorem WarodaiToYomiEntries_total (entry : WarodaiEntry) :
    ∃ out, WarodaiToYomiEntries entry = some out := by
  by_cases hv : entry.Header.Kanji ≠ [] ∧
      (Split entry.Header.Kana ',').length ≠ (Split entry.Header.Kanji ',').length ∧
      (Split entry.Header.Kanji ',').length ≠ 1
  · exact ⟨[], WarodaiToYomiEntries_invalid entry hv⟩
  · exact ⟨_, WarodaiToYomiEntries_eq entry hv⟩

/-- C17: every record returned for an entry has as Glossary the list
CleanEntryMeanings(entry.Meanings), which is the entry's meanings cleaned one
by one, of the same length and in the same order. -/
theorem C17_records_share_cleaned_meanings (entry : WarodaiEntry) :
    (∃ out, WarodaiToYomiEntries entry = some out ∧
      ∀ r ∈ out, r.Glossary = CleanEntryMeanings entry.Meanings) ∧
    CleanEntryMeanings entry.Meanings = entry.Meanings.map cleanLine ∧
    (CleanEntryMeanings entry.Meanings).length = entry.Meanings.length := by
  refine ⟨?_, CleanEntryMeanings_eq_map _, by rw [CleanEntryMeanings_eq_map, List.length_map]⟩
  by_cases hv : entry.Header.Kanji ≠ [] ∧
      (Split entry.Header.Kana ',').length ≠ (Split entry.Header.Kanji ',').length ∧
      (Split entry.Header.Kanji ',').length ≠ 1
  · refine ⟨[], WarodaiToYomiEntries_invalid entry hv, ?_⟩
    intro r hr
    exact absurd hr (List.not_mem_nil r)
  · refine ⟨_, WarodaiToYomiEntries_eq entry hv, ?_⟩
    intro r hr
    obtain ⟨i, _, hi⟩ := List.mem_flatMap.mp hr
    exact recordsAt_Glossary _ _ _ _ i r hi

/-- C19: the loop of the expander never indexes out of range: for every entry
the expansion returns a list (no panic), and more generally the loop run over
any indices below the number of readings does. -/
theorem C19_expansion_never_indexes_out_of_range (entry : WarodaiEntry) :
    WarodaiToYomiEntries entry ≠ none ∧
    (∀ (Kanji : Str) (readings kanjis meanings : List Str) (idx : List Nat)
      (result : List YomiTerm), (∀ i ∈ idx, i < readings.length) →
      expandLoop Kanji readings kanjis meanings idx result ≠ none) := by
  constructor
  · obtain ⟨out, hout⟩ := WarodaiToYomiEntries_total entry
    rw [hout]
    exact Option.some_ne_none out
  · intro Kanji readings kanjis meanings idx result hidx
    rw [expandLoop_eq Kanji readings kanjis meanings idx hidx result]
    exact Option.some_ne_none _

/-- C20: the output depends on the Kana and Kanji fields and on the meanings
only: two entries that differ in Transcription, Tag and Id alone expand to the
same records. -/
theorem C20_output_ignores_transcription_tag_id (Kana Kanji : Str) (meanings : List Str)
    (t1 g1 i1 t2 g2 i2 : Str) :
    WarodaiToYomiEntries ⟨⟨Kana, Kanji, t1, g1, i1⟩, meanings⟩ =
      WarodaiToYomiEntries ⟨⟨Kana, Kanji, t2, g2, i2⟩, meanings⟩ := rfl

/-! ## Lemmas on the replacement scan -/

theorem regexReplaceAll_skip (m : Bool → Str → Option Nat) (repl xs Y : Str) :
    regexReplaceAll m repl false xs.length (xs ++ Y) = regexReplaceAll m repl false 0 Y := by
  induction xs with
  | nil => rfl
  | cons x xs ih => rw [List.length_cons, List.cons_append, regexReplaceAll, ih]

theorem regexReplaceAll_no_match (m : Bool → Str → Option Nat) (repl : Str) (b : Bool)
    (c : Char) (cs : Str) (h : m b (c :: cs) = none) :
    regexReplaceAll m repl b 0 (c :: cs) = c :: regexReplaceAll m repl false 0 cs := by
  rw [regexReplaceAll, h]

theorem regexReplaceAll_match (m : Bool → Str → Option Nat) (repl : Str) (b : Bool)
    (c : Char) (xs Y : Str) (h : m b (c :: (xs ++ Y)) = some (xs.length + 1)) :
    regexReplaceAll m repl b 0 (c :: (xs ++ Y)) = repl ++ regexReplaceAll m repl false 0 Y := by
  rw [regexReplaceAll, h]
  simp only []
  rw [regexReplaceAll_skip]

/-- A matcher that does not look at the offset-0 flag gives the same scan
whatever the flag. -/
theorem regexReplaceAll_flag (m : Bool → Str → Option Nat) (repl : Str)
    (hm : ∀ t, m true t = m false t) (s : Str) :
    regexReplaceAll m repl true 0 s = regexReplaceAll m repl false 0 s := by
  cases s with
  | nil => rfl
  | cons c cs => rw [regexReplaceAll, regexReplaceAll, hm]

/-- A stretch `p` of text none of whose characters can begin a match is copied
as it is. -/
theorem regexReplaceAll_plain (m : Bool → Str → Option Nat) (repl : Str)
    (p : Str) (hp : ∀ c ∈ p, ∀ t, m false (c :: t) = none) (Y : Str) :
    regexReplaceAll m repl false 0 (p ++ Y) = p ++ regexReplaceAll m repl false 0 Y := by
  induction p with
  | nil => rfl
  | cons c p ih =>
    rw [List.cons_append, regexReplaceAll_no_match m repl false c (p ++ Y)
      (hp c (List.mem_cons_self _ _) _), ih (fun x hx => hp x (List.mem_cons_of_mem _ hx))]
    rfl

theorem regexReplaceAll_nil (m : Bool → Str → Option Nat) (repl : Str) (b : Bool) (n : Nat) :
    regexReplaceAll m repl b n [] = [] := by
  cases n <;> rfl

theorem bbCodeRxMatch_flag (t : Str) : bbCodeRxMatch true t = bbCodeRxMatch false t := rfl

theorem newLineTrimRxMatch_flag (t : Str) :
    newLineTrimRxMatch true t = newLineTrimRxMatch false t := rfl

theorem bbCodeRxMatch_of_ne_lt (b : Bool) (c : Char) (t : Str) (hc : c ≠ '<') :
    bbCodeRxMatch b (c :: t) = none := by
  simp [bbCodeRxMatch, hc]

theorem newLineTrimRxMatch_of_not_punct (b : Bool) (c : Char) (t : Str)
    (h1 : c ≠ '.') (h2 : c ≠ ';') : newLineTrimRxMatch b (c :: t) = none := by
  simp [newLineTrimRxMatch, h1, h2]

/-- The steps of `cleanLine`, with both scans started away from offset 0. -/
theorem cleanLine_eq (s : Str) :
    cleanLine s =
      regexReplaceAll newLineTrimRxMatch ['\n'] false 0
        (regexReplaceAll bbCodeRxMatch [] false 0 (TrimSpace (Trim s [';', '.']))) := by
  unfold cleanLine
  simp only []
  rw [regexReplaceAll_flag _ _ newLineTrimRxMatch_flag,
    regexReplaceAll_flag _ _ bbCodeRxMatch_flag]

theorem head?_append_of_ne_nil (a Y : Str) (ha : a ≠ []) : (a ++ Y).head? = a.head? := by
  cases a with
  | nil => exact absurd rfl ha
  | cons x a => rfl

theorem getLast?_append_of_ne_nil (X b : Str) (hb : b ≠ []) :
    (X ++ b).getLast? = b.getLast? := by
  rcases List.eq_nil_or_concat b with h | ⟨b1, z, h⟩
  · exact absurd h hb
  · rw [h, List.concat_eq_append, ← List.append_assoc, List.getLast?_append,
      List.getLast?_append (l := b1)]
    rfl

theorem isLineBreak_ne_lt (x : Char) (h : isLineBreak x = true) : x ≠ '<' := by
  intro e
  subst e
  revert h
  decide

theorem isTrimmed_cutset (c : Char) (h1 : c ≠ ';') (h2 : c ≠ '.') :
    (fun x => [';', '.'].elem x) c = false := by
  simp [h1, h2]

/-- A line without "<" has no tag to remove. -/
theorem bbCode_replace_of_no_lt (s : Str) (hs : ∀ c ∈ s, c ≠ '<') (repl : Str) :
    regexReplaceAll bbCodeRxMatch repl false 0 s = s := by
  have h := regexReplaceAll_plain bbCodeRxMatch repl s
    (fun c hc t => bbCodeRxMatch_of_ne_lt false c t (hs c hc)) []
  rw [List.append_nil] at h
  rw [h, regexReplaceAll_nil, List.append_nil]

/-- A line without ";" and "." has no punctuation to collapse. -/
theorem newLineTrim_replace_of_no_punct (s : Str) (hs : ∀ c ∈ s, c ≠ '.' ∧ c ≠ ';')
    (repl : Str) : regexReplaceAll newLineTrimRxMatch repl false 0 s = s := by
  have h := regexReplaceAll_plain newLineTrimRxMatch repl s
    (fun c hc t => newLineTrimRxMatch_of_not_punct false c t (hs c hc).1 (hs c hc).2) []
  rw [List.append_nil] at h
  rw [h, regexReplaceAll_nil, List.append_nil]

/-! ## The sense cleaner: punctuation before a line break -/

/-- C14: for non-empty a and b without "<", ">", ";", "." and line breaks, a
not beginning and b not ending with whitespace, c one of ";" and ".", and L a
non-empty run of line breaks, the line a ++ c ++ L ++ b is cleaned to
a ++ "\n" ++ b. -/
theorem C14_punctuation_and_line_breaks_collapse (a b : Str) (c : Char) (L : Str)
    (ha : a ≠ []) (hb : b ≠ [])
    (hfree : ∀ x ∈ a ++ b, x ≠ '<' ∧ x ≠ '>' ∧ x ≠ ';' ∧ x ≠ '.' ∧ isLineBreak x = false)
    (ha0 : ∀ x ∈ a.head?, isSpace x = false) (hb1 : ∀ x ∈ b.getLast?, isSpace x = false)
    (hc : c = ';' ∨ c = '.') (hL : L ≠ []) (hLb : ∀ x ∈ L, isLineBreak x = true) :
    CleanEntryMeanings [a ++ c :: (L ++ b)] = [a ++ '\n' :: b] := by
  have hfa : ∀ x ∈ a, x ≠ '<' ∧ x ≠ '>' ∧ x ≠ ';' ∧ x ≠ '.' ∧ isLineBreak x = false :=
    fun x hx => hfree x (List.mem_append_left _ hx)
  have hfb : ∀ x ∈ b, x ≠ '<' ∧ x ≠ '>' ∧ x ≠ ';' ∧ x ≠ '.' ∧ isLineBreak x = false :=
    fun x hx => hfree x (List.mem_append_right _ hx)
  have hhead : (a ++ c :: (L ++ b)).head? = a.head? := head?_append_of_ne_nil a _ ha
  have hlast : (a ++ c :: (L ++ b)).getLast? = b.getLast? := by
    have e : a ++ c :: (L ++ b) = (a ++ c :: L) ++ b := by simp
    rw [e, getLast?_append_of_ne_nil _ b hb]
  have ha_mem : ∀ x ∈ a.head?, x ∈ a := fun x hx => List.mem_of_mem_head? hx
  have hb_mem : ∀ x ∈ b.getLast?, x ∈ b := fun x hx => List.mem_of_mem_getLast? hx
  have h1 : Trim (a ++ c :: (L ++ b)) [';', '.'] = a ++ c :: (L ++ b) := by
    apply TrimFunc_eq_self
    · rw [hhead]
      intro x hx
      exact isTrimmed_cutset x (hfa x (ha_mem x hx)).2.2.1 (hfa x (ha_mem x hx)).2.2.2.1
    · rw [hlast]
      intro x hx
      exact isTrimmed_cutset x (hfb x (hb_mem x hx)).2.2.1 (hfb x (hb_mem x hx)).2.2.2.1
  have h2 : TrimSpace (a ++ c :: (L ++ b)) = a ++ c :: (L ++ b) := by
    apply TrimFunc_eq_self
    · rw [hhead]; exact ha0
    · rw [hlast]; exact hb1
  have h3 : regexReplaceAll bbCodeRxMatch [] false 0 (a ++ c :: (L ++ b)) =
      a ++ c :: (L ++ b) := by
    apply bbCode_replace_of_no_lt
    intro x hx
    rcases List.mem_append.mp hx with hx | hx
    · exact (hfa x hx).1
    · rcases List.mem_cons.mp hx with hx | hx
      · rcases hc with hc | hc <;> rw [hx, hc] <;> decide
      · rcases List.mem_append.mp hx with hx | hx
        · exact isLineBreak_ne_lt x (hLb x hx)
        · exact (hfb x hx).1
  have hrun : (L ++ b).takeWhile isLineBreak = L := by
    cases b with
    | nil => exact absurd rfl hb
    | cons b0 b1 =>
      have hb0 : isLineBreak b0 = false := (hfb b0 (List.mem_cons_self _ _)).2.2.2.2
      rw [List.takeWhile_append_of_pos hLb, List.takeWhile_cons, hb0]
      simp
  have hm : newLineTrimRxMatch false (c :: (L ++ b)) = some (L.length + 1) := by
    have hne : L ++ b ≠ [] := by simp [hL]
    have hcp : (c = '.' || c = ';') = true := by
      rcases hc with hc | hc <;> rw [hc] <;> decide
    unfold newLineTrimRxMatch
    simp only [hcp, if_true, if_neg hne, hrun, if_neg hL]
    rw [Nat.add_comm]
  have h4 : regexReplaceAll newLineTrimRxMatch ['\n'] false 0 (a ++ c :: (L ++ b)) =
      a ++ '\n' :: b := by
    rw [regexReplaceAll_plain newLineTrimRxMatch ['\n'] a
      (fun x hx t => newLineTrimRxMatch_of_not_punct false x t (hfa x hx).2.2.2.1
        (hfa x hx).2.2.1),
      regexReplaceAll_match newLineTrimRxMatch ['\n'] false c L b hm,
      newLineTrim_replace_of_no_punct b (fun x hx => ⟨(hfb x hx).2.2.2.1, (hfb x hx).2.2.1⟩)]
    rfl
  rw [CleanEntryMeanings_eq_map, List.map_singleton, cleanLine_eq, h1, h2, h3, h4]

/-- Witness of C14 at "в городе" ++ ";" ++ "\r\n" ++ "на рынке". -/
theorem C14_punctuation_collapse_witness :
    CleanEntryMeanings ["в городе".toList ++ ';' :: ("\r\n".toList ++ "на рынке".toList)] =
      ["в городе".toList ++ '\n' :: "на рынке".toList] :=
  C14_punctuation_and_line_breaks_collapse "в городе".toList "на рынке".toList ';'
    "\r\n".toList (by decide) (by decide) (by decide) (by decide) (by decide)
    (Or.inl rfl) (by decide) (by decide)

/-! ## Lemmas on the tags -/

theorem hrefGroupMatch_of_not_space (w : Char) (r : Str) (hw : isRxSpace w = false) :
    hrefGroupMatch (w :: r) = none := by
  unfold hrefGroupMatch
  split
  · rename_i heq
    have hw2 := (List.cons.inj heq).1
    subst hw2
    simp [hw]
  · rfl

theorem hrefGroupMatch_attribute (u Y : Str)
    (hu : u.all (fun c => c != '>' && !isLineBreak c) = true) :
    hrefGroupMatch (' ' :: 'h' :: 'r' :: 'e' :: 'f' :: '=' :: ('"' :: (u ++ '"' :: '>' :: Y))) =
      some (u.length + 9) := by
  have hq : ∀ x ∈ '"' :: (u ++ ['"']), (fun x => x != '>' && x != '\n') x = true := by
    intro x hx
    rcases List.mem_cons.mp hx with hx | hx
    · rw [hx]; decide
    · rcases List.mem_append.mp hx with hx | hx
      · have h := List.all_eq_true.mp hu x hx
        simp only [Bool.and_eq_true, bne_iff_ne, ne_eq, Bool.not_eq_true'] at h
        have hn : x ≠ '\n' := by
          intro e
          subst e
          exact absurd h.2 (by decide)
        simp [h.1, hn]
      · rw [List.mem_singleton.mp hx]; decide
  have hshape : '"' :: (u ++ '"' :: '>' :: Y) = ('"' :: (u ++ ['"'])) ++ '>' :: Y := by simp
  have hgt : (fun x : Char => x != '>' && x != '\n') '>' = false := by decide
  unfold hrefGroupMatch
  simp only []
  rw [hshape, List.takeWhile_append_of_pos hq, List.dropWhile_append_of_pos hq,
    List.takeWhile_cons, List.dropWhile_cons]
  have hgt2 : ('>' != '>' && '>' != '\n') = false := by decide
  have hsp : (isRxSpace ' ' && decide True && decide True && decide True && decide True &&
      '=' != '\n') = true := by decide
  simp only [hgt2, hsp, Bool.false_eq_true, if_false, if_true, List.append_nil,
    List.length_cons, List.length_append, List.length_nil]
  congr 1
  omega

theorem bbCodeRxMatch_tag (t : InlineTag) (ht : t.wellFormed = true) (Y : Str) :
    bbCodeRxMatch false (t.text ++ Y) = some t.text.length := by
  cases t with
  | iOpen => rfl
  | iClose => rfl
  | aClose =>
    have h : hrefGroupMatch ('>' :: Y) = none := hrefGroupMatch_of_not_space '>' Y (by decide)
    simp [InlineTag.text, bbCodeRxMatch, h]
  | aOpen u =>
    have h := hrefGroupMatch_attribute u Y ht
    simp only [InlineTag.text, List.cons_append, List.nil_append, List.append_assoc,
      List.singleton_append] at h ⊢
    simp [bbCodeRxMatch, h]
    omega

theorem InlineTag.text_eq_cons (t : InlineTag) : ∃ body, t.text = '<' :: body := by
  cases t <;> exact ⟨_, rfl⟩

theorem InlineTag.text_getLast (t : InlineTag) : t.text.getLast? = some '>' := by
  cases t with
  | iOpen => rfl
  | iClose => rfl
  | aClose => rfl
  | aOpen u =>
    have e : (InlineTag.aOpen u).text =
        (['<', 'a', ' ', 'h', 'r', 'e', 'f', '=', '"'] ++ u ++ ['"']) ++ ['>'] := by
      simp [InlineTag.text]
    rw [e, List.getLast?_append]
    rfl

/-- A well-formed tag is removed as a whole. -/
theorem bbCode_replace_tag (t : InlineTag) (ht : t.wellFormed = true) (Y : Str) :
    regexReplaceAll bbCodeRxMatch [] false 0 (t.text ++ Y) =
      regexReplaceAll bbCodeRxMatch [] false 0 Y := by
  have hm := bbCodeRxMatch_tag t ht Y
  obtain ⟨body, hbody⟩ := InlineTag.text_eq_cons t
  rw [hbody] at hm ⊢
  rw [List.cons_append] at hm ⊢
  rw [regexReplaceAll_match bbCodeRxMatch [] false '<' body Y (by rw [hm]; rfl)]
  rfl

theorem bbCode_replace_tagged (rest : List (InlineTag × Str))
    (hrest : ∀ tp ∈ rest, tp.1.wellFormed = true ∧ ∀ c ∈ tp.2, c ≠ '<') :
    regexReplaceAll bbCodeRxMatch [] false 0 (rest.flatMap (fun tp => tp.1.text ++ tp.2)) =
      rest.flatMap (fun tp => tp.2) := by
  induction rest with
  | nil => rfl
  | cons tp rest ih =>
    obtain ⟨h1, h2⟩ := hrest tp (List.mem_cons_self _ _)
    rw [List.flatMap_cons, List.flatMap_cons, List.append_assoc, bbCode_replace_tag tp.1 h1,
      regexReplaceAll_plain bbCodeRxMatch [] tp.2
        (fun c hc t => bbCodeRxMatch_of_ne_lt false c t (h2 c hc)),
      ih (fun q hq => hrest q (List.mem_cons_of_mem _ hq))]

theorem punctBeforeBreak_of_no_lineBreak (s : Str)
    (hs : ∀ c ∈ s, isLineBreak c = false) : punctBeforeBreak s = false := by
  induction s with
  | nil => rfl
  | cons c s ih =>
    cases s with
    | nil => rfl
    | cons c2 cs =>
      have h2 : isLineBreak c2 = false := hs c2 (by simp)
      rw [punctBeforeBreak, h2, ih (fun x hx => hs x (List.mem_cons_of_mem _ hx))]
      simp

/-- A line that has no ";" or "." directly before a line break and does not
end with ";" or "." has no punctuation to collapse. -/
theorem newLineTrim_replace_fixed (s : Str) (h1 : punctBeforeBreak s = false)
    (h2 : ∀ c ∈ s.getLast?, c ≠ '.' ∧ c ≠ ';') (repl : Str) :
    regexReplaceAll newLineTrimRxMatch repl false 0 s = s := by
  induction s with
  | nil => rfl
  | cons c s ih =>
    cases s with
    | nil =>
      have hc := h2 c rfl
      rw [regexReplaceAll_no_match _ _ _ _ _
        (newLineTrimRxMatch_of_not_punct false c [] hc.1 hc.2), regexReplaceAll_nil]
    | cons c2 cs =>
      rw [punctBeforeBreak] at h1
      simp only [Bool.or_eq_false_iff, Bool.and_eq_false_iff] at h1
      have hm : newLineTrimRxMatch false (c :: c2 :: cs) = none := by
        unfold newLineTrimRxMatch
        rcases h1.1 with hp | hb
        · simp [hp]
        · simp [List.takeWhile_cons, hb]
      rw [regexReplaceAll_no_match _ _ _ _ _ hm,
        ih h1.2 (by rw [List.getLast?_cons_cons] at h2; exact h2)]

theorem taggedText_head (p0 : Str) (rest : List (InlineTag × Str)) :
    ∀ c ∈ (taggedText p0 rest).head?, c = '<' ∨ c ∈ (plainText p0 rest).head? := by
  intro c hc
  cases p0 with
  | cons x p0 => exact Or.inr hc
  | nil =>
    cases rest with
    | nil => simp [taggedText] at hc
    | cons tp rest =>
      obtain ⟨body, hbody⟩ := InlineTag.text_eq_cons tp.1
      simp only [taggedText, List.nil_append, List.flatMap_cons, hbody, List.cons_append,
        List.head?_cons, Option.mem_def, Option.some.injEq] at hc
      exact Or.inl hc.symm

theorem taggedText_getLast (p0 : Str) (rest : List (InlineTag × Str)) :
    ∀ c ∈ (taggedText p0 rest).getLast?, c = '>' ∨ c ∈ (plainText p0 rest).getLast? := by
  intro c hc
  rcases List.eq_nil_or_concat rest with h | ⟨rest1, tp, h⟩
  · subst h
    exact Or.inr hc
  · subst h
    simp only [taggedText, plainText, List.concat_eq_append, List.flatMap_append,
      List.flatMap_cons, List.flatMap_nil, List.append_nil] at hc ⊢
    by_cases hp : tp.2 = []
    · left
      rw [hp, List.append_nil, ← List.append_assoc, List.getLast?_append,
        InlineTag.text_getLast] at hc
      simpa using hc.symm
    · right
      rw [← List.append_assoc, ← List.append_assoc, getLast?_append_of_ne_nil _ _ hp] at hc
      rw [← List.append_assoc, getLast?_append_of_ne_nil _ _ hp]
      exact hc

theorem isTrimmed_false (c : Char) (h : isTrimmed c = false) :
    isSpace c = false ∧ c ≠ ';' ∧ c ≠ '.' := by
  unfold isTrimmed at h
  simp only [Bool.or_eq_false_iff, decide_eq_false_iff_not] at h
  exact ⟨h.1.1, h.1.2, h.2⟩

/-! ## The sense cleaner: tags and terminal punctuation -/

/-- C13: for text pieces p0..pn without "<", ">" and line breaks whose
concatenation P neither begins nor ends with whitespace, ";" or ".", tags
t1..tn among `<i>`, `</i>`, `</a>`, `<a href="u">` (u free of ">" and line
breaks) and a run R of ";" and ".", the line p0 ++ t1 ++ p1 ++ ... ++ tn ++ pn
++ R is cleaned to exactly P. -/
theorem C13_tags_and_terminal_punctuation_removed (p0 : Str)
    (rest : List (InlineTag × Str)) (R : Str)
    (hp0 : ∀ c ∈ p0, c ≠ '<' ∧ c ≠ '>' ∧ isLineBreak c = false)
    (hrest : ∀ tp ∈ rest, tp.1.wellFormed = true ∧
      ∀ c ∈ tp.2, c ≠ '<' ∧ c ≠ '>' ∧ isLineBreak c = false)
    (hhead : ∀ c ∈ (plainText p0 rest).head?, isTrimmed c = false)
    (hlast : ∀ c ∈ (plainText p0 rest).getLast?, isTrimmed c = false)
    (hR : ∀ c ∈ R, c = ';' ∨ c = '.') :
    CleanEntryMeanings [taggedText p0 rest ++ R] = [plainText p0 rest] := by
  have hcut : ∀ c ∈ R, (fun x => [';', '.'].elem x) c = true := by
    intro c hc
    rcases hR c hc with h | h <;> rw [h] <;> decide
  have h1 : Trim (taggedText p0 rest ++ R) [';', '.'] = taggedText p0 rest := by
    unfold Trim
    rw [TrimFunc_append_of_all _ _ R hcut]
    apply TrimFunc_eq_self
    · intro c hc
      rcases taggedText_head p0 rest c hc with h | h
      · rw [h]; decide
      · exact isTrimmed_cutset c (isTrimmed_false c (hhead c h)).2.1
          (isTrimmed_false c (hhead c h)).2.2
    · intro c hc
      rcases taggedText_getLast p0 rest c hc with h | h
      · rw [h]; decide
      · exact isTrimmed_cutset c (isTrimmed_false c (hlast c h)).2.1
          (isTrimmed_false c (hlast c h)).2.2
  have h2 : TrimSpace (taggedText p0 rest) = taggedText p0 rest := by
    apply TrimFunc_eq_self
    · intro c hc
      rcases taggedText_head p0 rest c hc with h | h
      · rw [h]; decide
      · exact (isTrimmed_false c (hhead c h)).1
    · intro c hc
      rcases taggedText_getLast p0 rest c hc with h | h
      · rw [h]; decide
      · exact (isTrimmed_false c (hlast c h)).1
  have h3 : regexReplaceAll bbCodeRxMatch [] false 0 (taggedText p0 rest) =
      plainText p0 rest := by
    unfold taggedText plainText
    rw [regexReplaceAll_plain bbCodeRxMatch [] p0
      (fun c hc t => bbCodeRxMatch_of_ne_lt false c t (hp0 c hc).1),
      bbCode_replace_tagged rest (fun tp htp =>
        ⟨(hrest tp htp).1, fun c hc => ((hrest tp htp).2 c hc).1⟩)]
  have hplain : ∀ c ∈ plainText p0 rest, isLineBreak c = false := by
    intro c hc
    unfold plainText at hc
    rcases List.mem_append.mp hc with hc | hc
    · exact (hp0 c hc).2.2
    · obtain ⟨tp, htp, hctp⟩ := List.mem_flatMap.mp hc
      exact ((hrest tp htp).2 c hctp).2.2
  have h4 : regexReplaceAll newLineTrimRxMatch ['\n'] false 0 (plainText p0 rest) =
      plainText p0 rest :=
    newLineTrim_replace_fixed _ (punctBeforeBreak_of_no_lineBreak _ hplain)
      (fun c hc => ⟨(isTrimmed_false c (hlast c hc)).2.2,
        (isTrimmed_false c (hlast c hc)).2.1⟩) _
  rw [CleanEntryMeanings_eq_map, List.map_singleton, cleanLine_eq, h1, h2, h3, h4]

/-- Witness of C13 at the second line of `TestCleanEntryMeanings`:
"рыбий клей; " followed by four tags and pieces and a final ".". -/
theorem C13_tags_removed_witness :
    CleanEntryMeanings [taggedText "рыбий клей; ".toList glueRest ++ ['.']] =
      [plainText "рыбий клей; ".toList glueRest] :=
  C13_tags_and_terminal_punctuation_removed "рыбий клей; ".toList glueRest ['.']
    (by decide) (by decide) (by decide) (by decide) (by decide)

/-! ## Lemmas on the first and the last character of a cleaned line -/

theorem getLast?_cons_of_getLast? (c z : Char) (X : Str) (h : X.getLast? = some z) :
    (c :: X).getLast? = some z := by
  cases X with
  | nil => simp at h
  | cons x X => rw [List.getLast?_cons_cons]; exact h

theorem getLast?_append_of_getLast? (r X : Str) (z : Char) (h : X.getLast? = some z) :
    (r ++ X).getLast? = some z := by
  have hne : X ≠ [] := by
    intro e
    rw [e] at h
    simp at h
  rw [getLast?_append_of_ne_nil r X hne]
  exact h

/-- When every match ends with a character from the set `E` and the text ends
with a character outside `E`, the replacement scan keeps the last character. -/
theorem regexReplaceAll_getLast (m : Bool → Str → Option Nat) (repl : Str)
    (E : Char → Prop)
    (hm : ∀ b t k, m b t = some k →
      ∃ pre z post, t = pre ++ z :: post ∧ k = pre.length + 1 ∧ E z)
    (s : Str) (z0 : Char) (hs : s.getLast? = some z0) (hz : ¬E z0) (b : Bool) (n : Nat)
    (hn : n < s.length) : (regexReplaceAll m repl b n s).getLast? = some z0 := by
  induction s generalizing b n with
  | nil => simp at hs
  | cons c cs ih =>
    have htail : cs ≠ [] → cs.getLast? = some z0 := by
      intro hne
      cases cs with
      | nil => exact absurd rfl hne
      | cons c2 cs2 => rw [List.getLast?_cons_cons] at hs; exact hs
    cases n with
    | succ n1 =>
      have hlen : n1 < cs.length := by
        rw [List.length_cons] at hn
        omega
      have hne : cs ≠ [] := by
        intro e
        rw [e] at hlen
        simp at hlen
      rw [regexReplaceAll]
      exact ih (htail hne) false n1 hlen
    | zero =>
      have hkeep : (c :: regexReplaceAll m repl false 0 cs).getLast? = some z0 := by
        by_cases hne : cs = []
        · rw [hne] at hs ⊢
          rw [regexReplaceAll_nil]
          exact hs
        · exact getLast?_cons_of_getLast? c z0 _
            (ih (htail hne) false 0 (List.length_pos.mpr hne))
      cases hmc : m b (c :: cs) with
      | none => rw [regexReplaceAll, hmc]; exact hkeep
      | some k =>
        obtain ⟨pre, z, post, ht, hk, hE⟩ := hm b (c :: cs) k hmc
        cases k with
        | zero => omega
        | succ k1 =>
          have hpost : post ≠ [] := by
            intro e
            rw [e] at ht
            have hs2 : (pre ++ [z]).getLast? = some z0 := by rw [← ht]; exact hs
            rw [List.getLast?_append_of_ne_nil pre (List.cons_ne_nil z []),
              List.getLast?_singleton, Option.some.injEq] at hs2
            exact hz (hs2 ▸ hE)
          have hlen : k1 < cs.length := by
            have hl := congrArg List.length ht
            simp only [List.length_cons, List.length_append] at hl
            have := List.length_pos.mpr hpost
            omega
          have hne : cs ≠ [] := by
            intro e
            rw [e] at hlen
            simp at hlen
          rw [regexReplaceAll, hmc]
          simp only []
          exact getLast?_append_of_getLast? repl _ z0 (ih (htail hne) false k1 hlen)

/-- When no match begins at the first character, the scan keeps it. -/
theorem regexReplaceAll_head (m : Bool → Str → Option Nat) (repl : Str) (s : Str)
    (hs : ∀ c ∈ s.head?, ∀ t, m false (c :: t) = none) :
    (regexReplaceAll m repl false 0 s).head? = s.head? := by
  cases s with
  | nil => rfl
  | cons c cs => rw [regexReplaceAll_no_match _ _ _ _ _ (hs c rfl cs)]; rfl

theorem newLineTrimRxMatch_ends (b : Bool) (t : Str) (k : Nat)
    (h : newLineTrimRxMatch b t = some k) :
    ∃ pre z post, t = pre ++ z :: post ∧ k = pre.length + 1 ∧
      (z = '.' ∨ z = ';' ∨ isLineBreak z = true) := by
  cases t with
  | nil => simp [newLineTrimRxMatch] at h
  | cons c r =>
    unfold newLineTrimRxMatch at h
    simp only [] at h
    split_ifs at h with hc hr hl
    · refine ⟨[], c, [], by rw [hr]; rfl, by simpa using (Option.some.inj h).symm, ?_⟩
      simp only [Bool.or_eq_true, decide_eq_true_eq] at hc
      rcases hc with hc | hc
      · exact Or.inl hc
      · exact Or.inr (Or.inl hc)
    · rcases List.eq_nil_or_concat (r.takeWhile isLineBreak) with e | ⟨l1, z, e⟩
      · exact absurd e hl
      · have hz : isLineBreak z = true := by
          have hmem : z ∈ r.takeWhile isLineBreak := by rw [e]; simp
          exact (List.mem_takeWhile_imp hmem)
        refine ⟨c :: l1, z, r.dropWhile isLineBreak, ?_, ?_, Or.inr (Or.inr hz)⟩
        · have hr2 := (List.takeWhile_append_dropWhile isLineBreak r).symm
          rw [e, List.concat_eq_append, List.append_assoc] at hr2
          rw [List.cons_append]
          exact congrArg (List.cons c) hr2
        · have hk := (Option.some.inj h).symm
          rw [e] at hk
          simp only [List.concat_eq_append, List.length_append, List.length_singleton,
            List.length_cons, List.length_nil] at hk ⊢
          omega

theorem hrefGroupMatch_ends (t : Str) (k : Nat) (h : hrefGroupMatch t = some k) :
    ∃ pre post, t = pre ++ '>' :: post ∧ k = pre.length + 1 := by
  unfold hrefGroupMatch at h
  split at h
  · rename_i w h1 r1 e1 f1 c1 rest
    split_ifs at h
    split at h
    · rename_i x tail hdrop
      split_ifs at h with hx
      refine ⟨[w, h1, r1, e1, f1, c1] ++
        rest.takeWhile (fun x => x != '>' && x != '\n'), tail, ?_, ?_⟩
      · have hr := (List.takeWhile_append_dropWhile
          (fun x => x != '>' && x != '\n') rest).symm
        rw [hdrop, hx] at hr
        rw [List.append_assoc, ← hr]
        rfl
      · have hk := (Option.some.inj h).symm
        simp only [List.length_append, List.length_cons, List.length_nil] at hk ⊢
        omega
    · exact absurd h (by simp)
  · exact absurd h (by simp)

theorem bbCodeRxMatch_cons (b : Bool) (lt : Char) (r : Str) :
    bbCodeRxMatch b (lt :: r) =
      if lt = '<' then bbCodeAfterSlash (slashLen r) (r.drop (slashLen r)) else none := rfl

theorem slashLen_le (r : Str) : slashLen r ≤ r.length := by
  cases r with
  | nil => simp [slashLen]
  | cons c r0 =>
    unfold slashLen
    simp only [List.length_cons]
    split_ifs <;> omega

theorem bbCodeAfterSlash_ends (slash : Nat) (s : Str) (k : Nat)
    (h : bbCodeAfterSlash slash s = some k) :
    ∃ pre post, s = pre ++ '>' :: post ∧ k = 1 + slash + pre.length + 1 := by
  unfold bbCodeAfterSlash at h
  split at h
  · rename_i t0 r2
    split_ifs at h with hi ha
    · split at h
      · rename_i g r3
        split_ifs at h with hg
        refine ⟨[t0], r3, by rw [hg]; rfl, ?_⟩
        have hk := (Option.some.inj h).symm
        simp only [List.length_cons, List.length_nil] at hk ⊢
        omega
      · exact absurd h (by simp)
    · split at h
      · rename_i k1 hhref
        obtain ⟨pre1, post1, hp1, hk1⟩ := hrefGroupMatch_ends r2 k1 hhref
        refine ⟨t0 :: pre1, post1, by rw [hp1]; rfl, ?_⟩
        have hk := (Option.some.inj h).symm
        simp only [List.length_cons] at hk ⊢
        omega
      · split at h
        · rename_i g r3 _
          split_ifs at h with hg
          refine ⟨[t0], r3, by rw [hg]; rfl, ?_⟩
          have hk := (Option.some.inj h).symm
          simp only [List.length_cons, List.length_nil] at hk ⊢
          omega
        · exact absurd h (by simp)
  · exact absurd h (by simp)

theorem bbCodeRxMatch_ends (b : Bool) (t : Str) (k : Nat) (h : bbCodeRxMatch b t = some k) :
    ∃ pre z post, t = pre ++ z :: post ∧ k = pre.length + 1 ∧ z = '>' := by
  cases t with
  | nil => simp [bbCodeRxMatch] at h
  | cons lt r =>
    rw [bbCodeRxMatch_cons] at h
    split_ifs at h with hlt
    obtain ⟨pre, post, hp, hk⟩ := bbCodeAfterSlash_ends _ _ k h
    refine ⟨lt :: (r.take (slashLen r) ++ pre), '>', post, ?_, ?_, rfl⟩
    · have hr : r = r.take (slashLen r) ++ r.drop (slashLen r) :=
        (List.take_append_drop _ r).symm
      rw [hp] at hr
      conv_lhs => rw [hr]
      simp
    · have hl : (r.take (slashLen r)).length = slashLen r := by
        rw [List.length_take]
        exact Nat.min_eq_left (slashLen_le r)
      simp only [List.length_cons, List.length_append, hl]
      omega

theorem hasTag_cons_false (c : Char) (s : Str) (h : hasTag (c :: s) = false) :
    bbCodeRxMatch false (c :: s) = none ∧ hasTag s = false := by
  rw [hasTag] at h
  simp only [Bool.or_eq_false_iff] at h
  exact ⟨Option.not_isSome_iff_eq_none.mp (by simp [h.1]), h.2⟩

/-- A line without a tag is left as it is by the tag removal. -/
theorem bbCode_replace_fixed (s : Str) (h : hasTag s = false) (repl : Str) :
    regexReplaceAll bbCodeRxMatch repl false 0 s = s := by
  induction s with
  | nil => rfl
  | cons c s ih =>
    obtain ⟨h1, h2⟩ := hasTag_cons_false c s h
    rw [regexReplaceAll_no_match _ _ _ _ _ h1, ih h2]

/-- A line that the four steps have nothing to do on is a fixed point of the
cleaning. -/
theorem cleanLine_fixed (x : Str) (hhead : ∀ c ∈ x.head?, isTrimmed c = false)
    (hlast : ∀ c ∈ x.getLast?, isTrimmed c = false) (htag : hasTag x = false)
    (hpunct : punctBeforeBreak x = false) : cleanLine x = x := by
  have h1 : Trim x [';', '.'] = x :=
    TrimFunc_eq_self _ x
      (fun c hc => isTrimmed_cutset c (isTrimmed_false c (hhead c hc)).2.1
        (isTrimmed_false c (hhead c hc)).2.2)
      (fun c hc => isTrimmed_cutset c (isTrimmed_false c (hlast c hc)).2.1
        (isTrimmed_false c (hlast c hc)).2.2)
  have h2 : TrimSpace x = x :=
    TrimFunc_eq_self _ x (fun c hc => (isTrimmed_false c (hhead c hc)).1)
      (fun c hc => (isTrimmed_false c (hlast c hc)).1)
  rw [cleanLine_eq, h1, h2, bbCode_replace_fixed x htag,
    newLineTrim_replace_fixed x hpunct
      (fun c hc => ⟨(isTrimmed_false c (hlast c hc)).2.2, (isTrimmed_false c (hlast c hc)).2.1⟩)]

theorem cleanLine_eq_afterTagRemoval (l : Str) :
    cleanLine l = regexReplaceAll newLineTrimRxMatch ['\n'] false 0 (afterTagRemoval l) := by
  rw [cleanLine_eq]
  unfold afterTagRemoval
  rw [regexReplaceAll_flag _ _ bbCodeRxMatch_flag]

/-- The punctuation collapse keeps the first and the last character of a line
that neither begins nor ends with whitespace, ";" or ".". -/
theorem newLineTrim_keeps_ends (z : Str) (hhead : ∀ c ∈ z.head?, isTrimmed c = false)
    (hlast : ∀ c ∈ z.getLast?, isTrimmed c = false) (repl : Str) :
    (regexReplaceAll newLineTrimRxMatch repl false 0 z).head? = z.head? ∧
      (regexReplaceAll newLineTrimRxMatch repl false 0 z).getLast? = z.getLast? := by
  constructor
  · apply regexReplaceAll_head
    intro c hc t
    exact newLineTrimRxMatch_of_not_punct false c t (isTrimmed_false c (hhead c hc)).2.2
      (isTrimmed_false c (hhead c hc)).2.1
  · cases hz : z.getLast? with
    | none =>
      rw [List.getLast?_eq_none_iff.mp hz]
      rfl
    | some z0 =>
      have hne : z ≠ [] := by
        intro e
        rw [e] at hz
        simp at hz
      have h0 := isTrimmed_false z0 (hlast z0 hz)
      apply regexReplaceAll_getLast newLineTrimRxMatch repl
        (fun c => c = '.' ∨ c = ';' ∨ isLineBreak c = true) newLineTrimRxMatch_ends z z0 hz
      · intro hE
        rcases hE with hE | hE | hE
        · exact h0.2.2 hE
        · exact h0.2.1 hE
        · have := isLineBreak_isSpace z0 hE
          rw [h0.1] at this
          exact absurd this (by simp)
      · exact List.length_pos.mpr hne

/-- The tag removal keeps the first and the last character of a line that
does not begin with "<" and does not end with ">". -/
theorem bbCode_keeps_ends (y : Str) (hhead : ∀ c ∈ y.head?, c ≠ '<')
    (hlast : ∀ c ∈ y.getLast?, c ≠ '>') (repl : Str) :
    (regexReplaceAll bbCodeRxMatch repl false 0 y).head? = y.head? ∧
      (regexReplaceAll bbCodeRxMatch repl false 0 y).getLast? = y.getLast? := by
  constructor
  · apply regexReplaceAll_head
    intro c hc t
    exact bbCodeRxMatch_of_ne_lt false c t (hhead c hc)
  · cases hy : y.getLast? with
    | none =>
      rw [List.getLast?_eq_none_iff.mp hy]
      rfl
    | some z0 =>
      have hne : y ≠ [] := by
        intro e
        rw [e] at hy
        simp at hy
      exact regexReplaceAll_getLast bbCodeRxMatch repl (fun c => c = '>')
        bbCodeRxMatch_ends y z0 hy (hlast z0 hy) false 0 (List.length_pos.mpr hne)

/-- A line that, once trimmed, begins with neither "<", ";" nor "." and ends
with neither ">", ";" nor "." is cleaned to a string without whitespace at
its ends. -/
theorem cleanLine_trimmed_of_line_ends (l : Str)
    (hhead : ∀ c ∈ (TrimSpace (Trim l [';', '.'])).head?, c ≠ '<' ∧ c ≠ ';' ∧ c ≠ '.')
    (hlast : ∀ c ∈ (TrimSpace (Trim l [';', '.'])).getLast?, c ≠ '>' ∧ c ≠ ';' ∧ c ≠ '.') :
    (∀ c ∈ (afterTagRemoval l).head?, isTrimmed c = false) ∧
      (∀ c ∈ (afterTagRemoval l).getLast?, isTrimmed c = false) := by
  have hflag : afterTagRemoval l =
      regexReplaceAll bbCodeRxMatch [] false 0 (TrimSpace (Trim l [';', '.'])) := by
    unfold afterTagRemoval
    rw [regexReplaceAll_flag _ _ bbCodeRxMatch_flag]
  obtain ⟨e1, e2⟩ := bbCode_keeps_ends (TrimSpace (Trim l [';', '.']))
    (fun c hc => (hhead c hc).1) (fun c hc => (hlast c hc).1) []
  rw [hflag, e1, e2]
  constructor
  · intro c hc
    have hs := TrimFunc_head_not isSpace (Trim l [';', '.']) c hc
    have hp := hhead c hc
    simp [isTrimmed, hs, hp.2.1, hp.2.2]
  · intro c hc
    have hs := TrimFunc_last_not isSpace (Trim l [';', '.']) c hc
    have hp := hlast c hc
    simp [isTrimmed, hs, hp.2.1, hp.2.2]

/-! ## The sense cleaner: lines cleaned twice, lines left untrimmed -/

/-- C12 as stated fails also without any markup: "и т. п.;\nслово" is cleaned
to "и т. п.\nслово" (the ";" before the line break is collapsed, which brings
the "." before it), and cleaning that again gives "и т. п\nслово". -/
theorem C12_idempotence_counterexample :
    (∀ c ∈ lineTwoPunctuations, c ≠ '<') ∧
      CleanEntryMeanings [lineTwoPunctuations] = ["и т. п.\nслово".toList] ∧
      CleanEntryMeanings (CleanEntryMeanings [lineTwoPunctuations]) =
        ["и т. п\nслово".toList] ∧
      CleanEntryMeanings (CleanEntryMeanings [lineTwoPunctuations]) ≠
        CleanEntryMeanings [lineTwoPunctuations] := by
  decide

/-- C15 as stated fails: the line "<i>см.</i>" is returned as "см\n", which
ends with a line break; the "." laid bare by the tag removal is collapsed at
the end of the text into a newline after the trimming steps have run. -/
theorem C15_trailing_line_break_counterexample :
    CleanEntryMeanings [lineItalicAbbreviation] = ["см\n".toList] ∧
      (∃ x ∈ CleanEntryMeanings [lineItalicAbbreviation],
        ∃ c ∈ x.getLast?, isSpace c = true) ∧
      (∃ x ∈ CleanEntryMeanings [lineItalicAbbreviation], TrimSpace x ≠ x) := by
  decide

/-! ## Lemmas on the tags of a marked line -/

theorem hrefGroupMatch_shape (q : Str) (k : Nat) (h : hrefGroupMatch q = some k) :
    ∃ w c u rest, q = w :: 'h' :: 'r' :: 'e' :: 'f' :: c :: (u ++ '>' :: rest) ∧
      isRxSpace w = true ∧ (c != '\n') = true ∧
      u.all (fun x => x != '>' && x != '\n') = true ∧ k = u.length + 7 := by
  unfold hrefGroupMatch at h
  split at h
  · rename_i w h1 r1 e1 f1 c1 rest
    split_ifs at h with hcond
    split at h
    · rename_i x tail hdrop
      split_ifs at h with hx
      simp only [Bool.and_eq_true, decide_eq_true_eq] at hcond
      obtain ⟨⟨⟨⟨⟨hw, hh⟩, hr⟩, he⟩, hf⟩, hc⟩ := hcond
      refine ⟨w, c1, rest.takeWhile (fun x => x != '>' && x != '\n'), tail, ?_, hw, hc, ?_, ?_⟩
      · have e := (List.takeWhile_append_dropWhile
          (fun x => x != '>' && x != '\n') rest).symm
        rw [hdrop, hx] at e
        rw [hh, hr, he, hf, ← e]
      · rw [List.all_eq_true]
        intro x hx2
        exact List.mem_takeWhile_imp (p := fun x => x != '>' && x != '\n') hx2
      · have hk := (Option.some.inj h).symm
        omega
    · exact absurd h (by simp)
  · exact absurd h (by simp)

theorem hrefGroupMatch_of_shape (w c : Char) (u Y : Str) (hw : isRxSpace w = true)
    (hc : (c != '\n') = true) (hu : u.all (fun x => x != '>' && x != '\n') = true) :
    hrefGroupMatch (w :: 'h' :: 'r' :: 'e' :: 'f' :: c :: (u ++ '>' :: Y)) =
      some (u.length + 7) := by
  have hq : ∀ x ∈ u, (fun x => x != '>' && x != '\n') x = true := List.all_eq_true.mp hu
  have hgt2 : ('>' != '>' && '>' != '\n') = false := by decide
  unfold hrefGroupMatch
  simp only []
  rw [List.takeWhile_append_of_pos hq, List.dropWhile_append_of_pos hq,
    List.takeWhile_cons, List.dropWhile_cons]
  simp only [hw, hc, hgt2, Bool.false_eq_true, if_false, if_true, List.append_nil,
    decide_True, Bool.and_self, Bool.true_and, Bool.and_true]
  congr 1
  omega

theorem bbCodeAfterSlash_shape (n : Nat) (q : Str) (k : Nat)
    (h : bbCodeAfterSlash n q = some k) :
    (∃ rest, q = 'i' :: '>' :: rest) ∨ (∃ rest, q = 'a' :: '>' :: rest) ∨
      (∃ w c u rest, q = 'a' :: w :: 'h' :: 'r' :: 'e' :: 'f' :: c :: (u ++ '>' :: rest) ∧
        isRxSpace w = true ∧ (c != '\n') = true ∧
        u.all (fun x => x != '>' && x != '\n') = true) := by
  unfold bbCodeAfterSlash at h
  split at h
  · rename_i t0 r2
    split_ifs at h with hi ha
    · split at h
      · rename_i g r3
        split_ifs at h with hg
        exact Or.inl ⟨r3, by rw [hi, hg]⟩
      · exact absurd h (by simp)
    · split at h
      · rename_i k1 hhref
        obtain ⟨w, c, u, rest, hq, hw, hc, hu, _⟩ := hrefGroupMatch_shape r2 k1 hhref
        exact Or.inr (Or.inr ⟨w, c, u, rest, by rw [ha, hq], hw, hc, hu⟩)
      · split at h
        · rename_i g r3 _
          split_ifs at h with hg
          exact Or.inr (Or.inl ⟨r3, by rw [ha, hg]⟩)
        · exact absurd h (by simp)
  · exact absurd h (by simp)

/-- Every match of `bbCodeRx` begins with the text of a well-formed tag. -/
theorem bbCodeRxMatch_shape (s : Str) (k : Nat) (h : bbCodeRxMatch false s = some k) :
    ∃ t : MarkupTag, t.wellFormed = true ∧ ∃ rest, s = t.text ++ rest := by
  cases s with
  | nil => simp [bbCodeRxMatch] at h
  | cons lt r =>
    rw [bbCodeRxMatch_cons] at h
    split_ifs at h with hlt
    have hcl : ∃ cl : Bool, lt :: r = MarkupTag.opening cl ++ r.drop (slashLen r) := by
      cases r with
      | nil => exact ⟨false, by simp [MarkupTag.opening, slashLen, hlt]⟩
      | cons x r0 =>
        by_cases hx : x = '/'
        · exact ⟨true, by simp [MarkupTag.opening, slashLen, hlt, hx]⟩
        · exact ⟨false, by simp [MarkupTag.opening, slashLen, hlt, hx]⟩
    obtain ⟨cl, hcl⟩ := hcl
    rcases bbCodeAfterSlash_shape _ _ k h with ⟨rest, hq⟩ | ⟨rest, hq⟩ | ⟨w, c, u, rest, hq, hw, hc, hu⟩
    · exact ⟨MarkupTag.italic cl, rfl, rest, by rw [hcl, hq]; simp [MarkupTag.text]⟩
    · exact ⟨MarkupTag.anchor cl, rfl, rest, by rw [hcl, hq]; simp [MarkupTag.text]⟩
    · refine ⟨MarkupTag.anchorHref cl w c u, ?_, rest, by rw [hcl, hq]; simp [MarkupTag.text]⟩
      simp [MarkupTag.wellFormed, hw, hu]
      simpa using hc

/-- The text of a well-formed tag is matched as a whole, whatever follows. -/
theorem bbCodeRxMatch_markupTag (t : MarkupTag) (ht : t.wellFormed = true) (Y : Str) :
    bbCodeRxMatch false (t.text ++ Y) = some t.text.length := by
  have hgt : ∀ Z, hrefGroupMatch ('>' :: Z) = none :=
    fun Z => hrefGroupMatch_of_not_space '>' Z (by decide)
  cases t with
  | italic cl => cases cl <;> rfl
  | anchor cl =>
    cases cl
    · simp [MarkupTag.text, MarkupTag.opening, bbCodeRxMatch_cons, slashLen,
        bbCodeAfterSlash, hgt]
    · simp [MarkupTag.text, MarkupTag.opening, bbCodeRxMatch_cons, slashLen,
        bbCodeAfterSlash, hgt]
  | anchorHref cl w c u =>
    simp only [MarkupTag.wellFormed, Bool.and_eq_true] at ht
    obtain ⟨⟨hw, hc⟩, hu⟩ := ht
    have hm := hrefGroupMatch_of_shape w c u Y hw hc hu
    cases cl
    · simp [MarkupTag.text, MarkupTag.opening, bbCodeRxMatch_cons, slashLen,
        bbCodeAfterSlash, hm]
      omega
    · simp [MarkupTag.text, MarkupTag.opening, bbCodeRxMatch_cons, slashLen,
        bbCodeAfterSlash, hm]
      omega

theorem MarkupTag.markup_eq_cons (t : MarkupTag) : ∃ inner, t.text = '<' :: inner := by
  cases t with
  | italic cl => cases cl <;> exact ⟨_, rfl⟩
  | anchor cl => cases cl <;> exact ⟨_, rfl⟩
  | anchorHref cl w c u => cases cl <;> exact ⟨_, rfl⟩

theorem MarkupTag.markup_getLast (t : MarkupTag) : t.text.getLast? = some '>' := by
  cases t with
  | italic cl => cases cl <;> rfl
  | anchor cl => cases cl <;> rfl
  | anchorHref cl w c u =>
    have e : (MarkupTag.anchorHref cl w c u).text =
        (MarkupTag.opening cl ++ ['a', w, 'h', 'r', 'e', 'f', c] ++ u) ++ ['>'] := rfl
    rw [e, List.getLast?_append]
    rfl

/-! ## Lemmas on the reading of a marked line -/

theorem head?_append_cases (X Y : Str) :
    ∀ c ∈ (X ++ Y).head?, c ∈ X.head? ∨ (X = [] ∧ c ∈ Y.head?) := by
  intro c hc
  cases X with
  | nil => exact Or.inr ⟨rfl, hc⟩
  | cons x X => exact Or.inl hc

theorem getLast?_append_cases (X Y : Str) :
    ∀ c ∈ (X ++ Y).getLast?, c ∈ Y.getLast? ∨ (Y = [] ∧ c ∈ X.getLast?) := by
  intro c hc
  by_cases hY : Y = []
  · rw [hY, List.append_nil] at hc
    exact Or.inr ⟨hY, hc⟩
  · rw [getLast?_append_of_ne_nil X Y hY] at hc
    exact Or.inl hc

theorem markedBody_cons (p0 : Str) (tp : MarkupTag × Str) (rest : List (MarkupTag × Str)) :
    markedBody p0 (tp :: rest) = p0 ++ (tp.1.text ++ markedBody tp.2 rest) := by
  simp [markedBody, List.flatMap_cons]

/-- The body begins with the first piece, or with "<" when that is empty. -/
theorem markedBody_head (p0 : Str) (rest : List (MarkupTag × Str)) :
    ∀ c ∈ (markedBody p0 rest).head?, c ∈ p0.head? ∨ (p0 = [] ∧ c = '<') := by
  intro c hc
  cases rest with
  | nil =>
    left
    simpa [markedBody] using hc
  | cons tp rest =>
    rw [markedBody_cons] at hc
    rcases head?_append_cases _ _ c hc with h | ⟨h0, h⟩
    · exact Or.inl h
    · right
      obtain ⟨inner, hinner⟩ := MarkupTag.markup_eq_cons tp.1
      rw [hinner] at h
      exact ⟨h0, by simpa using h.symm⟩

theorem plain_head_of_first (p0 : Str) (rest : List (MarkupTag × Str)) :
    ∀ c ∈ p0.head?, c ∈ (p0 ++ rest.flatMap (fun tp => tp.2)).head? := by
  intro c hc
  cases p0 with
  | nil => simp at hc
  | cons x p0 => exact hc

/-- The body ends with the last character of the pieces, or with ">". -/
theorem markedBody_getLast (p0 : Str) (rest : List (MarkupTag × Str)) :
    ∀ c ∈ (markedBody p0 rest).getLast?,
      c = '>' ∨ c ∈ (p0 ++ rest.flatMap (fun tp => tp.2)).getLast? := by
  intro c hc
  rcases List.eq_nil_or_concat rest with h | ⟨rest1, tp, h⟩
  · subst h
    right
    simpa [markedBody] using hc
  · subst h
    simp only [markedBody, List.concat_eq_append, List.flatMap_append,
      List.flatMap_cons, List.flatMap_nil, List.append_nil] at hc ⊢
    by_cases hp : tp.2 = []
    · left
      rw [hp, List.append_nil, ← List.append_assoc, List.getLast?_append,
        MarkupTag.markup_getLast] at hc
      simpa using hc.symm
    · right
      rw [← List.append_assoc, ← List.append_assoc, getLast?_append_of_ne_nil _ _ hp] at hc
      rw [← List.append_assoc, getLast?_append_of_ne_nil _ _ hp]
      exact hc

theorem bbCode_replace_piece (p after : Str) (h : noTagBegins p after = true) :
    regexReplaceAll bbCodeRxMatch [] false 0 (p ++ after) =
      p ++ regexReplaceAll bbCodeRxMatch [] false 0 after := by
  induction p with
  | nil => rfl
  | cons c p ih =>
    rw [noTagBegins, Bool.and_eq_true] at h
    have hm : bbCodeRxMatch false (c :: (p ++ after)) = none :=
      Option.isNone_iff_eq_none.mp h.1
    rw [List.cons_append, regexReplaceAll_no_match _ _ _ _ _ hm, ih h.2]
    rfl

theorem bbCode_replace_markupTag (t : MarkupTag) (ht : t.wellFormed = true) (Y : Str) :
    regexReplaceAll bbCodeRxMatch [] false 0 (t.text ++ Y) =
      regexReplaceAll bbCodeRxMatch [] false 0 Y := by
  have hm := bbCodeRxMatch_markupTag t ht Y
  obtain ⟨inner, hinner⟩ := MarkupTag.markup_eq_cons t
  rw [hinner] at hm ⊢
  rw [List.cons_append] at hm ⊢
  rw [regexReplaceAll_match bbCodeRxMatch [] false '<' inner Y (by rw [hm]; rfl)]
  rfl

/-- The tag removal takes exactly the tags out of a body whose pieces contain
no further tag. -/
theorem bbCode_replace_markedBody (p0 : Str) (rest : List (MarkupTag × Str))
    (htags : rest.all (fun tp => tp.1.wellFormed) = true)
    (hpieces : piecesTagFree p0 rest = true) :
    regexReplaceAll bbCodeRxMatch [] false 0 (markedBody p0 rest) =
      p0 ++ rest.flatMap (fun tp => tp.2) := by
  induction rest generalizing p0 with
  | nil =>
    rw [piecesTagFree] at hpieces
    have h := bbCode_replace_piece p0 [] hpieces
    rw [List.append_nil] at h
    simp only [markedBody, List.flatMap_nil, List.append_nil]
    rw [h, regexReplaceAll_nil, List.append_nil]
  | cons tp rest ih =>
    rw [piecesTagFree, Bool.and_eq_true] at hpieces
    rw [List.all_cons, Bool.and_eq_true] at htags
    rw [markedBody_cons, bbCode_replace_piece _ _ hpieces.1,
      bbCode_replace_markupTag tp.1 htags.1, ih tp.2 htags.2 hpieces.2, List.flatMap_cons]

theorem TrimFunc_frame (p : Char → Bool) (A M Z : Str) (hA : ∀ c ∈ A, p c = true)
    (hZ : ∀ c ∈ Z, p c = true) (hhead : ∀ c ∈ M.head?, p c = false)
    (hlast : ∀ c ∈ M.getLast?, p c = false) : TrimFunc p (A ++ M ++ Z) = M := by
  rw [TrimFunc_append_of_all p (A ++ M) Z hZ]
  have h : TrimFunc p (A ++ M) = TrimFunc p M := by
    unfold TrimFunc
    rw [List.dropWhile_append_of_pos hA]
  rw [h, TrimFunc_eq_self p M hhead hlast]

theorem isSpace_not_cut (c : Char) (h : isSpace c = true) :
    (fun x => [';', '.'].elem x) c = false := by
  have h1 : c ≠ ';' := by
    intro e
    subst e
    revert h
    decide
  have h2 : c ≠ '.' := by
    intro e
    subst e
    revert h
    decide
  exact isTrimmed_cutset c h1 h2

theorem isPunct_false (c : Char) (h : isPunct c = false) : c ≠ ';' ∧ c ≠ '.' := by
  unfold isPunct at h
  simp only [Bool.or_eq_false_iff, decide_eq_false_iff_not] at h
  exact h

theorem MarkedLine.wellFormed_parts (L : MarkedLine) (h : L.wellFormed = true) :
    (∀ c ∈ L.leadPunct, isPunct c = true) ∧ (∀ c ∈ L.leadSpace, isSpace c = true) ∧
      (∀ c ∈ L.trailSpace, isSpace c = true) ∧ (∀ c ∈ L.trailPunct, isPunct c = true) ∧
      L.rest.all (fun tp => tp.1.wellFormed) = true ∧ piecesTagFree L.first L.rest = true ∧
      (∀ c ∈ L.first.head?, L.leadSpace = [] → isPunct c = false) := by
  unfold MarkedLine.wellFormed at h
  simp only [Bool.and_eq_true] at h
  obtain ⟨⟨⟨⟨⟨⟨h1, h2⟩, h3⟩, h4⟩, h5⟩, h6⟩, h7⟩ := h
  refine ⟨List.all_eq_true.mp h1, List.all_eq_true.mp h2, List.all_eq_true.mp h3,
    List.all_eq_true.mp h4, h5, h6, ?_⟩
  intro c hc he
  rw [Option.mem_def.mp hc, he] at h7
  simpa using h7

theorem isPunct_cut (c : Char) (h : isPunct c = true) :
    (fun x => [';', '.'].elem x) c = true := by
  unfold isPunct at h
  simp only [Bool.or_eq_true, decide_eq_true_eq] at h
  rcases h with h | h <;> rw [h] <;> decide

theorem not_cut_of_not_punct (c : Char) (h : isPunct c = false) :
    (fun x => [';', '.'].elem x) c = false :=
  isTrimmed_cutset c (isPunct_false c h).1 (isPunct_false c h).2

/-- The two trimming steps leave exactly the body of a well-formed marked line
whose pieces neither begin nor end with whitespace and do not end with ";" or
".". -/
theorem MarkedLine.trimmed_text (L : MarkedLine) (hwf : L.wellFormed = true)
    (hhead : ∀ c ∈ L.plain.head?, isSpace c = false)
    (hlast : ∀ c ∈ L.plain.getLast?, isSpace c = false ∧ isPunct c = false) :
    TrimSpace (Trim L.text [';', '.']) = L.body := by
  obtain ⟨h1, h2, h3, h4, _, _, h7⟩ := MarkedLine.wellFormed_parts L hwf
  have hbh : ∀ c ∈ L.body.head?, isSpace c = false ∧
      (L.leadSpace = [] → (fun x => [';', '.'].elem x) c = false) := by
    intro c hc
    rcases markedBody_head L.first L.rest c hc with h | ⟨_, h⟩
    · exact ⟨hhead c (plain_head_of_first L.first L.rest c h),
        fun he => not_cut_of_not_punct c (h7 c h he)⟩
    · rw [h]
      exact ⟨by decide, fun _ => by decide⟩
  have hbl : ∀ c ∈ L.body.getLast?, isSpace c = false ∧
      (fun x => [';', '.'].elem x) c = false := by
    intro c hc
    rcases markedBody_getLast L.first L.rest c hc with h | h
    · rw [h]
      exact ⟨by decide, by decide⟩
    · exact ⟨(hlast c h).1, not_cut_of_not_punct c (hlast c h).2⟩
  have hstep1 : Trim L.text [';', '.'] = L.leadSpace ++ L.body ++ L.trailSpace := by
    unfold Trim MarkedLine.text
    apply TrimFunc_frame _ _ _ _ (fun c hc => isPunct_cut c (h1 c hc))
      (fun c hc => isPunct_cut c (h4 c hc))
    · intro c hc
      rcases head?_append_cases _ _ c hc with h | ⟨_, h⟩
      · rcases head?_append_cases _ _ c h with hw | ⟨he, hb⟩
        · exact isSpace_not_cut c (h2 c (List.mem_of_mem_head? hw))
        · exact (hbh c hb).2 he
      · exact isSpace_not_cut c (h3 c (List.mem_of_mem_head? h))
    · intro c hc
      rcases getLast?_append_cases _ _ c hc with h | ⟨_, h⟩
      · exact isSpace_not_cut c (h3 c (List.mem_of_mem_getLast? h))
      · rcases getLast?_append_cases _ _ c h with hb | ⟨_, hw⟩
        · exact (hbl c hb).2
        · exact isSpace_not_cut c (h2 c (List.mem_of_mem_getLast? hw))
  rw [hstep1]
  exact TrimFunc_frame isSpace _ _ _ h2 h3 (fun c hc => (hbh c hc).1)
    (fun c hc => (hbl c hc).1)

/-- The first three steps take a well-formed marked line to its pieces. -/
theorem MarkedLine.afterTagRemoval_text (L : MarkedLine) (hwf : L.wellFormed = true)
    (hhead : ∀ c ∈ L.plain.head?, isSpace c = false)
    (hlast : ∀ c ∈ L.plain.getLast?, isSpace c = false ∧ isPunct c = false) :
    afterTagRemoval L.text = L.plain := by
  obtain ⟨_, _, _, _, h5, h6, _⟩ := MarkedLine.wellFormed_parts L hwf
  unfold afterTagRemoval
  rw [MarkedLine.trimmed_text L hwf hhead hlast, regexReplaceAll_flag _ _ bbCodeRxMatch_flag]
  exact bbCode_replace_markedBody L.first L.rest h5 h6

theorem newLineTrim_keeps_last (z : Str) (hlast : ∀ c ∈ z.getLast?, isTrimmed c = false)
    (repl : Str) :
    (regexReplaceAll newLineTrimRxMatch repl false 0 z).getLast? = z.getLast? := by
  cases hz : z.getLast? with
  | none =>
    rw [List.getLast?_eq_none_iff.mp hz]
    rfl
  | some z0 =>
    have hne : z ≠ [] := by
      intro e
      rw [e] at hz
      simp at hz
    have h0 := isTrimmed_false z0 (hlast z0 hz)
    apply regexReplaceAll_getLast newLineTrimRxMatch repl
      (fun c => c = '.' ∨ c = ';' ∨ isLineBreak c = true) newLineTrimRxMatch_ends z z0 hz
    · intro hE
      rcases hE with hE | hE | hE
      · exact h0.2.2 hE
      · exact h0.2.1 hE
      · have := isLineBreak_isSpace z0 hE
        rw [h0.1] at this
        exact absurd this (by simp)
    · exact List.length_pos.mpr hne

/-- No punctuation is collapsed at the first character of a text that does not
begin with ";" or "." directly followed by a line break and does not end with
";" or ".". -/
theorem newLineTrimRxMatch_head_none (P : Str)
    (hhead : ∀ c ∈ P.head?, isPunct c = true → ∀ d ∈ P.tail.head?, isLineBreak d = false)
    (hlast : ∀ c ∈ P.getLast?, isTrimmed c = false) :
    newLineTrimRxMatch false P = none := by
  cases P with
  | nil => rfl
  | cons c r =>
    by_cases hc : isPunct c = true
    · cases r with
      | nil =>
        have h := (isTrimmed_false c (hlast c rfl))
        unfold isPunct at hc
        simp only [Bool.or_eq_true, decide_eq_true_eq] at hc
        rcases hc with hc | hc
        · exact absurd hc h.2.1
        · exact absurd hc h.2.2
      | cons d r2 =>
        have hd : isLineBreak d = false := hhead c rfl hc d rfl
        simp [newLineTrimRxMatch, List.takeWhile_cons, hd]
    · have hc2 := isPunct_false c (by simpa using hc)
      exact newLineTrimRxMatch_of_not_punct false c r hc2.2 hc2.1

/-! ## The sense cleaner: trimmed output -/

/-- C15 (amended): for raw lines read as marked lines (runs of ";" "." and of
whitespace around the pieces and tags p0 t1 p1 ... tn pn, no tag inside a
piece), if the pieces p0 ++ ... ++ pn do not begin with whitespace nor with
";" or "." directly followed by a line break, and do not end with whitespace,
";" or ".", every string returned by `CleanEntryMeanings` has no leading and
no trailing whitespace, line breaks included. -/
theorem C15_cleaned_marked_lines_are_trimmed (lines : List MarkedLine)
    (hwf : ∀ L ∈ lines, L.wellFormed = true)
    (hhead : ∀ L ∈ lines, ∀ c ∈ L.plain.head?, isSpace c = false ∧
      (isPunct c = true → ∀ d ∈ L.plain.tail.head?, isLineBreak d = false))
    (hlast : ∀ L ∈ lines, ∀ c ∈ L.plain.getLast?, isTrimmed c = false) :
    ∀ x ∈ CleanEntryMeanings (lines.map MarkedLine.text),
      TrimSpace x = x ∧ (∀ c ∈ x.head?, isSpace c = false) ∧
        (∀ c ∈ x.getLast?, isSpace c = false) := by
  intro x hx
  rw [CleanEntryMeanings_eq_map, List.map_map] at hx
  obtain ⟨L, hL, hLx⟩ := List.mem_map.mp hx
  rw [Function.comp_apply] at hLx
  have hh := hhead L hL
  have hl := hlast L hL
  have hafter : afterTagRemoval L.text = L.plain :=
    MarkedLine.afterTagRemoval_text L (hwf L hL) (fun c hc => (hh c hc).1)
      (fun c hc => ⟨(isTrimmed_false c (hl c hc)).1, by
        have h := isTrimmed_false c (hl c hc)
        simp [isPunct, h.2.1, h.2.2]⟩)
  have hclean : x = regexReplaceAll newLineTrimRxMatch ['\n'] false 0 L.plain := by
    rw [← hLx, cleanLine_eq_afterTagRemoval, hafter]
  have e1 : x.head? = L.plain.head? := by
    rw [hclean]
    cases hP : L.plain with
    | nil => rfl
    | cons c r =>
      have hm := newLineTrimRxMatch_head_none L.plain (fun c hc => (hh c hc).2) hl
      rw [hP] at hm
      rw [regexReplaceAll_no_match _ _ _ _ _ hm]
      rfl
  have e2 : x.getLast? = L.plain.getLast? := by
    rw [hclean]
    exact newLineTrim_keeps_last L.plain hl _
  have g1 : ∀ c ∈ x.head?, isSpace c = false := by
    rw [e1]
    exact fun c hc => (hh c hc).1
  have g2 : ∀ c ∈ x.getLast?, isSpace c = false := by
    rw [e2]
    exact fun c hc => (isTrimmed_false c (hl c hc)).1
  exact ⟨TrimFunc_eq_self isSpace x g1 g2, g1, g2⟩

/-- Witness of C15 (amended) at the three lines of `TestCleanEntryMeanings`
and the line " ;a": each cleaned string is left unchanged by `TrimSpace`. -/
theorem C15_cleaned_marked_lines_witness :
    markedTestLines.map MarkedLine.text = cleanerTestLines ++ [" ;a".toList] ∧
      (CleanEntryMeanings (markedTestLines.map MarkedLine.text)).all
        (fun x => decide (TrimSpace x = x)) = true :=
  ⟨by decide, List.all_eq_true.mpr (fun x hx => decide_eq_true
    (C15_cleaned_marked_lines_are_trimmed markedTestLines (by decide) (by decide)
      (by decide) x hx).1)⟩

/-! ## Lemmas on the punctuation collapse -/

theorem regexReplaceAll_skip_drop (m : Bool → Str → Option Nat) (repl : Str) (n : Nat)
    (s : Str) :
    regexReplaceAll m repl false n s = regexReplaceAll m repl false 0 (s.drop n) := by
  induction s generalizing n with
  | nil => rw [regexReplaceAll_nil, List.drop_nil, regexReplaceAll_nil]
  | cons c cs ih =>
    cases n with
    | zero => rfl
    | succ n1 => rw [regexReplaceAll, ih n1, List.drop_succ_cons]

theorem punctCollapse_nil : punctCollapse [] = [] := rfl

theorem punctCollapse_cons_none (c : Char) (s : Str)
    (h : newLineTrimRxMatch false (c :: s) = none) :
    punctCollapse (c :: s) = c :: punctCollapse s := by
  unfold punctCollapse
  rw [regexReplaceAll_no_match _ _ _ _ _ h]

theorem isPunct_iff (c : Char) : isPunct c = true ↔ (c = '.' || c = ';') = true := by
  unfold isPunct
  simp only [Bool.or_eq_true, decide_eq_true_eq]
  exact Or.comm

theorem drop_length_takeWhile (p : Char → Bool) (s : Str) :
    s.drop (s.takeWhile p).length = s.dropWhile p := by
  induction s with
  | nil => rfl
  | cons c s ih =>
    by_cases hc : p c = true
    · rw [List.takeWhile_cons_of_pos hc, List.dropWhile_cons_of_pos hc, List.length_cons,
        List.drop_succ_cons, ih]
    · rw [List.takeWhile_cons_of_neg hc, List.dropWhile_cons_of_neg hc]
      rfl

theorem dropWhile_length_le (p : Char → Bool) (s : Str) :
    (s.dropWhile p).length ≤ s.length := by
  rw [← drop_length_takeWhile p s, List.length_drop]
  exact Nat.sub_le _ _

/-- What a match of `newLineTrimRx` at the head of c :: s looks like. -/
theorem newLineTrimRxMatch_some (c : Char) (s : Str) (k : Nat)
    (h : newLineTrimRxMatch false (c :: s) = some k) :
    isPunct c = true ∧ k = (s.takeWhile isLineBreak).length + 1 ∧
      (s = [] ∨ s.takeWhile isLineBreak ≠ []) := by
  unfold newLineTrimRxMatch at h
  simp only [] at h
  split_ifs at h with hc hs hl
  · refine ⟨(isPunct_iff c).mpr hc, ?_, Or.inl hs⟩
    rw [hs]
    exact (Option.some.inj h).symm
  · refine ⟨(isPunct_iff c).mpr hc, ?_, Or.inr hl⟩
    have := (Option.some.inj h).symm
    omega

theorem punctCollapse_cons_some (c : Char) (s : Str) (k : Nat)
    (h : newLineTrimRxMatch false (c :: s) = some k) :
    punctCollapse (c :: s) = '\n' :: punctCollapse (s.dropWhile isLineBreak) := by
  obtain ⟨_, hk, _⟩ := newLineTrimRxMatch_some c s k h
  unfold punctCollapse
  rw [regexReplaceAll, h, hk]
  simp only []
  rw [regexReplaceAll_skip_drop, drop_length_takeWhile]
  rfl

theorem newLineTrimRxMatch_none_of_punct (c : Char) (s : Str) (hc : isPunct c = true)
    (h : newLineTrimRxMatch false (c :: s) = none) :
    ∃ d s2, s = d :: s2 ∧ isLineBreak d = false := by
  unfold newLineTrimRxMatch at h
  simp only [] at h
  rw [if_pos ((isPunct_iff c).mp hc)] at h
  cases s with
  | nil => simp at h
  | cons d s2 =>
    refine ⟨d, s2, rfl, ?_⟩
    by_contra hd
    have hd1 : isLineBreak d = true := by simpa using hd
    rw [List.takeWhile_cons_of_pos hd1] at h
    simp at h

/-- A character other than a newline at the head of the collapsed text stood
at the head of the text, and the rest is the collapsed rest. -/
theorem punctCollapse_head_inv (s : Str) (x : Char) (X : Str)
    (h : punctCollapse s = x :: X) (hx : x ≠ '\n') :
    ∃ s1, s = x :: s1 ∧ X = punctCollapse s1 := by
  cases s with
  | nil => exact absurd h (by simp [punctCollapse_nil])
  | cons c s1 =>
    cases hm : newLineTrimRxMatch false (c :: s1) with
    | none =>
      rw [punctCollapse_cons_none c s1 hm] at h
      obtain ⟨h1, h2⟩ := List.cons.inj h
      exact ⟨s1, by rw [h1], h2.symm⟩
    | some k =>
      rw [punctCollapse_cons_some c s1 k hm] at h
      exact absurd (List.cons.inj h).1.symm hx

theorem punctCollapse_run_inv (run : Str) (hrun : ∀ c ∈ run, c ≠ '\n') (s X : Str)
    (h : punctCollapse s = run ++ X) : ∃ s1, s = run ++ s1 ∧ X = punctCollapse s1 := by
  induction run generalizing s with
  | nil => exact ⟨s, rfl, h.symm⟩
  | cons x run ih =>
    obtain ⟨s1, hs1, hX⟩ := punctCollapse_head_inv s x (run ++ X) h
      (hrun x (List.mem_cons_self _ _))
    obtain ⟨s2, hs2, hX2⟩ := ih (fun c hc => hrun c (List.mem_cons_of_mem _ hc)) s1 hX.symm
    exact ⟨s2, by rw [hs1, hs2]; rfl, hX2⟩

theorem hasTag_dropWhile (s : Str) (p : Char → Bool) (h : hasTag s = false) :
    hasTag (s.dropWhile p) = false := by
  induction s with
  | nil => rfl
  | cons c s ih =>
    rw [List.dropWhile_cons]
    split_ifs
    · exact ih (hasTag_cons_false c s h).2
    · exact h

theorem anchorSplitByBreak_cons_false (c : Char) (s : Str)
    (h : anchorSplitByBreak (c :: s) = false) :
    anchorSplitByBreak s = false ∧
      (c = '<' → anchorSplitAt s = false ∧ anchorSplitAt (s.drop (slashLen s)) = false) := by
  rw [anchorSplitByBreak] at h
  simp only [Bool.or_eq_false_iff, Bool.and_eq_false_iff, decide_eq_false_iff_not] at h
  refine ⟨h.2, fun hc => ?_⟩
  rcases h.1 with h1 | h1
  · exact absurd hc h1
  · exact h1

theorem anchorSplitByBreak_dropWhile (s : Str) (p : Char → Bool)
    (h : anchorSplitByBreak s = false) : anchorSplitByBreak (s.dropWhile p) = false := by
  induction s with
  | nil => rfl
  | cons c s ih =>
    rw [List.dropWhile_cons]
    split_ifs
    · exact ih (anchorSplitByBreak_cons_false c s h).1
    · exact h

theorem punctCollapse_head_kept (x : Char) (s1 X : Str)
    (h : punctCollapse (x :: s1) = x :: X) (hx : x ≠ '\n') :
    newLineTrimRxMatch false (x :: s1) = none := by
  cases hm : newLineTrimRxMatch false (x :: s1) with
  | none => rfl
  | some k =>
    rw [punctCollapse_cons_some x s1 k hm] at h
    exact absurd (List.cons.inj h).1.symm hx

theorem no_punct_before_return (x : Char) (s1 : Str)
    (hm : newLineTrimRxMatch false (x :: s1) = none) :
    (!(isPunct x && decide (s1.head? = some '\r'))) = true := by
  by_cases hp : isPunct x = true
  · obtain ⟨d, s2, hs2, hd⟩ := newLineTrimRxMatch_none_of_punct x s1 hp hm
    have hne : d ≠ '\r' := by
      intro e
      rw [e] at hd
      exact absurd hd (by decide)
    simp [hs2, hne]
  · simp [hp]

theorem hrefTailScan_of_punctCollapse (u : Str) (hu : ∀ x ∈ u, x ≠ '\n') (s rest : Str)
    (h : punctCollapse s = (u ++ ['>']) ++ rest) : hrefTailScan s = true := by
  induction u generalizing s with
  | nil =>
    obtain ⟨s1, hs1, _⟩ := punctCollapse_head_inv s '>' rest h (by decide)
    rw [hs1]
    simp [hrefTailScan]
  | cons x u ih =>
    have hx : x ≠ '\n' := hu x (List.mem_cons_self _ _)
    obtain ⟨s1, hs1, hX⟩ := punctCollapse_head_inv s x ((u ++ ['>']) ++ rest) h hx
    subst hs1
    have hm := punctCollapse_head_kept x s1 _ h hx
    rw [hrefTailScan, ih (fun y hy => hu y (List.mem_cons_of_mem _ hy)) s1 hX.symm,
      no_punct_before_return x s1 hm]
    simp [hx]

theorem hrefTail_of_punctCollapse (c : Char) (u : Str) (hc : c ≠ '\n')
    (hu : ∀ x ∈ u, x ≠ '\n') (s rest : Str)
    (h : punctCollapse s = c :: ((u ++ ['>']) ++ rest)) : hrefTail s = true := by
  obtain ⟨s1, hs1, hX⟩ := punctCollapse_head_inv s c ((u ++ ['>']) ++ rest) h hc
  subst hs1
  have hm := punctCollapse_head_kept c s1 _ h hc
  rw [hrefTail, hrefTailScan_of_punctCollapse u hu s1 rest hX.symm,
    no_punct_before_return c s1 hm]
  simp [hc]

/-- When the collapsed text begins with "a", whitespace and "href" after
the prefix `pre`, either the text itself does, or an "a" followed by
punctuation, line breaks and "href" was joined by the collapse. -/
theorem punctCollapse_href_inv (pre : Str) (hpre : ∀ x ∈ pre, x ≠ '\n') (w c : Char)
    (u rest s1 : Str) (hw : isRxSpace w = true) (hc : c ≠ '\n') (hu : ∀ x ∈ u, x ≠ '\n')
    (h : punctCollapse s1 =
      pre ++ 'a' :: w :: 'h' :: 'r' :: 'e' :: 'f' :: c :: ((u ++ ['>']) ++ rest)) :
    (∃ w2 s2, isRxSpace w2 = true ∧
      s1 = pre ++ 'a' :: w2 :: 'h' :: 'r' :: 'e' :: 'f' :: c :: ((u ++ ['>']) ++ s2)) ∨
      (∃ d s3, s1 = pre ++ 'a' :: d :: s3 ∧ anchorSplitAt ('a' :: d :: s3) = true) := by
  have hrun : ∀ x ∈ 'h' :: 'r' :: 'e' :: 'f' :: c :: (u ++ ['>']), x ≠ '\n' := by
    intro x hx
    simp only [List.mem_cons, List.mem_append, List.mem_singleton, List.not_mem_nil,
      or_false] at hx
    rcases hx with hx | hx | hx | hx | hx | hx | hx
    · rw [hx]; decide
    · rw [hx]; decide
    · rw [hx]; decide
    · rw [hx]; decide
    · rw [hx]; exact hc
    · exact hu x hx
    · rw [hx]; decide
  have h1 : punctCollapse s1 =
      (pre ++ ['a']) ++ (w :: 'h' :: 'r' :: 'e' :: 'f' :: c :: ((u ++ ['>']) ++ rest)) := by
    rw [h]
    simp
  obtain ⟨s2, hs2, hX⟩ := punctCollapse_run_inv (pre ++ ['a'])
    (by
      intro x hx
      rcases List.mem_append.mp hx with hx | hx
      · exact hpre x hx
      · rw [List.mem_singleton.mp hx]; decide) s1 _ h1
  by_cases hwn : w = '\n'
  · subst hwn
    cases s2 with
    | nil => exact absurd hX (by simp [punctCollapse_nil])
    | cons d s3 =>
      cases hm : newLineTrimRxMatch false (d :: s3) with
      | none =>
        rw [punctCollapse_cons_none d s3 hm] at hX
        obtain ⟨hd, hX2⟩ := List.cons.inj hX
        have hX3 : punctCollapse s3 =
            ('h' :: 'r' :: 'e' :: 'f' :: c :: (u ++ ['>'])) ++ rest := by
          rw [← hX2]
          simp
        obtain ⟨s4, hs4, _⟩ := punctCollapse_run_inv _ hrun s3 rest hX3
        refine Or.inl ⟨'\n', s4, by decide, ?_⟩
        rw [hs2, ← hd, hs4]
        simp
      | some k =>
        rw [punctCollapse_cons_some d s3 k hm] at hX
        obtain ⟨hd, hsite, hbr⟩ := newLineTrimRxMatch_some d s3 k hm
        have hX2 := (List.cons.inj hX).2
        have hX3 : punctCollapse (s3.dropWhile isLineBreak) =
            ['h', 'r', 'e', 'f'] ++ (c :: ((u ++ ['>']) ++ rest)) := by
          rw [← hX2]
          rfl
        obtain ⟨s4, hs4, hX4⟩ := punctCollapse_run_inv ['h', 'r', 'e', 'f'] (by decide) _ _ hX3
        have htail := hrefTail_of_punctCollapse c u hc hu s4 rest hX4.symm
        have hne : s3.takeWhile isLineBreak ≠ [] := by
          rcases hbr with hbr | hbr
          · rw [hbr] at hs4
            exact absurd hs4 (by simp)
          · exact hbr
        refine Or.inr ⟨d, s3, ?_, ?_⟩
        · rw [hs2]
          simp
        · unfold anchorSplitAt
          simp only [decide_True, hd, Bool.true_and, Bool.and_eq_true, Bool.not_eq_true',
            List.isEmpty_eq_false, decide_eq_true_eq, hs4]
          exact ⟨⟨hne, rfl⟩, htail⟩
  · obtain ⟨s4, hs4, _⟩ := punctCollapse_run_inv
      (w :: 'h' :: 'r' :: 'e' :: 'f' :: c :: (u ++ ['>']))
      (by
        intro x hx
        rcases List.mem_cons.mp hx with hx | hx
        · rw [hx]; exact hwn
        · exact hrun x hx) s2 rest (by rw [← hX]; simp)
    refine Or.inl ⟨w, s4, hw, ?_⟩
    rw [hs2, hs4]
    simp

/-- A tag at a "<" of the collapsed text is a tag at that "<" of the text,
unless the collapse joined "a", punctuation, line breaks and "href". -/
theorem tag_after_punctCollapse (s1 : Str) (k : Nat)
    (h : bbCodeRxMatch false ('<' :: punctCollapse s1) = some k) :
    (bbCodeRxMatch false ('<' :: s1)).isSome = true ∨ anchorSplitAt s1 = true ∨
      anchorSplitAt (s1.drop (slashLen s1)) = true := by
  obtain ⟨t, ht, rest, hrest⟩ := bbCodeRxMatch_shape _ k h
  have key : ∀ (t2 : MarkupTag) (s2 : Str), t2.wellFormed = true → '<' :: s1 = t2.text ++ s2 →
      (bbCodeRxMatch false ('<' :: s1)).isSome = true := by
    intro t2 s2 h1 h2
    rw [h2, bbCodeRxMatch_markupTag t2 h1]
    rfl
  cases t with
  | italic cl =>
    cases cl
    · have e : punctCollapse s1 = ['i', '>'] ++ rest := (List.cons.inj hrest).2
      obtain ⟨s2, hs2, _⟩ := punctCollapse_run_inv ['i', '>'] (by decide) s1 rest e
      exact Or.inl (key (MarkupTag.italic false) s2 rfl (by rw [hs2]; rfl))
    · have e : punctCollapse s1 = ['/', 'i', '>'] ++ rest := (List.cons.inj hrest).2
      obtain ⟨s2, hs2, _⟩ := punctCollapse_run_inv ['/', 'i', '>'] (by decide) s1 rest e
      exact Or.inl (key (MarkupTag.italic true) s2 rfl (by rw [hs2]; rfl))
  | anchor cl =>
    cases cl
    · have e : punctCollapse s1 = ['a', '>'] ++ rest := (List.cons.inj hrest).2
      obtain ⟨s2, hs2, _⟩ := punctCollapse_run_inv ['a', '>'] (by decide) s1 rest e
      exact Or.inl (key (MarkupTag.anchor false) s2 rfl (by rw [hs2]; rfl))
    · have e : punctCollapse s1 = ['/', 'a', '>'] ++ rest := (List.cons.inj hrest).2
      obtain ⟨s2, hs2, _⟩ := punctCollapse_run_inv ['/', 'a', '>'] (by decide) s1 rest e
      exact Or.inl (key (MarkupTag.anchor true) s2 rfl (by rw [hs2]; rfl))
  | anchorHref cl w c u =>
    have ht2 : isRxSpace w = true ∧ c ≠ '\n' ∧ ∀ x ∈ u, x ≠ '\n' := by
      unfold MarkupTag.wellFormed at ht
      simp only [Bool.and_eq_true, bne_iff_ne, ne_eq, List.all_eq_true] at ht
      exact ⟨ht.1.1, ht.1.2, fun x hx => (ht.2 x hx).2⟩
    obtain ⟨hw, hc, hu⟩ := ht2
    have hwf : ∀ w2, isRxSpace w2 = true → (MarkupTag.anchorHref cl w2 c u).wellFormed = true := by
      intro w2 hw2
      unfold MarkupTag.wellFormed at ht ⊢
      simp only [Bool.and_eq_true] at ht ⊢
      exact ⟨⟨hw2, ht.1.2⟩, ht.2⟩
    cases cl
    · have e : punctCollapse s1 =
          [] ++ 'a' :: w :: 'h' :: 'r' :: 'e' :: 'f' :: c :: ((u ++ ['>']) ++ rest) :=
        (List.cons.inj hrest).2
      rcases punctCollapse_href_inv [] (by simp) w c u rest s1 hw hc hu e with
        ⟨w2, s2, hw2, hs2⟩ | ⟨d, s3, hs3, hsplit⟩
      · exact Or.inl (key (MarkupTag.anchorHref false w2 c u) s2 (hwf w2 hw2)
          (by rw [hs2]; rfl))
      · rw [List.nil_append] at hs3
        exact Or.inr (Or.inl (by rw [hs3]; exact hsplit))
    · have e : punctCollapse s1 =
          ['/'] ++ 'a' :: w :: 'h' :: 'r' :: 'e' :: 'f' :: c :: ((u ++ ['>']) ++ rest) :=
        (List.cons.inj hrest).2
      rcases punctCollapse_href_inv ['/'] (by decide) w c u rest s1 hw hc hu e with
        ⟨w2, s2, hw2, hs2⟩ | ⟨d, s3, hs3, hsplit⟩
      · exact Or.inl (key (MarkupTag.anchorHref true w2 c u) s2 (hwf w2 hw2)
          (by rw [hs2]; rfl))
      · exact Or.inr (Or.inr (by rw [hs3]; exact hsplit))

/-- The collapse creates no tag in a line without tags in which no "a",
punctuation, line breaks and "href" follow a "<". -/
theorem hasTag_punctCollapse (s : Str) (h1 : hasTag s = false)
    (h2 : anchorSplitByBreak s = false) : hasTag (punctCollapse s) = false := by
  have main : ∀ n (s : Str), s.length ≤ n → hasTag s = false →
      anchorSplitByBreak s = false → hasTag (punctCollapse s) = false := by
    intro n
    induction n with
    | zero =>
      intro s hn _ _
      rw [List.length_eq_zero.mp (Nat.le_zero.mp hn)]
      rfl
    | succ n ih =>
      intro s hn h1 h2
      cases s with
      | nil => rfl
      | cons c s1 =>
        have hlen : s1.length ≤ n := by
          rw [List.length_cons] at hn
          omega
        obtain ⟨hm1, ht1⟩ := hasTag_cons_false c s1 h1
        obtain ⟨ha1, ha2⟩ := anchorSplitByBreak_cons_false c s1 h2
        cases hm : newLineTrimRxMatch false (c :: s1) with
        | none =>
          rw [punctCollapse_cons_none c s1 hm, hasTag, ih s1 hlen ht1 ha1, Bool.or_false]
          cases hb : bbCodeRxMatch false (c :: punctCollapse s1) with
          | none => rfl
          | some k =>
            exfalso
            by_cases hc : c = '<'
            · subst hc
              rcases tag_after_punctCollapse s1 k hb with h | h | h
              · rw [hm1] at h
                exact absurd h (by simp)
              · rw [(ha2 rfl).1] at h
                exact absurd h (by simp)
              · rw [(ha2 rfl).2] at h
                exact absurd h (by simp)
            · rw [bbCodeRxMatch_of_ne_lt false c _ hc] at hb
              exact absurd hb (by simp)
        | some k =>
          rw [punctCollapse_cons_some c s1 k hm, hasTag,
            bbCodeRxMatch_of_ne_lt false '\n' _ (by decide),
            ih (s1.dropWhile isLineBreak)
              (Nat.le_trans (dropWhile_length_le _ _) hlen)
              (hasTag_dropWhile s1 _ ht1) (anchorSplitByBreak_dropWhile s1 _ ha1)]
          rfl
  exact main s.length s (Nat.le_refl _) h1 h2

theorem doublePunctBeforeBreak_cons_false (c : Char) (s : Str)
    (h : doublePunctBeforeBreak (c :: s) = false) : doublePunctBeforeBreak s = false := by
  cases s with
  | nil => rfl
  | cons a s =>
    cases s with
    | nil => rfl
    | cons b s =>
      rw [doublePunctBeforeBreak] at h
      simp only [Bool.or_eq_false_iff] at h
      exact h.2

theorem doublePunctBeforeBreak_dropWhile (s : Str) (p : Char → Bool)
    (h : doublePunctBeforeBreak s = false) :
    doublePunctBeforeBreak (s.dropWhile p) = false := by
  induction s with
  | nil => rfl
  | cons c s ih =>
    rw [List.dropWhile_cons]
    split_ifs
    · exact ih (doublePunctBeforeBreak_cons_false c s h)
    · exact h

theorem getLast?_cons_of_mem (c x : Char) (s : Str) (h : x ∈ s.getLast?) :
    x ∈ (c :: s).getLast? := by
  cases s with
  | nil => simp at h
  | cons a s =>
    rw [List.getLast?_cons_cons]
    exact h

theorem getLast?_dropWhile (s : Str) (p : Char → Bool) (x : Char)
    (h : x ∈ (s.dropWhile p).getLast?) : x ∈ s.getLast? := by
  induction s with
  | nil => exact h
  | cons c s ih =>
    rw [List.dropWhile_cons] at h
    split_ifs at h
    · exact getLast?_cons_of_mem c x s (ih h)
    · exact h

/-- The collapse leaves no ";" or "." before a line break in a line that
does not end in punctuation and has no two punctuation characters before a
line break. -/
theorem punctBeforeBreak_punctCollapse (s : Str) (h1 : doublePunctBeforeBreak s = false)
    (h2 : ∀ c ∈ s.getLast?, isPunct c = false) :
    punctBeforeBreak (punctCollapse s) = false := by
  have main : ∀ n (s : Str), s.length ≤ n → doublePunctBeforeBreak s = false →
      (∀ c ∈ s.getLast?, isPunct c = false) → punctBeforeBreak (punctCollapse s) = false := by
    intro n
    induction n with
    | zero =>
      intro s hn _ _
      rw [List.length_eq_zero.mp (Nat.le_zero.mp hn)]
      rfl
    | succ n ih =>
      intro s hn h1 h2
      cases s with
      | nil => rfl
      | cons c s1 =>
        have hlen : s1.length ≤ n := by
          rw [List.length_cons] at hn
          omega
        have hd1 := doublePunctBeforeBreak_cons_false c s1 h1
        have hl1 : ∀ x ∈ s1.getLast?, isPunct x = false :=
          fun x hx => h2 x (getLast?_cons_of_mem c x s1 hx)
        cases hm : newLineTrimRxMatch false (c :: s1) with
        | none =>
          rw [punctCollapse_cons_none c s1 hm]
          have hrec := ih s1 hlen hd1 hl1
          cases ho : punctCollapse s1 with
          | nil => rfl
          | cons x o1 =>
            rw [punctBeforeBreak, ← ho, hrec, Bool.or_false]
            by_contra hcon
            simp only [Bool.not_eq_false, Bool.and_eq_true] at hcon
            obtain ⟨hc, hx⟩ := hcon
            obtain ⟨d, s2, hs2, hd⟩ :=
              newLineTrimRxMatch_none_of_punct c s1 ((isPunct_iff c).mpr hc) hm
            subst hs2
            cases hm2 : newLineTrimRxMatch false (d :: s2) with
            | none =>
              rw [punctCollapse_cons_none d s2 hm2] at ho
              rw [(List.cons.inj ho).1, hx] at hd
              exact absurd hd (by simp)
            | some k2 =>
              obtain ⟨hdp, _, hbr⟩ := newLineTrimRxMatch_some d s2 k2 hm2
              rcases hbr with hbr | hbr
              · subst hbr
                have := h2 d rfl
                rw [hdp] at this
                exact absurd this (by simp)
              · cases s2 with
                | nil => exact hbr rfl
                | cons e s3 =>
                  have he : isLineBreak e = true := by
                    by_contra he
                    exact hbr (List.takeWhile_cons_of_neg he)
                  rw [doublePunctBeforeBreak, (isPunct_iff c).mpr hc, hdp, he] at h1
                  simp at h1
        | some k =>
          rw [punctCollapse_cons_some c s1 k hm]
          have hrec := ih (s1.dropWhile isLineBreak)
            (Nat.le_trans (dropWhile_length_le _ _) hlen)
            (doublePunctBeforeBreak_dropWhile s1 _ hd1)
            (fun x hx => hl1 x (getLast?_dropWhile s1 _ x hx))
          cases ho : punctCollapse (s1.dropWhile isLineBreak) with
          | nil => rfl
          | cons x o1 =>
            rw [punctBeforeBreak, ← ho, hrec]
            rfl
  exact main s.length s (Nat.le_refl _) h1 h2

theorem isPunct_of_isTrimmed_false (c : Char) (h : isTrimmed c = false) :
    isPunct c = false := by
  obtain ⟨_, h1, h2⟩ := isTrimmed_false c h
  simp [isPunct, h1, h2]

/-- The cleaned string of a marked line whose pieces, put together, neither
begin nor end with whitespace, ";" or "." is the collapse of the pieces. -/
theorem MarkedLine.cleanLine_text (L : MarkedLine) (hwf : L.wellFormed = true)
    (hhead : ∀ c ∈ L.plain.head?, isTrimmed c = false)
    (hlast : ∀ c ∈ L.plain.getLast?, isTrimmed c = false) :
    cleanLine L.text = punctCollapse L.plain := by
  rw [cleanLine_eq_afterTagRemoval, MarkedLine.afterTagRemoval_text L hwf
    (fun c hc => (isTrimmed_false c (hhead c hc)).1)
    (fun c hc => ⟨(isTrimmed_false c (hlast c hc)).1,
      isPunct_of_isTrimmed_false c (hlast c hc)⟩)]
  rfl

/-! ## The sense cleaner: idempotence -/

/-- C12 (amended): read each raw line as a run of ";" and ".", a run of
whitespace, text pieces separated by tags, a run of whitespace and a run of
";" and ".", where no tag begins inside a piece. When the pieces of every
line, put together, neither begin nor end with whitespace, ";" or ".",
contain no tag, have no two characters of ";" and "." directly before a line
break, and have no "<a" or "</a" directly followed by ";" or ".", line
breaks, "href" and the end of a link tag, cleaning the cleaned lines again
returns them unchanged. -/
theorem C12_cleaning_marked_lines_twice_is_once (lines : List MarkedLine)
    (hwf : ∀ L ∈ lines, L.wellFormed = true)
    (hhead : ∀ L ∈ lines, ∀ c ∈ L.plain.head?, isTrimmed c = false)
    (hlast : ∀ L ∈ lines, ∀ c ∈ L.plain.getLast?, isTrimmed c = false)
    (htag : ∀ L ∈ lines, hasTag L.plain = false)
    (hpunct : ∀ L ∈ lines, doublePunctBeforeBreak L.plain = false)
    (hsplit : ∀ L ∈ lines, anchorSplitByBreak L.plain = false) :
    CleanEntryMeanings (CleanEntryMeanings (lines.map MarkedLine.text)) =
      CleanEntryMeanings (lines.map MarkedLine.text) := by
  rw [CleanEntryMeanings_eq_map (lines.map MarkedLine.text),
    CleanEntryMeanings_eq_map ((lines.map MarkedLine.text).map cleanLine), List.map_map,
    List.map_map, List.map_map]
  apply List.map_congr_left
  intro L hL
  rw [Function.comp_apply, Function.comp_apply, Function.comp_apply,
    MarkedLine.cleanLine_text L (hwf L hL) (hhead L hL) (hlast L hL)]
  obtain ⟨e1, e2⟩ := newLineTrim_keeps_ends L.plain (hhead L hL) (hlast L hL) ['\n']
  apply cleanLine_fixed
  · unfold punctCollapse
    rw [e1]
    exact hhead L hL
  · unfold punctCollapse
    rw [e2]
    exact hlast L hL
  · exact hasTag_punctCollapse L.plain (htag L hL) (hsplit L hL)
  · exact punctBeforeBreak_punctCollapse L.plain (hpunct L hL)
      (fun c hc => isPunct_of_isTrimmed_false c (hlast L hL c hc))

/-- Witness of C12 (amended) at the three lines of `TestCleanEntryMeanings`,
read as marked lines. -/
theorem C12_cleaning_marked_lines_witness :
    (markedTestLines.take 3).map MarkedLine.text = cleanerTestLines ∧
      CleanEntryMeanings (CleanEntryMeanings ((markedTestLines.take 3).map MarkedLine.text)) =
        CleanEntryMeanings ((markedTestLines.take 3).map MarkedLine.text) :=
  ⟨by decide, C12_cleaning_marked_lines_twice_is_once (markedTestLines.take 3) (by decide)
    (by decide) (by decide) (by decide) (by decide) (by decide)⟩

/-! ## Every raw line has a reading as a marked line -/

theorem piecesTagFree_cons (c : Char) (p0 : Str) (rest : List (MarkupTag × Str))
    (hc : bbCodeRxMatch false (c :: markedBody p0 rest) = none)
    (h : piecesTagFree p0 rest = true) : piecesTagFree (c :: p0) rest = true := by
  cases rest with
  | nil =>
    rw [piecesTagFree] at h ⊢
    rw [noTagBegins, h, Bool.and_true]
    have e : markedBody p0 [] = p0 ++ [] := by simp [markedBody]
    rw [e] at hc
    rw [hc]
    rfl
  | cons tp rest =>
    rw [piecesTagFree] at h ⊢
    rw [Bool.and_eq_true] at h ⊢
    refine ⟨?_, h.2⟩
    rw [noTagBegins, h.1, Bool.and_true]
    rw [markedBody_cons] at hc
    rw [hc]
    rfl

/-- Every text is a marked body: pieces and well-formed tags with no tag
beginning inside a piece. -/
theorem exists_markedBody (y : Str) :
    ∃ p0 rest, markedBody p0 rest = y ∧ rest.all (fun tp => tp.1.wellFormed) = true ∧
      piecesTagFree p0 rest = true ∧ ∀ c ∈ p0.head?, c ∈ y.head? := by
  have main : ∀ n (y : Str), y.length ≤ n →
      ∃ p0 rest, markedBody p0 rest = y ∧ rest.all (fun tp => tp.1.wellFormed) = true ∧
        piecesTagFree p0 rest = true ∧ ∀ c ∈ p0.head?, c ∈ y.head? := by
    intro n
    induction n with
    | zero =>
      intro y hn
      rw [List.length_eq_zero.mp (Nat.le_zero.mp hn)]
      exact ⟨[], [], rfl, rfl, rfl, fun c hc => hc⟩
    | succ n ih =>
      intro y hn
      cases y with
      | nil => exact ⟨[], [], rfl, rfl, rfl, fun c hc => hc⟩
      | cons c cs =>
        have hlen : cs.length ≤ n := by
          rw [List.length_cons] at hn
          omega
        cases hm : bbCodeRxMatch false (c :: cs) with
        | none =>
          obtain ⟨p0, rest, h1, h2, h3, _⟩ := ih cs hlen
          refine ⟨c :: p0, rest, ?_, h2, ?_, fun x hx => hx⟩
          · rw [← h1]
            rfl
          · apply piecesTagFree_cons c p0 rest _ h3
            rw [h1]
            exact hm
        | some k =>
          obtain ⟨t, ht, rest0, hy⟩ := bbCodeRxMatch_shape _ k hm
          obtain ⟨inner, hinner⟩ := MarkupTag.markup_eq_cons t
          have hlen0 : rest0.length ≤ n := by
            have e := congrArg List.length hy
            rw [hinner, List.length_cons, List.length_append, List.length_cons] at e
            omega
          obtain ⟨p0, rest, h1, h2, h3, _⟩ := ih rest0 hlen0
          refine ⟨[], (t, p0) :: rest, ?_, ?_, ?_, fun x hx => absurd hx (by simp)⟩
          · rw [markedBody_cons, List.nil_append, h1, hy]
          · rw [List.all_cons, h2, Bool.and_true]
            exact ht
          · rw [piecesTagFree, noTagBegins, Bool.true_and]
            exact h3
  exact main y.length y (Nat.le_refl _)

/-- A text is its part before the trailing run of `p` followed by that run. -/
theorem trailing_run (p : Char → Bool) (a : Str) :
    a = (a.reverse.dropWhile p).reverse ++ (a.reverse.takeWhile p).reverse ∧
      ∀ c ∈ (a.reverse.takeWhile p).reverse, p c = true := by
  constructor
  · rw [← List.reverse_append, List.takeWhile_append_dropWhile, List.reverse_reverse]
  · intro c hc
    exact List.mem_takeWhile_imp (List.mem_reverse.mp hc)

/-- Every raw line has a reading as a well-formed marked line. -/
theorem exists_markedLine (l : Str) :
    ∃ L : MarkedLine, L.wellFormed = true ∧ L.text = l := by
  obtain ⟨ha, hR2⟩ := trailing_run isPunct (l.dropWhile isPunct)
  obtain ⟨hc, hW2⟩ := trailing_run isSpace
    (((l.dropWhile isPunct).reverse.dropWhile isPunct).reverse.dropWhile isSpace)
  generalize hR1 : l.takeWhile isPunct = R1 at *
  have hl : l = l.takeWhile isPunct ++ l.dropWhile isPunct :=
    (List.takeWhile_append_dropWhile isPunct l).symm
  have hahead := dropWhile_head_not isPunct l
  generalize l.dropWhile isPunct = a at *
  generalize (a.reverse.takeWhile isPunct).reverse = R2 at *
  have hb : (a.reverse.dropWhile isPunct).reverse =
      (a.reverse.dropWhile isPunct).reverse.takeWhile isSpace ++
        (a.reverse.dropWhile isPunct).reverse.dropWhile isSpace :=
    (List.takeWhile_append_dropWhile isSpace _).symm
  have hW1 : ∀ x ∈ (a.reverse.dropWhile isPunct).reverse.takeWhile isSpace, isSpace x = true :=
    fun x hx => List.mem_takeWhile_imp hx
  generalize (a.reverse.dropWhile isPunct).reverse = b at *
  generalize b.takeWhile isSpace = W1 at *
  generalize b.dropWhile isSpace = c at *
  generalize (c.reverse.takeWhile isSpace).reverse = W2 at *
  generalize (c.reverse.dropWhile isSpace).reverse = y at *
  obtain ⟨p0, rest, h1, h2, h3, h4⟩ := exists_markedBody y
  refine ⟨⟨R1, W1, p0, rest, W2, R2⟩, ?_, ?_⟩
  · unfold MarkedLine.wellFormed
    simp only [Bool.and_eq_true]
    refine ⟨⟨⟨⟨⟨⟨?_, ?_⟩, ?_⟩, ?_⟩, h2⟩, h3⟩, ?_⟩
    · rw [← hR1]
      exact List.all_eq_true.mpr (fun x hx => List.mem_takeWhile_imp hx)
    · exact List.all_eq_true.mpr hW1
    · exact List.all_eq_true.mpr hW2
    · exact List.all_eq_true.mpr hR2
    · cases hp : p0 with
      | nil => rfl
      | cons x p1 =>
        have hx : x ∈ y.head? := h4 x (by rw [hp]; rfl)
        cases hw : W1 with
        | cons w W => simp
        | nil =>
          have hxa : x ∈ a.head? := by
            obtain ⟨y1, hy1⟩ : ∃ y1, y = x :: y1 := by
              cases y with
              | nil => simp at hx
              | cons z y1 =>
                simp only [List.head?_cons, Option.mem_def, Option.some.injEq] at hx
                exact ⟨y1, by rw [hx]⟩
            rw [ha, hb, hw, List.nil_append, hc, hy1]
            rfl
          have := hahead x hxa
          simp [this]
  · show R1 ++ (W1 ++ markedBody p0 rest ++ W2) ++ R2 = l
    rw [h1, hl, hR1, ha, hb, hc]
    simp

end Warodai
